import Mathlib

/-!
# Verification of the keras_core symbolic graph engine

A shallow embedding of `src/keras_core/operations/function.py`: the graph
mapper (`map_graph`, `_build_map`, `_build_map_helper`), the `Function`
replay engine (`_run_through_graph`, `call`, `compute_output_spec`) and the
input compatibility check (`_assert_input_compatibility`), together with
proofs of the specified properties.

Tensors, operations and nodes are identity-keyed Python objects; we key them
by natural-number identities and keep their attributes in finite association
lists inside a `Graph` record.  Python `dict`s (insertion ordered, in-place
update) are embedded as association lists with the same semantics.
-/

set_option maxHeartbeats 1000000

namespace KerasGraph

/-! ## Association lists with Python dict semantics -/

/-- First binding of key `k`, like a Python dict lookup. -/
def alGet {β : Type} (l : List (Nat × β)) (k : Nat) : Option β :=
  (l.find? (fun p => p.1 == k)).map (·.2)

/-- `dict.get(k, d)`. -/
def alGetD {β : Type} (l : List (Nat × β)) (k : Nat) (d : β) : β :=
  (alGet l k).getD d

/-- `dict[k] = v`: replace in place if present, else append (insertion order). -/
def alUpdate {β : Type} (l : List (Nat × β)) (k : Nat) (v : β) : List (Nat × β) :=
  if (l.find? (fun p => p.1 == k)).isSome then
    l.map (fun p => if p.1 == k then (k, v) else p)
  else
    l ++ [(k, v)]

/-- `dict.setdefault(k, v)`: insert `v` only if `k` is absent. -/
def alSetdefault {β : Type} (l : List (Nat × β)) (k : Nat) (v : β) : List (Nat × β) :=
  if (l.find? (fun p => p.1 == k)).isSome then l else l ++ [(k, v)]

def alKeys {β : Type} (l : List (Nat × β)) : List Nat :=
  l.map (·.1)

/-- Python `set.add` on a list kept duplicate-free. -/
def setAdd (l : List String) (s : String) : List String :=
  if s ∈ l then l else l ++ [s]

/-! ## Data model

The `KerasTensor`, `Operation` and `Node` classes are not part of the
source excerpt (only `function.py` is); their attributes used by
`function.py` are modelled from the spec, sections 3 and 9:

* a symbolic tensor carries a shape (optional dimensions), a dtype and a
  produced-by reference `_keras_history = (operation, node_index, _)`
  (absent for raw tensors);
* an operation carries a name and the ordered list `_inbound_nodes` of its
  applications;
* a node carries its owning operation, an `is_input` flag, the ordered
  input tensor list and the ordered output tensor list.  For a root input
  node, input tensors and output tensors coincide (the single placeholder
  tensor), so that the connectivity scan of `map_graph` sees undeclared
  root placeholders as non-computable (spec sections 4.1.5 and 8).
-/

structure Tensor where
  shape : List (Option Nat)
  dtype : String
  history : Option (Nat × Nat)
deriving DecidableEq, Repr, Inhabited

structure Operation where
  name : String
  inbound_nodes : List Nat
deriving DecidableEq, Repr, Inhabited

structure Node where
  operation : Option Nat
  is_input : Bool
  input_tensors : List Nat
  outputs : List Nat
deriving DecidableEq, Repr, Inhabited

/-- The immutable object registry built during graph definition. -/
structure Graph where
  tensors : List (Nat × Tensor)
  ops : List (Nat × Operation)
  nodes : List (Nat × Node)
deriving DecidableEq, Repr

/-- Attribute access on a tensor object (total: a dangling identity yields the
default record, whose `history` is `none`). -/
def Graph.tensor (G : Graph) (t : Nat) : Tensor :=
  (alGet G.tensors t).getD default

def Graph.op (G : Graph) (o : Nat) : Operation :=
  (alGet G.ops o).getD default

def Graph.node (G : Graph) (n : Nat) : Node :=
  (alGet G.nodes n).getD default

/-- `operation._inbound_nodes[node_index]` for the node recorded in a tensor's
`_keras_history`, or `none` when the tensor has no producing operation. -/
def resolveNode (G : Graph) (t : Nat) : Option Nat :=
  match (G.tensor t).history with
  | some (o, i) => some ((G.op o).inbound_nodes.getD i 0)
  | none => none

/-- Modelled from the spec: `node.parent_nodes`, the producing node of each
input tensor that has a producing operation.  A root input node is "a raw
root input" (spec section 3) and has no dependencies. -/
def parentNodes (G : Graph) (n : Node) : List Nat :=
  if n.is_input then []
  else n.input_tensors.filterMap (fun t => resolveNode G t)

/-! ## `_build_map` / `_build_map_helper`: depth-first backward traversal -/

structure DFSState where
  finished : List Nat
  in_progress : List Nat
  /-- `nodes_in_decreasing_depth` -/
  order : List Nat
  /-- `operation_indices` (`-1` is used later for unreached inputs) -/
  operation_indices : List (Nat × Int)
deriving DecidableEq, Repr

inductive GraphError where
  | cycle (tensor : Nat) (opName : String)
  | fuel
  | disconnected (tensor : Nat) (opName : String)
  | duplicateName (name : String) (count : Nat)
deriving DecidableEq, Repr

/-- A Python for-loop over recursive helper calls: visit each tensor of the
worklist in order, aborting at the first raised error. -/
def visitList (visit : Nat → DFSState → Except GraphError DFSState) :
    List Nat → DFSState → Except GraphError DFSState
  | [], s => .ok s
  | t :: ts, s =>
    match visit t s with
    | .error e => .error e
    | .ok s' => visitList visit ts s'

/-- `_build_map_helper(tensor, ...)`.  The `fuel` bounds the recursion depth
(it only decreases when descending into a node's input tensors); `buildMap`
supplies enough fuel for any graph, and the fuel-sufficiency lemma below
shows it is never exhausted. -/
def buildMapVisit (G : Graph) : Nat → Nat → DFSState → Except GraphError DFSState
  | 0, _, _ => .error .fuel
  | fuel + 1, t, s =>
    match (G.tensor t).history with
    | none => .ok s
    | some (opId, nodeIndex) =>
      let op := G.op opId
      let nid := op.inbound_nodes.getD nodeIndex 0
      if nid ∈ s.finished then .ok s
      else if nid ∈ s.in_progress then .error (.cycle t op.name)
      else
        let node := G.node nid
        let opIdx :=
          if (alGet s.operation_indices opId).isSome then s.operation_indices
          else s.operation_indices ++ [(opId, (s.operation_indices.length : Int))]
        let s1 : DFSState :=
          { s with operation_indices := opIdx, in_progress := nid :: s.in_progress }
        match visitList (fun x st => buildMapVisit G fuel x st)
            (if node.is_input then [] else node.input_tensors) s1 with
        | .error e => .error e
        | .ok s2 =>
          .ok { finished := nid :: s2.finished
                in_progress := s2.in_progress.erase nid
                order := s2.order ++ [nid]
                operation_indices := s2.operation_indices }

/-- `_build_map(outputs)`. -/
def buildMap (G : Graph) (outputs : List Nat) : Except GraphError DFSState :=
  visitList (fun t st => buildMapVisit G (G.nodes.length + 1) t st) outputs
    { finished := [], in_progress := [], order := [], operation_indices := [] }

/-! ## `map_graph`: depth assignment, bucketing and validation -/

def makeNodeKey (opName : String) (nodeIndex : Nat) : String :=
  opName ++ "_ib-" ++ toString nodeIndex

/-- The `network_nodes` set comprehension (keys by operation identity and the
node's index in `operation._inbound_nodes`). -/
def networkNodesOf (G : Graph) (order : List Nat) : List String :=
  order.foldl (fun acc nid =>
    let opId := (G.node nid).operation.getD 0
    setAdd acc (makeNodeKey (toString opId) ((G.op opId).inbound_nodes.indexOf nid))) []

/-- One iteration of the depth-assignment loop of `map_graph` (lines 168-187):
read/insert the node depth, max it with the operation's previous depth,
record both, then raise every dependency to at least `depth + 1`. -/
def depthStep (G : Graph) (st : List (Nat × Nat) × List (Nat × Nat)) (nid : Nat) :
    List (Nat × Nat) × List (Nat × Nat) :=
  let nd := st.1
  let od := st.2
  let node := G.node nid
  let d0 := alGetD nd nid 0
  let nd := alSetdefault nd nid 0
  let opId := node.operation.getD 0
  let depth := max d0 (alGetD od opId 0)
  let od := alUpdate od opId depth
  let nd := alUpdate nd nid depth
  let nd := (parentNodes G node).foldl
    (fun nd p => alUpdate nd p (max (depth + 1) (alGetD nd p 0))) nd
  (nd, od)

/-- The depth-assignment loop, iterating `reversed(nodes_in_decreasing_depth)`.
Returns `(nodes_depths, operations_depths)`. -/
def computeDepths (G : Graph) (order : List Nat) :
    List (Nat × Nat) × List (Nat × Nat) :=
  order.reverse.foldl (depthStep G) ([], [])

structure DepthData where
  nodes_depths : List (Nat × Nat)
  operations_depths : List (Nat × Nat)
  operation_indices : List (Nat × Int)
  network_nodes : List String
deriving DecidableEq, Repr

/-- One step of the unreached-input handling (lines 192-198): if the input
tensor's operation has no recorded depth, register the operation at depth 0,
its first inbound node at node-depth 0, a traversal index of -1 and a node
key built from the operation name. -/
def regStep (G : Graph) (st : DepthData) (t : Nat) : DepthData :=
  match (G.tensor t).history with
  | some (o, _) =>
    if (alGet st.operations_depths o).isSome then st
    else
      { nodes_depths := alUpdate st.nodes_depths ((G.op o).inbound_nodes.getD 0 0) 0
        operations_depths := alUpdate st.operations_depths o 0
        operation_indices := alUpdate st.operation_indices o (-1)
        network_nodes := setAdd st.network_nodes (makeNodeKey (G.op o).name 0) }
  | none => st

/-- Handling of inputs not connected to the outputs (lines 189-198). -/
def registerUnreached (G : Graph) (inputs : List Nat) (st : DepthData) : DepthData :=
  inputs.foldl (regStep G) st

/-- `collections.defaultdict(list)` bucketing of a `{key: depth}` dict. -/
def bucketize (entries : List (Nat × Nat)) : List (Nat × List Nat) :=
  entries.foldl (fun acc p => alUpdate acc p.2 (alGetD acc p.2 [] ++ [p.1])) []

/-- `depth_keys.sort(reverse=True)`. -/
def sortKeysDesc (l : List Nat) : List Nat :=
  List.insertionSort (fun a b => b ≤ a) l

/-- `operations_for_depth.sort(key=lambda x: operation_indices[x])`. -/
def sortOpsByIdx (opIdx : List (Nat × Int)) (l : List Nat) : List Nat :=
  List.insertionSort (fun x y => alGetD opIdx x 0 ≤ alGetD opIdx y 0) l

/-- The flattened node traversal order used by both the connectivity scan of
`map_graph` and `_run_through_graph`: depth buckets from highest depth to
lowest, each bucket in its recorded order. -/
def orderedNodesOf (nbd : List (Nat × List Nat)) : List Nat :=
  (sortKeysDesc (alKeys nbd)).flatMap (fun d => alGetD nbd d [])

/-- The connectivity scan (lines 227-249): walk the nodes in decreasing-depth
order with a growing set of computable tensors seeded with the inputs; fail on
the first input tensor that is not computable, else add the node's outputs. -/
def scanNodes (G : Graph) : List Nat → List Nat → Except GraphError (List Nat)
  | computable, [] => .ok computable
  | computable, nid :: rest =>
    let node := G.node nid
    match node.input_tensors.find? (fun x => !(computable.contains x)) with
    | some x => .error (.disconnected x (G.op (node.operation.getD 0)).name)
    | none => scanNodes G (computable ++ node.outputs) rest

structure MapResult where
  network_nodes : List String
  nodes_by_depth : List (Nat × List Nat)
  operations : List Nat
  operations_by_depth : List (Nat × List Nat)
deriving DecidableEq, Repr

/-- The `nodes_depths`/`operations_depths`/`operation_indices`/`network_nodes`
data after the depth-assignment loop and unreached-input registration. -/
def nodesDepthsOf (G : Graph) (inputs : List Nat) (st : DFSState) : DepthData :=
  registerUnreached G inputs
    { nodes_depths := (computeDepths G st.order).1
      operations_depths := (computeDepths G st.order).2
      operation_indices := st.operation_indices
      network_nodes := networkNodesOf G st.order }

/-- The `operations_by_depth` buckets; the in-place `list.sort` at line 220
sorts the bucket lists themselves. -/
def operationsByDepthOf (dd : DepthData) : List (Nat × List Nat) :=
  (bucketize dd.operations_depths).map
    (fun p => (p.1, sortOpsByIdx dd.operation_indices p.2))

/-- The flat `operations` list: buckets from deepest to shallowest, each
sorted by first-traversal index. -/
def operationsOf (dd : DepthData) : List Nat :=
  (sortKeysDesc (alKeys (operationsByDepthOf dd))).flatMap
    (fun d => alGetD (operationsByDepthOf dd) d [])

/-- `map_graph(inputs, outputs)`. -/
def map_graph (G : Graph) (inputs outputs : List Nat) : Except GraphError MapResult :=
  match buildMap G outputs with
  | .error e => .error e
  | .ok st =>
    let dd := nodesDepthsOf G inputs st
    let nodes_by_depth := bucketize dd.nodes_depths
    let operations := operationsOf dd
    match scanNodes G inputs (orderedNodesOf nodes_by_depth) with
    | .error e => .error e
    | .ok _ =>
      let all_names := operations.map (fun o => (G.op o).name)
      match all_names.find? (fun nm => all_names.count nm != 1) with
      | some nm => .error (.duplicateName nm (all_names.count nm))
      | none =>
        .ok { network_nodes := dd.network_nodes, nodes_by_depth, operations,
              operations_by_depth := operationsByDepthOf dd }

/-! ## `Function`: construction and the replay engine -/

structure KFunction where
  inputs : List Nat
  outputs : List Nat
  nodes : List String
  nodes_by_depth : List (Nat × List Nat)
  operations : List Nat
  operations_by_depth : List (Nat × List Nat)
deriving DecidableEq, Repr

/-- `Function.__init__`: flatten inputs/outputs (already flat here), run
`map_graph` and store its analysis.  Any mapper error aborts construction. -/
def buildFunction (G : Graph) (inputs outputs : List Nat) :
    Except GraphError KFunction :=
  (map_graph G inputs outputs).map (fun r =>
    { inputs := inputs, outputs := outputs, nodes := r.network_nodes
      nodes_by_depth := r.nodes_by_depth, operations := r.operations
      operations_by_depth := r.operations_by_depth })

/-- `tensor_dict` seeding: `for x, y in zip(self.inputs, inputs)`. -/
def seedDict {V : Type} (refs : List Nat) (vals : List V) : List (Nat × V) :=
  (refs.zip vals).foldl (fun d p => alUpdate d p.1 p.2) []

/-- The body of the node loop of `_run_through_graph` (lines 80-92): skip
input nodes, skip (defer) nodes with a missing input value, otherwise apply
the operation to the values of the node's input tensors and record the
outputs. -/
def runStep {V : Type} (G : Graph) (opApply : Nat → List V → List V)
    (dict : List (Nat × V)) (nid : Nat) : List (Nat × V) :=
  let node := G.node nid
  if node.operation.isNone || node.is_input then dict
  else if node.input_tensors.any (fun x => (alGet dict x).isNone) then dict
  else
    let args := node.input_tensors.filterMap (fun x => alGet dict x)
    let outs := opApply (node.operation.getD 0) args
    (node.outputs.zip outs).foldl (fun d p => alUpdate d p.1 p.2) dict

/-- `_run_through_graph(inputs, operation_fn)`: replay depth buckets from
highest to lowest and read off the requested outputs (`none` models the
`KeyError` a never-computed output would raise). -/
def runThroughGraph {V : Type} (G : Graph) (f : KFunction)
    (opApply : Nat → List V → List V) (inputs : List V) : List (Option V) :=
  let dict := (orderedNodesOf f.nodes_by_depth).foldl (runStep G opApply)
    (seedDict f.inputs inputs)
  f.outputs.map (alGet dict)

inductive CompatError where
  | structure_mismatch
  | incompatible (refShape gotShape : List (Option Nat))
deriving DecidableEq, Repr

/-- The per-tensor loop of `_assert_input_compatibility` (lines 120-134):
rank mismatch, then any pair of known and unequal dimensions. -/
def checkShapePairs (G : Graph) :
    List (List (Option Nat) × Nat) → Except CompatError Unit
  | [] => .ok ()
  | (shape, ref) :: rest =>
    let refShape := (G.tensor ref).shape
    if shape.length != refShape.length then .error (.incompatible refShape shape)
    else
      match (shape.zip refShape).find?
          (fun p => p.2.isSome && p.1.isSome && p.1 != p.2) with
      | some _ => .error (.incompatible refShape shape)
      | none => checkShapePairs G rest

/-- `_assert_input_compatibility`, on the flattened shapes of the provided
inputs (the structure check reduces to an arity check on flat sequences). -/
def assertInputCompatibility (G : Graph) (refs : List Nat)
    (shapes : List (List (Option Nat))) : Except CompatError Unit :=
  if shapes.length != refs.length then .error .structure_mismatch
  else checkShapePairs G (shapes.zip refs)

/-- `Function.call(inputs)`: compatibility check, then the replay engine with
the operations' real call functions (supplied as `opApply`, keyed by
operation identity; `shapeOf` reads a concrete tensor's shape). -/
def call {V : Type} (G : Graph) (f : KFunction) (shapeOf : V → List (Option Nat))
    (opApply : Nat → List V → List V) (inputs : List V) :
    Except CompatError (List (Option V)) :=
  match assertInputCompatibility G f.inputs (inputs.map shapeOf) with
  | .error e => .error e
  | .ok _ => .ok (runThroughGraph G f opApply inputs)

/-- The shape/dtype metadata of a `KerasTensor` placeholder. -/
structure KT where
  shape : List (Option Nat)
  dtype : String
deriving DecidableEq, Repr

/-- `KerasTensor(shape=x.shape, dtype=x.dtype)` for a stored reference tensor. -/
def refKT (G : Graph) (t : Nat) : KT :=
  { shape := (G.tensor t).shape, dtype := (G.tensor t).dtype }

/-- `Function.compute_output_spec(inputs)`: compatibility check; if every
provided shape equals the reference input shape, return the stored reference
output metadata (the shortcut); otherwise replay the graph with each
operation's `compute_output_spec` (supplied as `opSpec`). -/
def computeOutputSpec (G : Graph) (f : KFunction)
    (opSpec : Nat → List KT → List KT) (inputs : List KT) :
    Except CompatError (List (Option KT)) :=
  match assertInputCompatibility G f.inputs (inputs.map (·.shape)) with
  | .error e => .error e
  | .ok _ =>
    if (inputs.zip f.inputs).all (fun p => p.1.shape == (G.tensor p.2).shape) then
      .ok (f.outputs.map (fun t => some (refKT G t)))
    else
      .ok (runThroughGraph G f opSpec inputs)

/-- The non-shortcut path of `compute_output_spec` stated on its own ("the
long road through the graph"), for comparison with the shortcut. -/
def computeOutputSpecFull (G : Graph) (f : KFunction)
    (opSpec : Nat → List KT → List KT) (inputs : List KT) :
    Except CompatError (List (Option KT)) :=
  match assertInputCompatibility G f.inputs (inputs.map (·.shape)) with
  | .error e => .error e
  | .ok _ => .ok (runThroughGraph G f opSpec inputs)

/-- Modelled from the spec, section 3: the intrinsic ("true") graph depth of
each node — "the max over its consuming nodes' depth + 1, defaulting to 0" —
computed over the same traversal order as `computeDepths` but without the
shared-operation maximum. -/
def trueDepthStep (G : Graph) (nd : List (Nat × Nat)) (nid : Nat) :
    List (Nat × Nat) :=
  let depth := alGetD nd nid 0
  let nd := alUpdate nd nid depth
  (parentNodes G (G.node nid)).foldl
    (fun nd p => alUpdate nd p (max (depth + 1) (alGetD nd p 0))) nd

/-- The intrinsic graph depth of every traversed node. -/
def trueNodeDepths (G : Graph) (order : List Nat) : List (Nat × Nat) :=
  order.reverse.foldl (trueDepthStep G) []

/-! ## Reference evaluation in a topological order

Modelled from the spec (section 8, first property): evaluate each
operation's call function once per node, walking the nodes in a valid
topological order, each node's arguments taken from the values already
computed for its input tensors. -/

/-- Evaluate the nodes of `σ` in list order, starting from the seeded
input values. -/
def topoEvalDict {V : Type} (G : Graph) (opApply : Nat → List V → List V)
    (σ : List Nat) (dict0 : List (Nat × V)) : List (Nat × V) :=
  σ.foldl (fun dict nid =>
    let node := G.node nid
    let args := node.input_tensors.filterMap (fun x => alGet dict x)
    let outs := opApply (node.operation.getD 0) args
    (node.outputs.zip outs).foldl (fun d p => alUpdate d p.1 p.2) dict) dict0

/-- Manual evaluation of the graph in the topological order `σ`. -/
def topoEval {V : Type} (G : Graph) (f : KFunction)
    (opApply : Nat → List V → List V) (σ : List Nat) (inputs : List V) :
    List (Option V) :=
  f.outputs.map (alGet (topoEvalDict G opApply σ (seedDict f.inputs inputs)))

/-- The (non-input) nodes of the stored graph analysis. -/
def analysisNodes (f : KFunction) : List Nat :=
  f.nodes_by_depth.flatMap (·.2)

/-- `σ` is a valid topological order of the graph's nodes: exactly the
non-input nodes of the analysis, each listed once, every (non-input)
dependency before its consumer. -/
def ValidTopoOrder (G : Graph) (f : KFunction) (σ : List Nat) : Prop :=
  σ.Nodup ∧
  (∀ n, n ∈ σ ↔ (n ∈ analysisNodes f ∧ (G.node n).is_input = false)) ∧
  (∀ pre n post, σ = pre ++ n :: post →
    ∀ p ∈ parentNodes G (G.node n), (G.node p).is_input = false → p ∈ pre)

/-! ## Well-formedness of the Python object graph

Invariants that hold by construction for the mutually referencing
`KerasTensor`/`Node`/`Operation` objects built during graph definition
(spec sections 3 and 9): identities are unique; a tensor's
`_keras_history` points to an existing node that indeed lists it among its
outputs; a tensor is produced by exactly one node, once; every node has an
operation; an input node's input tensors are its own output placeholders.
Stated as an executable check so concrete witnesses can be validated. -/

def Graph.wfCheck (G : Graph) : Bool :=
  decide (alKeys G.nodes).Nodup &&
  decide (alKeys G.tensors).Nodup &&
  decide (alKeys G.ops).Nodup &&
  G.tensors.all (fun p =>
    match p.2.history with
    | some (o, i) =>
      let r := (G.op o).inbound_nodes.getD i 0
      decide (i < (G.op o).inbound_nodes.length) &&
      (alKeys G.nodes).contains r &&
      ((G.node r).operation == some o) &&
      (G.node r).outputs.contains p.1
    | none => true) &&
  G.nodes.all (fun p => G.nodes.all (fun q =>
    p.2.outputs.all (fun x => !(q.2.outputs.contains x) || (p.1 == q.1)))) &&
  G.nodes.all (fun p => decide p.2.outputs.Nodup) &&
  G.nodes.all (fun p => p.2.outputs.all (fun x =>
    match p.2.operation, (G.tensor x).history with
    | some o, some oi => (oi.1 == o) && ((G.op o).inbound_nodes.getD oi.2 0 == p.1)
    | _, _ => false)) &&
  G.nodes.all (fun p => p.2.operation.isSome) &&
  G.nodes.all (fun p => !p.2.is_input || (p.2.input_tensors == p.2.outputs))

def Graph.WF (G : Graph) : Prop := G.wfCheck = true

/-- Declared inputs are root placeholders: each history points at index 0 of
an input operation holding a single input node whose input and output tensor
lists are exactly the placeholder. -/
def inputsWFCheck (G : Graph) (inputs : List Nat) : Bool :=
  inputs.all (fun t =>
    match (G.tensor t).history with
    | some (o, i) =>
      (i == 0) &&
      (match (G.op o).inbound_nodes with
       | [r] =>
         (G.node r).is_input && ((G.node r).input_tensors == [t]) &&
         ((G.node r).outputs == [t]) && (alKeys G.nodes).contains r &&
         ((G.node r).operation == some o)
       | _ => false)
    | none => true)

def InputsWF (G : Graph) (inputs : List Nat) : Prop := inputsWFCheck G inputs = true

/-- The object-graph invariants of `Graph.wfCheck`, unpacked into usable
propositions. -/
structure WFProps (G : Graph) : Prop where
  nodes_nodup : (alKeys G.nodes).Nodup
  tensors_nodup : (alKeys G.tensors).Nodup
  ops_nodup : (alKeys G.ops).Nodup
  resolve : ∀ t o i, (G.tensor t).history = some (o, i) →
    i < (G.op o).inbound_nodes.length ∧
    ((G.op o).inbound_nodes.getD i 0) ∈ alKeys G.nodes ∧
    (G.node ((G.op o).inbound_nodes.getD i 0)).operation = some o ∧
    t ∈ (G.node ((G.op o).inbound_nodes.getD i 0)).outputs
  producer_unique : ∀ a ∈ G.nodes, ∀ b ∈ G.nodes, ∀ x,
    x ∈ a.2.outputs → x ∈ b.2.outputs → a.1 = b.1
  outputs_nodup : ∀ a ∈ G.nodes, a.2.outputs.Nodup
  back_ref : ∀ a ∈ G.nodes, ∀ x ∈ a.2.outputs, ∃ o i, a.2.operation = some o ∧
    (G.tensor x).history = some (o, i) ∧ (G.op o).inbound_nodes.getD i 0 = a.1
  op_some : ∀ a ∈ G.nodes, a.2.operation.isSome = true
  input_tensors_eq : ∀ a ∈ G.nodes, a.2.is_input = true →
    a.2.input_tensors = a.2.outputs

/-- A two-operation cyclic graph: tensor `1 = a(tensor 2)` and tensor
`2 = b(tensor 1)`. -/
def Gcycle : Graph :=
  { tensors := [(1, { shape := [], dtype := "f", history := some (1, 0) }),
                (2, { shape := [], dtype := "f", history := some (2, 0) })]
    ops := [(1, { name := "a", inbound_nodes := [1] }),
            (2, { name := "b", inbound_nodes := [2] })]
    nodes := [(1, { operation := some 1, is_input := false, input_tensors := [2], outputs := [1] }),
              (2, { operation := some 2, is_input := false, input_tensors := [1], outputs := [2] })] }

/-! ## Claim-statement predicates -/

/-- The ordering property asserted by the spec for
`nodes_in_decreasing_depth`: each node's dependencies appear after the node
itself in the list. -/
def DependenciesAfter (G : Graph) (order : List Nat) : Prop :=
  ∀ pre n post, order = pre ++ n :: post →
    ∀ p ∈ parentNodes G (G.node n), p ∈ post

/-- Node `n` directly depends on node `p` (an edge of the backward graph). -/
def NodeDep (G : Graph) (n p : Nat) : Prop := p ∈ parentNodes G (G.node n)

/-- Some output tensor transitively depends on itself: from the producing
node of an output one can reach a node lying on a dependency cycle. -/
def OutputSelfDependent (G : Graph) (outputs : List Nat) : Prop :=
  ∃ x ∈ outputs, ∃ r₀ r, resolveNode G x = some r₀ ∧
    Relation.ReflTransGen (NodeDep G) r₀ r ∧ Relation.TransGen (NodeDep G) r r

/-! ## Concrete graphs used by closed witnesses and counterexamples -/

/-- A tiny graph for closed witnesses of the compatibility check. -/
def Gshape : Graph :=
  { tensors := [(0, { shape := [some 3, none], dtype := "float32", history := none })]
    ops := [], nodes := [] }

/-- A two-node chain graph: placeholder tensor `0` (input operation `0`,
input node `0`), operation `1` ("dense") applied at node `1` mapping tensor
`0` to tensor `1`. -/
def Gchain : Graph :=
  { tensors := [(0, { shape := [none, some 4], dtype := "float32", history := some (0, 0) }),
                (1, { shape := [none, some 8], dtype := "float32", history := some (1, 0) })]
    ops := [(0, { name := "input", inbound_nodes := [0] }),
            (1, { name := "dense", inbound_nodes := [1] })]
    nodes := [(0, { operation := some 0, is_input := true, input_tensors := [0], outputs := [0] }),
              (1, { operation := some 1, is_input := false, input_tensors := [0], outputs := [1] })] }

/-- The analysis `Function([0], [1])` stores for `Gchain`. -/
def fChain : KFunction :=
  { inputs := [0], outputs := [1], nodes := ["0_ib-0", "1_ib-0"]
    nodes_by_depth := [(0, [1]), (1, [0])], operations := [0, 1]
    operations_by_depth := [(0, [1]), (1, [0])] }


/-- The DFS state `_build_map` produces on `Gchain` with outputs `[1]`. -/
def chainDFS : DFSState :=
  { finished := [1, 0], in_progress := [], order := [0, 1]
    operation_indices := [(1, 0), (0, 1)] }

/-- The analysis `map_graph([0], [1])` returns for `Gchain`. -/
def chainMapResult : MapResult :=
  { network_nodes := ["0_ib-0", "1_ib-0"]
    nodes_by_depth := [(0, [1]), (1, [0])]
    operations := [0, 1]
    operations_by_depth := [(0, [1]), (1, [0])] }

/-- `Gchain` extended with a second declared input (tensor `2`, operation
`"input2"`, input node `2`) that does not feed the output. -/
def G7 : Graph :=
  { tensors := [(0, { shape := [none, some 4], dtype := "float32", history := some (0, 0) }),
                (1, { shape := [none, some 8], dtype := "float32", history := some (1, 0) }),
                (2, { shape := [none, some 3], dtype := "float32", history := some (2, 0) })]
    ops := [(0, { name := "input", inbound_nodes := [0] }),
            (1, { name := "dense", inbound_nodes := [1] }),
            (2, { name := "input2", inbound_nodes := [2] })]
    nodes := [(0, { operation := some 0, is_input := true, input_tensors := [0], outputs := [0] }),
              (1, { operation := some 1, is_input := false, input_tensors := [0], outputs := [1] }),
              (2, { operation := some 2, is_input := true, input_tensors := [2], outputs := [2] })] }

/-- Invariant of the depth-assignment loop after the nodes of `P` have been
processed: each processed node has a recorded depth, each of its
dependencies has a recorded depth at least one greater, every recorded key
is a processed node or a dependency of one, and every processed node's
operation has an operation-depth entry. -/
def DepthInv (G : Graph) (P : List Nat) (nd od : List (Nat × Nat)) : Prop :=
  (∀ n ∈ P, ∃ dn, alGet nd n = some dn ∧
    ∀ p ∈ parentNodes G (G.node n), ∃ dp, alGet nd p = some dp ∧ dn + 1 ≤ dp) ∧
  (∀ k ∈ alKeys nd, k ∈ P ∨ ∃ m ∈ P, k ∈ parentNodes G (G.node m)) ∧
  (∀ n ∈ P, ((G.node n).operation.getD 0) ∈ alKeys od)

/-- Invariant of the recorded operation depths along the depth-assignment
loop: every processed node's operation has an entry, and every operation
entry is the maximum of the recorded node depths over the processed nodes
of that operation, attained by one of them. -/
def OpDepthMax (G : Graph) (P : List Nat) (nd od : List (Nat × Nat)) : Prop :=
  (∀ n ∈ P, ((G.node n).operation.getD 0) ∈ alKeys od) ∧
  (∀ o v, alGet od o = some v →
    (∃ n ∈ P, alGet nd n = some v ∧ (G.node n).operation.getD 0 = o) ∧
    (∀ n ∈ P, ∀ dn, alGet nd n = some dn → (G.node n).operation.getD 0 = o → dn ≤ v))

/-- Final form of the operation-depth property over a `DepthData`: each
recorded operation depth is the maximum of the recorded node depths over
the nodes of that operation, attained by one of them. -/
def OpDepthMaxAll (G : Graph) (dd : DepthData) : Prop :=
  ∀ o v, alGet dd.operations_depths o = some v →
    (∃ n, alGet dd.nodes_depths n = some v ∧ (G.node n).operation.getD 0 = o) ∧
    (∀ n dn, alGet dd.nodes_depths n = some dn →
      (G.node n).operation.getD 0 = o → dn ≤ v)

/-- `bucketize` started from an arbitrary accumulator, for the fold
induction. -/
def bucketizeFrom (acc : List (Nat × List Nat)) (entries : List (Nat × Nat)) :
    List (Nat × List Nat) :=
  entries.foldl (fun acc p => alUpdate acc p.2 (alGetD acc p.2 [] ++ [p.1])) acc

/-- Relation between a bucket accumulator and the entries already folded:
bucket membership characterises the recorded value, and buckets and keys
are duplicate-free. -/
def BucketInv (front : List (Nat × Nat)) (acc : List (Nat × List Nat)) : Prop :=
  (∀ k d, k ∈ alGetD acc d [] ↔ alGet front k = some d) ∧
  (∀ d, (alGetD acc d []).Nodup) ∧
  (alKeys acc).Nodup

/-- One unconditional node evaluation: apply the node's operation to the
values of its input tensors and record the outputs (the common body of
`runStep` and `topoEvalDict`). -/
def applyNode {V : Type} (G : Graph) (opApply : Nat → List V → List V)
    (dict : List (Nat × V)) (nid : Nat) : List (Nat × V) :=
  let node := G.node nid
  let args := node.input_tensors.filterMap (fun x => alGet dict x)
  let outs := opApply (node.operation.getD 0) args
  (node.outputs.zip outs).foldl (fun d p => alUpdate d p.1 p.2) dict

/-- Pointwise equality of two tensor dicts. -/
def DictEq {V : Type} (d1 d2 : List (Nat × V)) : Prop :=
  ∀ x, alGet d1 x = alGet d2 x

/-- `L` enumerates a node set so that every listed dependency of a member
comes strictly before it. -/
def TopoOk (G : Graph) (L : List Nat) : Prop :=
  ∀ pre n post, L = pre ++ n :: post →
    ∀ p ∈ parentNodes G (G.node n), p ∈ L → p ∈ pre

/-- A graph sharing the operation `7` ("O") between two nodes at different
intrinsic depths: node `9` computes tensor `10` from declared input `2`
(true depth 1 below a chain of length 1 to the output `11`), while node `8`
computes tensor `7` from declared input `1` (true depth 2 below the chain
through node `5` to the output `9`).  A separate longer chain
`0 → 3 → 4 → 5 → 6` drags the recorded depths up through the shared
operation-depth maximum. -/
def G5 : Graph :=
  { tensors := [(0, ⟨[], "f", some (0, 0)⟩), (1, ⟨[], "f", some (1, 0)⟩),
                (2, ⟨[], "f", some (2, 0)⟩), (3, ⟨[], "f", some (3, 0)⟩),
                (4, ⟨[], "f", some (4, 0)⟩), (5, ⟨[], "f", some (5, 0)⟩),
                (6, ⟨[], "f", some (6, 0)⟩), (7, ⟨[], "f", some (7, 0)⟩),
                (8, ⟨[], "f", some (4, 1)⟩), (9, ⟨[], "f", some (8, 0)⟩),
                (10, ⟨[], "f", some (7, 1)⟩), (11, ⟨[], "f", some (9, 0)⟩)]
    ops := [(0, ⟨"inA", [0]⟩), (1, ⟨"inP", [1]⟩), (2, ⟨"inQ", [2]⟩),
            (3, ⟨"G", [3]⟩), (4, ⟨"Oprime", [4, 5]⟩), (5, ⟨"H", [6]⟩),
            (6, ⟨"F", [7]⟩), (7, ⟨"O", [8, 9]⟩), (8, ⟨"K", [10]⟩),
            (9, ⟨"R", [11]⟩)]
    nodes := [(0, ⟨some 0, true, [0], [0]⟩), (1, ⟨some 1, true, [1], [1]⟩),
              (2, ⟨some 2, true, [2], [2]⟩), (3, ⟨some 3, false, [0], [3]⟩),
              (4, ⟨some 4, false, [3], [4]⟩), (5, ⟨some 4, false, [7], [8]⟩),
              (6, ⟨some 5, false, [4], [5]⟩), (7, ⟨some 6, false, [5], [6]⟩),
              (8, ⟨some 7, false, [1], [7]⟩), (9, ⟨some 7, false, [2], [10]⟩),
              (10, ⟨some 8, false, [8], [9]⟩), (11, ⟨some 9, false, [10], [11]⟩)] }

/-- The DFS state produced by `buildMap G5 [11, 9, 6]`. -/
def G5dfs : DFSState :=
  { finished := [7, 6, 4, 3, 0, 10, 5, 8, 1, 11, 9, 2]
    in_progress := []
    order := [2, 9, 11, 1, 8, 5, 10, 0, 3, 4, 6, 7]
    operation_indices := [(9, 0), (7, 1), (2, 2), (8, 3), (4, 4), (1, 5),
                          (6, 6), (5, 7), (3, 8), (0, 9)] }

/-- The analysis produced by `map_graph G5 [0, 1, 2] [11, 9, 6]`. -/
def G5res : MapResult :=
  { network_nodes := ["2_ib-0", "7_ib-1", "9_ib-0", "1_ib-0", "7_ib-0",
                      "4_ib-1", "8_ib-0", "0_ib-0", "3_ib-0", "4_ib-0",
                      "5_ib-0", "6_ib-0"]
    nodes_by_depth := [(0, [7, 10, 11]), (1, [6]), (2, [4, 5]),
                       (3, [3, 8, 9]), (4, [0, 1, 2])]
    operations := [2, 1, 0, 7, 3, 4, 5, 9, 8, 6]
    operations_by_depth := [(0, [9, 8, 6]), (1, [5]), (2, [4]),
                            (3, [7, 3]), (4, [2, 1, 0])] }

/-! ## Invariants of the depth-first traversal -/

/-- State invariant of `_build_map_helper`: the finished set is exactly the
set of listed nodes, the list has no repeats, every listed node's
dependencies are listed strictly before it, and the in-progress stack is
duplicate-free and disjoint from the finished set. -/
structure DFSInv (G : Graph) (s : DFSState) : Prop where
  fin_iff : ∀ n, n ∈ s.finished ↔ n ∈ s.order
  order_nodup : s.order.Nodup
  deps_before : ∀ pre n post, s.order = pre ++ n :: post →
    ∀ p ∈ parentNodes G (G.node n), p ∈ pre
  ip_nodup : s.in_progress.Nodup
  ip_fin : ∀ n ∈ s.in_progress, n ∉ s.finished

/-- Relation between the states before and after a successful recursive
visit: the invariant holds, the in-progress stack is restored, and the
finished set and ordered list only grow. -/
structure DFSStep (G : Graph) (s s' : DFSState) : Prop where
  inv : DFSInv G s'
  ip_eq : s'.in_progress = s.in_progress
  fin_mono : ∀ n ∈ s.finished, n ∈ s'.finished
  order_ext : ∃ d, s'.order = s.order ++ d

/-! ## Lemmas about the dict embedding -/

section AListLemmas

variable {β : Type}

theorem alGet_cons (p : Nat × β) (l : List (Nat × β)) (k : Nat) :
    alGet (p :: l) k = if p.1 = k then some p.2 else alGet l k := by
  by_cases h : p.1 = k <;> simp [alGet, List.find?_cons_of_pos, List.find?_cons_of_neg, h]

theorem alGet_mem {l : List (Nat × β)} {k : Nat} {v : β} (h : alGet l k = some v) :
    (k, v) ∈ l := by
  unfold alGet at h
  cases hf : l.find? (fun p => p.1 == k) with
  | none => simp [hf] at h
  | some p =>
    have hp := List.find?_some hf
    have hmem := List.mem_of_find?_eq_some hf
    simp [hf] at h
    simp at hp
    obtain ⟨rfl⟩ := h
    obtain ⟨rfl⟩ := hp
    exact hmem

theorem alGet_eq_some_of_mem {l : List (Nat × β)} (hnd : (alKeys l).Nodup)
    {k : Nat} {v : β} (h : (k, v) ∈ l) : alGet l k = some v := by
  induction l with
  | nil => simp at h
  | cons p l ih =>
    have hnd' : p.1 ∉ alKeys l ∧ (alKeys l).Nodup := by
      have := hnd
      unfold alKeys at this
      rw [List.map_cons, List.nodup_cons] at this
      exact this
    rcases List.mem_cons.1 h with h | h
    · subst h; simp [alGet_cons]
    · have hkmem : k ∈ alKeys l := by
        unfold alKeys
        exact List.mem_map_of_mem (·.1) h
      have hk : p.1 ≠ k := by
        intro hc
        rw [hc] at hnd'
        exact hnd'.1 hkmem
      rw [alGet_cons, if_neg hk]
      exact ih hnd'.2 h

theorem mem_alKeys_iff {l : List (Nat × β)} {k : Nat} :
    k ∈ alKeys l ↔ (alGet l k).isSome := by
  induction l with
  | nil => simp [alKeys, alGet]
  | cons p l ih =>
    rw [alGet_cons]
    by_cases h : p.1 = k
    · simp [alKeys, h]
    · have hne : ¬ k = p.1 := fun hc => h hc.symm
      simp only [alKeys, List.map_cons, List.mem_cons, hne, false_or, if_neg h]
      exact ih

theorem alGet_map_update_ne (l : List (Nat × β)) (k : Nat) (v : β) {k' : Nat}
    (h : k' ≠ k) :
    alGet (l.map fun p => if p.1 == k then (k, v) else p) k' = alGet l k' := by
  induction l with
  | nil => rfl
  | cons p l ih =>
    simp only [List.map_cons]
    by_cases hp : p.1 = k
    · rw [if_pos (by simpa using hp), alGet_cons, alGet_cons,
        if_neg (show ¬ (k, v).1 = k' from Ne.symm h),
        if_neg (show ¬ p.1 = k' by rw [hp]; exact Ne.symm h)]
      exact ih
    · rw [if_neg (by simpa using hp), alGet_cons, alGet_cons]
      by_cases hk : p.1 = k'
      · rw [if_pos hk, if_pos hk]
      · rw [if_neg hk, if_neg hk]
        exact ih

theorem alGet_map_update_self (l : List (Nat × β)) (k : Nat) (v : β)
    (h : ∃ p ∈ l, p.1 = k) :
    alGet (l.map fun p => if p.1 == k then (k, v) else p) k = some v := by
  induction l with
  | nil => simp at h
  | cons p l ih =>
    by_cases hp : p.1 = k
    · simp only [List.map_cons]
      rw [if_pos (by simp [hp]), alGet_cons, if_pos rfl]
    · simp only [List.map_cons]
      rw [if_neg (by simp [hp]), alGet_cons, if_neg hp]
      apply ih
      rcases h with ⟨q, hq, hqk⟩
      rcases List.mem_cons.1 hq with rfl | hq
      · exact absurd hqk hp
      · exact ⟨q, hq, hqk⟩

theorem alGet_update_self (l : List (Nat × β)) (k : Nat) (v : β) :
    alGet (alUpdate l k v) k = some v := by
  unfold alUpdate
  split
  · next hf =>
    apply alGet_map_update_self
    rcases Option.isSome_iff_exists.1 hf with ⟨p, hp⟩
    exact ⟨p, List.mem_of_find?_eq_some hp, by simpa using List.find?_some hp⟩
  · next hf =>
    unfold alGet
    rw [List.find?_append]
    have hnone : l.find? (fun p => p.1 == k) = none := by
      cases hh : l.find? (fun p => p.1 == k) with
      | none => rfl
      | some p => exact absurd (by simp [hh]) hf
    simp [hnone]

theorem alGet_update_ne (l : List (Nat × β)) (k : Nat) (v : β) {k' : Nat}
    (h : k' ≠ k) : alGet (alUpdate l k v) k' = alGet l k' := by
  unfold alUpdate
  split
  · exact alGet_map_update_ne l k v h
  · unfold alGet
    rw [List.find?_append]
    have : List.find? (fun p => p.1 == k') [(k, v)] = none := by
      simp [Ne.symm h]
    rw [this]
    cases l.find? (fun p => p.1 == k') <;> rfl

theorem alGet_setdefault_self (l : List (Nat × β)) (k : Nat) (v : β) :
    alGet (alSetdefault l k v) k = some ((alGet l k).getD v) := by
  unfold alSetdefault
  split
  · next hf =>
    rcases Option.isSome_iff_exists.1 hf with ⟨p, hp⟩
    unfold alGet
    simp [hp]
  · next hf =>
    have hnone : l.find? (fun p => p.1 == k) = none := by
      cases hh : l.find? (fun p => p.1 == k) with
      | none => rfl
      | some p => exact absurd (by simp [hh]) hf
    unfold alGet
    rw [List.find?_append, hnone]
    simp [alGet, hnone]

theorem alGet_setdefault_ne (l : List (Nat × β)) (k : Nat) (v : β) {k' : Nat}
    (h : k' ≠ k) : alGet (alSetdefault l k v) k' = alGet l k' := by
  unfold alSetdefault
  split
  · rfl
  · unfold alGet
    rw [List.find?_append]
    have : List.find? (fun p => p.1 == k') [(k, v)] = none := by
      simp [Ne.symm h]
    rw [this]
    cases l.find? (fun p => p.1 == k') <;> rfl

theorem alGet_update (l : List (Nat × β)) (k : Nat) (v : β) (k' : Nat) :
    alGet (alUpdate l k v) k' = if k' = k then some v else alGet l k' := by
  by_cases h : k' = k
  · subst h; simp [alGet_update_self]
  · simp [h, alGet_update_ne l k v h]

theorem mem_alKeys_update {l : List (Nat × β)} {k : Nat} {v : β} {k' : Nat} :
    k' ∈ alKeys (alUpdate l k v) ↔ k' ∈ alKeys l ∨ k' = k := by
  by_cases h : k' = k
  · subst h
    simp [mem_alKeys_iff, alGet_update_self]
  · simp [mem_alKeys_iff, alGet_update_ne l k v h, h]

theorem mem_alKeys_setdefault {l : List (Nat × β)} {k : Nat} {v : β} {k' : Nat} :
    k' ∈ alKeys (alSetdefault l k v) ↔ k' ∈ alKeys l ∨ k' = k := by
  by_cases h : k' = k
  · subst h
    simp [mem_alKeys_iff, alGet_setdefault_self]
  · simp [mem_alKeys_iff, alGet_setdefault_ne l k v h, h]

theorem alKeys_update_of_mem {l : List (Nat × β)} {k : Nat} (v : β)
    (h : k ∈ alKeys l) : alKeys (alUpdate l k v) = alKeys l := by
  unfold alUpdate
  have hf : (l.find? (fun p => p.1 == k)).isSome := by
    rw [List.find?_isSome]
    rcases (by simpa [alKeys] using h : ∃ p ∈ l, p.1 = k) with ⟨p, hp, hpk⟩
    exact ⟨p, hp, by simp [hpk]⟩
  rw [if_pos hf]
  unfold alKeys
  rw [List.map_map]
  apply List.map_congr_left
  intro p hp
  by_cases hpk : p.1 = k <;> simp [hpk]

theorem alKeys_update_of_not_mem {l : List (Nat × β)} {k : Nat} (v : β)
    (h : ¬ k ∈ alKeys l) : alKeys (alUpdate l k v) = alKeys l ++ [k] := by
  unfold alUpdate
  have hf : ¬ (l.find? (fun p => p.1 == k)).isSome := by
    rw [List.find?_isSome]
    rintro ⟨p, hp, hpk⟩
    have hpk' : p.1 = k := by simpa using hpk
    apply h
    rw [← hpk']
    unfold alKeys
    exact List.mem_map_of_mem (·.1) hp
  rw [if_neg hf]
  simp [alKeys]

theorem nodup_append_singleton {l : List Nat} {k : Nat} (h : l.Nodup)
    (hm : ¬ k ∈ l) : (l ++ [k]).Nodup := by
  rw [List.nodup_append]
  refine ⟨h, List.nodup_singleton k, ?_⟩
  intro a ha hak
  rw [List.mem_singleton] at hak
  exact hm (hak ▸ ha)

theorem alKeys_nodup_update {l : List (Nat × β)} {k : Nat} (v : β)
    (h : (alKeys l).Nodup) : (alKeys (alUpdate l k v)).Nodup := by
  by_cases hm : k ∈ alKeys l
  · rw [alKeys_update_of_mem v hm]; exact h
  · rw [alKeys_update_of_not_mem v hm]
    exact nodup_append_singleton h hm

theorem alKeys_nodup_setdefault {l : List (Nat × β)} {k : Nat} (v : β)
    (h : (alKeys l).Nodup) : (alKeys (alSetdefault l k v)).Nodup := by
  unfold alSetdefault
  split
  · exact h
  · next hf =>
    have hm : ¬ k ∈ alKeys l := by
      rw [mem_alKeys_iff]
      intro hs
      apply hf
      unfold alGet at hs
      cases hh : l.find? (fun p => p.1 == k) <;> simp [hh] at hs ⊢
    have : alKeys (l ++ [(k, v)]) = alKeys l ++ [k] := by simp [alKeys]
    rw [this]
    exact nodup_append_singleton h hm

end AListLemmas

/-! ## C9: the input-compatibility check -/

theorem checkPairs_error_iff (G : Graph) (L : List (List (Option Nat) × Nat)) :
    (∃ e, checkShapePairs G L = .error e) ↔
    (∃ p ∈ L, p.1.length ≠ (G.tensor p.2).shape.length ∨
      ∃ q ∈ p.1.zip (G.tensor p.2).shape, q.2 ≠ none ∧ q.1 ≠ none ∧ q.1 ≠ q.2) := by
  induction L with
  | nil => simp [checkShapePairs]
  | cons hd rest ih =>
    obtain ⟨shape, ref⟩ := hd
    rw [checkShapePairs]
    by_cases hrank : shape.length = (G.tensor ref).shape.length
    · rw [if_neg (by simp [hrank])]
      cases hfind : (shape.zip (G.tensor ref).shape).find?
          (fun p => p.2.isSome && p.1.isSome && p.1 != p.2) with
      | some q =>
        simp only []
        constructor
        · intro _
          refine ⟨(shape, ref), List.mem_cons_self _ _, Or.inr ?_⟩
          refine ⟨q, List.mem_of_find?_eq_some hfind, ?_⟩
          have := List.find?_some hfind
          simp only [Bool.and_eq_true, bne_iff_ne, Option.isSome_iff_ne_none] at this
          exact ⟨this.1.1, this.1.2, this.2⟩
        · intro _
          exact ⟨.incompatible (G.tensor ref).shape shape, rfl⟩
      | none =>
        simp only []
        rw [ih]
        constructor
        · rintro ⟨p, hp, hviol⟩
          exact ⟨p, List.mem_cons_of_mem _ hp, hviol⟩
        · rintro ⟨p, hp, hviol⟩
          rcases List.mem_cons.1 hp with rfl | hp
          · exfalso
            rcases hviol with h | ⟨q, hq, hq2, hq1, hqne⟩
            · exact h hrank
            · have := List.find?_eq_none.1 hfind q hq
              simp only [Bool.and_eq_true, bne_iff_ne, Option.isSome_iff_ne_none,
                not_and] at this
              exact (this ⟨hq2, hq1⟩) hqne
          · exact ⟨p, hp, hviol⟩
    · rw [if_pos (by simp [hrank])]
      constructor
      · intro _
        exact ⟨(shape, ref), List.mem_cons_self _ _, Or.inl hrank⟩
      · intro _
        exact ⟨.incompatible (G.tensor ref).shape shape, rfl⟩

/-- C9: with the provided structure matching the reference structure, the
input-compatibility check fails exactly when some provided tensor's rank
differs from its reference's, or some pair of corresponding known (non-None)
dimensions differ; a `None` dimension on either side never triggers a
failure. -/
theorem assert_input_compatibility_error_iff (G : Graph) (refs : List Nat)
    (shapes : List (List (Option Nat))) (hlen : shapes.length = refs.length) :
    (∃ e, assertInputCompatibility G refs shapes = .error e) ↔
    (∃ p ∈ shapes.zip refs, p.1.length ≠ (G.tensor p.2).shape.length ∨
      ∃ q ∈ p.1.zip (G.tensor p.2).shape, q.2 ≠ none ∧ q.1 ≠ none ∧ q.1 ≠ q.2) := by
  unfold assertInputCompatibility
  rw [if_neg (by simp [hlen])]
  exact checkPairs_error_iff G (shapes.zip refs)

/-- Witness for C9 at a concrete failing input: a known-dimension conflict
(3 versus 2) with a wildcard `None` in the other position. -/
theorem assert_input_compatibility_error_iff_witness :
    ([[some 2, some 7]].length = [0].length) ∧
    ((∃ e, assertInputCompatibility Gshape [0] [[some 2, some 7]] = .error e) ↔
      (∃ p ∈ [[some 2, some 7]].zip [0],
        p.1.length ≠ (Gshape.tensor p.2).shape.length ∨
        ∃ q ∈ p.1.zip (Gshape.tensor p.2).shape,
          q.2 ≠ none ∧ q.1 ≠ none ∧ q.1 ≠ q.2)) :=
  ⟨by decide,
   assert_input_compatibility_error_iff Gshape [0] [[some 2, some 7]] (by decide)⟩

/-! ## C10: the shortcut path ignores provided dtypes -/

theorem mem_zip_same {α : Type} {l : List α} {q : α × α} (hq : q ∈ l.zip l) :
    q.1 = q.2 := by
  induction l with
  | nil => simp [List.zip] at hq
  | cons a l ih =>
    rcases List.mem_cons.1 hq with h | h
    · rw [h]
    · exact ih h

theorem checkPairs_ok_of_shape_eq (G : Graph) (L : List (List (Option Nat) × Nat))
    (h : ∀ p ∈ L, p.1 = (G.tensor p.2).shape) : checkShapePairs G L = .ok () := by
  induction L with
  | nil => rfl
  | cons hd rest ih =>
    obtain ⟨shape, ref⟩ := hd
    have hhd : shape = (G.tensor ref).shape := h (shape, ref) (List.mem_cons_self _ _)
    rw [checkShapePairs]
    rw [if_neg (by simp [hhd])]
    have hfind : (shape.zip (G.tensor ref).shape).find?
        (fun p => p.2.isSome && p.1.isSome && p.1 != p.2) = none := by
      rw [List.find?_eq_none]
      intro q hq
      have hq12 : q.1 = q.2 := by
        rw [← hhd] at hq
        exact mem_zip_same hq
      simp [hq12]
    rw [hfind]
    exact ih (fun p hp => h p (List.mem_cons_of_mem _ hp))

theorem assert_ok_of_shape_eq (G : Graph) (refs : List Nat) (inputs : List KT)
    (hlen : inputs.length = refs.length)
    (hshapes : ∀ p ∈ inputs.zip refs, p.1.shape = (G.tensor p.2).shape) :
    assertInputCompatibility G refs (inputs.map (·.shape)) = .ok () := by
  unfold assertInputCompatibility
  rw [if_neg (by simp [hlen])]
  apply checkPairs_ok_of_shape_eq
  intro p hp
  rw [List.zip_map_left] at hp
  rcases List.mem_map.1 hp with ⟨q, hq, hqp⟩
  have := hshapes q hq
  rw [← hqp]
  simpa using this

/-- C10: whenever the shortcut path of `compute_output_spec` is taken (every
provided input's shape equals the corresponding reference input's shape), the
result is exactly the stored reference output metadata — in particular the
returned dtypes are the stored reference output dtypes, independent of the
dtypes of the provided inputs. -/
theorem computeOutputSpec_shortcut (G : Graph) (f : KFunction)
    (opSpec : Nat → List KT → List KT) (inputs : List KT)
    (hlen : inputs.length = f.inputs.length)
    (hshapes : ∀ p ∈ inputs.zip f.inputs, p.1.shape = (G.tensor p.2).shape) :
    computeOutputSpec G f opSpec inputs =
      .ok (f.outputs.map (fun t => some (refKT G t))) := by
  unfold computeOutputSpec
  rw [assert_ok_of_shape_eq G f.inputs inputs hlen hshapes]
  rw [if_pos ?hc]
  case hc =>
    rw [List.all_eq_true]
    intro p hp
    simpa using hshapes p hp

theorem buildFunction_Gchain : buildFunction Gchain [0] [1] = .ok fChain := by rfl

/-! ## The depth-first traversal: ordering invariants -/

theorem split_append_singleton {α : Type} {l pre post : List α} {a n : α}
    (h : l ++ [a] = pre ++ n :: post) :
    (pre = l ∧ n = a ∧ post = []) ∨
      (∃ post', post = post' ++ [a] ∧ l = pre ++ n :: post') := by
  rcases List.eq_nil_or_concat post with rfl | ⟨post', b, rfl⟩
  · left
    have h' : l ++ [a] = pre ++ [n] := h
    obtain ⟨h1, h2⟩ := List.append_inj' h' rfl
    refine ⟨h1.symm, ?_, rfl⟩
    simpa using h2.symm
  · right
    have h' : l ++ [a] = (pre ++ n :: post') ++ [b] := by
      rw [h]; simp
    obtain ⟨h1, h2⟩ := List.append_inj' h' rfl
    have hab : a = b := by simpa using h2
    exact ⟨post', by rw [hab, List.concat_eq_append], h1⟩

theorem DFSStep.of_inv {G : Graph} {s : DFSState} (hinv : DFSInv G s) :
    DFSStep G s s :=
  ⟨hinv, rfl, fun _ hn => hn, ⟨[], by simp⟩⟩

theorem DFSStep.comp {G : Graph} {s s' s'' : DFSState}
    (h1 : DFSStep G s s') (h2 : DFSStep G s' s'') : DFSStep G s s'' := by
  refine ⟨h2.inv, h2.ip_eq.trans h1.ip_eq,
    fun n hn => h2.fin_mono n (h1.fin_mono n hn), ?_⟩
  obtain ⟨d1, hd1⟩ := h1.order_ext
  obtain ⟨d2, hd2⟩ := h2.order_ext
  exact ⟨d1 ++ d2, by rw [hd2, hd1, List.append_assoc]⟩

theorem visitList_ok (G : Graph)
    (visit : Nat → DFSState → Except GraphError DFSState)
    (hv : ∀ t s s', DFSInv G s → visit t s = .ok s' →
      DFSStep G s s' ∧ (∀ p, resolveNode G t = some p → p ∈ s'.finished)) :
    ∀ ts s s', DFSInv G s → visitList visit ts s = .ok s' →
      DFSStep G s s' ∧
        (∀ t ∈ ts, ∀ p, resolveNode G t = some p → p ∈ s'.finished) := by
  intro ts
  induction ts with
  | nil =>
    intro s s' hinv hok
    have hss : s = s' := by simpa [visitList] using hok
    subst hss
    exact ⟨DFSStep.of_inv hinv, by simp⟩
  | cons t ts ih =>
    intro s s' hinv hok
    rw [visitList] at hok
    cases hv0 : visit t s with
    | error e => rw [hv0] at hok; exact absurd hok (by simp)
    | ok smid =>
      rw [hv0] at hok
      obtain ⟨hstep1, hres1⟩ := hv t s smid hinv hv0
      obtain ⟨hstep2, hres2⟩ := ih smid s' hstep1.inv hok
      refine ⟨hstep1.comp hstep2, ?_⟩
      intro x hx p hp
      rcases List.mem_cons.1 hx with rfl | hx
      · exact hstep2.fin_mono p (hres1 p hp)
      · exact hres2 x hx p hp

theorem buildMapVisit_ok (G : Graph) :
    ∀ fuel t s s', DFSInv G s → buildMapVisit G fuel t s = .ok s' →
      DFSStep G s s' ∧ (∀ p, resolveNode G t = some p → p ∈ s'.finished) := by
  intro fuel
  induction fuel with
  | zero => intro t s s' _ hok; exact absurd hok (by simp [buildMapVisit])
  | succ fuel ih =>
    intro t s s' hinv hok
    rw [buildMapVisit] at hok
    cases hh : (G.tensor t).history with
    | none =>
      rw [hh] at hok
      have hss : s = s' := by simpa using hok
      subst hss
      refine ⟨DFSStep.of_inv hinv, ?_⟩
      intro p hp
      simp [resolveNode, hh] at hp
    | some oi =>
      obtain ⟨opId, nodeIndex⟩ := oi
      rw [hh] at hok
      dsimp only at hok
      by_cases hfin : (G.op opId).inbound_nodes.getD nodeIndex 0 ∈ s.finished
      · rw [if_pos hfin] at hok
        have hss : s = s' := by simpa using hok
        subst hss
        refine ⟨DFSStep.of_inv hinv, ?_⟩
        intro p hp
        have hpn : (G.op opId).inbound_nodes.getD nodeIndex 0 = p := by
          simpa [resolveNode, hh] using hp
        exact hpn ▸ hfin
      · rw [if_neg hfin] at hok
        by_cases hip : (G.op opId).inbound_nodes.getD nodeIndex 0 ∈ s.in_progress
        · rw [if_pos hip] at hok
          exact absurd hok (by simp)
        · rw [if_neg hip] at hok
          set nid := (G.op opId).inbound_nodes.getD nodeIndex 0 with hniddef
          set s1 : DFSState :=
            { s with
              operation_indices :=
                if (alGet s.operation_indices opId).isSome then s.operation_indices
                else s.operation_indices ++ [(opId, (s.operation_indices.length : Int))]
              in_progress := nid :: s.in_progress } with hs1def
          set children :=
            (if (G.node nid).is_input then [] else (G.node nid).input_tensors)
            with hchdef
          have hinv1 : DFSInv G s1 :=
            { fin_iff := hinv.fin_iff
              order_nodup := hinv.order_nodup
              deps_before := hinv.deps_before
              ip_nodup := List.Nodup.cons hip hinv.ip_nodup
              ip_fin := by
                intro n hn
                rcases List.mem_cons.1 hn with rfl | hn
                · exact hfin
                · exact hinv.ip_fin n hn }
          cases hrec : visitList (fun x st => buildMapVisit G fuel x st) children s1 with
          | error e =>
            rw [hrec] at hok
            exact absurd hok (by simp)
          | ok s2 =>
            rw [hrec] at hok
            have hs' : s' =
                { finished := nid :: s2.finished
                  in_progress := s2.in_progress.erase nid
                  order := s2.order ++ [nid]
                  operation_indices := s2.operation_indices } := by
              simpa using hok.symm
            obtain ⟨hstep, hres⟩ :=
              visitList_ok G _ (fun x sa sb hi hk => ih x sa sb hi hk)
                children s1 s2 hinv1 hrec
            have hip2 : s2.in_progress = nid :: s.in_progress := hstep.ip_eq
            have hnidfin2 : nid ∉ s2.finished :=
              hstep.inv.ip_fin nid (by rw [hip2]; exact List.mem_cons_self _ _)
            have hnidord2 : nid ∉ s2.order :=
              fun hc => hnidfin2 ((hstep.inv.fin_iff nid).2 hc)
            have hinv' : DFSInv G
                { finished := nid :: s2.finished
                  in_progress := s2.in_progress.erase nid
                  order := s2.order ++ [nid]
                  operation_indices := s2.operation_indices } :=
              { fin_iff := by
                  intro n
                  simp only [List.mem_cons, List.mem_append, List.mem_singleton]
                  rw [hstep.inv.fin_iff n]
                  tauto
                order_nodup := nodup_append_singleton hstep.inv.order_nodup hnidord2
                deps_before := by
                  intro pre n post hsplit p hp
                  rcases split_append_singleton hsplit with ⟨rfl, rfl, rfl⟩ |
                    ⟨post', rfl, hsp⟩
                  · unfold parentNodes at hp
                    by_cases hii : (G.node nid).is_input
                    · rw [if_pos hii] at hp
                      simp at hp
                    · rw [if_neg hii] at hp
                      rcases List.mem_filterMap.1 hp with ⟨x, hx, hresx⟩
                      have hxch : x ∈ children := by
                        rw [hchdef, if_neg hii]; exact hx
                      exact (hstep.inv.fin_iff p).1 (hres x hxch p hresx)
                  · exact hstep.inv.deps_before pre n post' hsp p hp
                ip_nodup := by
                  rw [hip2, List.erase_cons_head]
                  exact hinv.ip_nodup
                ip_fin := by
                  intro n hn
                  rw [hip2, List.erase_cons_head] at hn
                  simp only [List.mem_cons]
                  rintro (rfl | hc)
                  · exact hip hn
                  · exact hstep.inv.ip_fin n (by rw [hip2]; exact List.mem_cons_of_mem _ hn) hc }
            subst hs'
            refine ⟨⟨hinv', ?_, ?_, ?_⟩, ?_⟩
            · show s2.in_progress.erase nid = s.in_progress
              rw [hip2, List.erase_cons_head]
            · intro n hn
              exact List.mem_cons_of_mem _ (hstep.fin_mono n hn)
            · obtain ⟨d, hd⟩ := hstep.order_ext
              exact ⟨d ++ [nid], by rw [hd]; simp⟩
            · intro p hp
              have hpn : nid = p := by simpa [resolveNode, hh, hniddef] using hp
              rw [← hpn]
              exact List.mem_cons_self _ _

/-- The initial DFS state satisfies the invariant. -/
theorem DFSInv_init (G : Graph) :
    DFSInv G { finished := [], in_progress := [], order := [], operation_indices := [] } :=
  { fin_iff := by simp
    order_nodup := by simp
    deps_before := by intro pre n post h; exact absurd h (by simp)
    ip_nodup := by simp
    ip_fin := by simp }

/-- Facts available whenever `_build_map` succeeds. -/
theorem buildMap_ok (G : Graph) (outputs : List Nat) (st : DFSState)
    (h : buildMap G outputs = .ok st) :
    DFSInv G st ∧ st.in_progress = [] ∧
      (∀ x ∈ outputs, ∀ p, resolveNode G x = some p → p ∈ st.finished) := by
  unfold buildMap at h
  obtain ⟨hstep, hres⟩ :=
    visitList_ok G _ (fun x sa sb hi hk => buildMapVisit_ok G _ x sa sb hi hk)
      outputs _ st (DFSInv_init G) h
  exact ⟨hstep.inv, hstep.ip_eq, hres⟩

/-- C6 (amended): for every graph accepted by the backward traversal,
`nodes_in_decreasing_depth` lists each node's dependencies strictly BEFORE
the node itself — append-on-finish yields a topological order from inputs
toward outputs, and it is reversing the list that yields
outputs-toward-inputs order. -/
theorem buildMap_deps_before (G : Graph) (outputs : List Nat) (st : DFSState)
    (h : buildMap G outputs = .ok st) :
    ∀ pre n post, st.order = pre ++ n :: post →
      ∀ p ∈ parentNodes G (G.node n), p ∈ pre :=
  (buildMap_ok G outputs st h).1.deps_before

/-- Witness for C6 (amended) on the concrete chain graph. -/
theorem buildMap_deps_before_witness :
    buildMap Gchain [1] = .ok chainDFS ∧
      (∀ pre n post, chainDFS.order = pre ++ n :: post →
        ∀ p ∈ parentNodes Gchain (Gchain.node n), p ∈ pre) :=
  ⟨by rfl, buildMap_deps_before Gchain [1] chainDFS (by rfl)⟩

/-- Counterexample to C6 as stated: on the chain graph the traversal returns
`[0, 1]`, and node `1`'s dependency (node `0`) appears BEFORE node `1` in the
list, not after it. -/
theorem buildMap_deps_after_counterexample :
    (buildMap Gchain [1]).map DFSState.order = .ok [0, 1] ∧
      ¬ DependenciesAfter Gchain [0, 1] := by
  constructor
  · rfl
  · intro h
    have hp : (0 : Nat) ∈ parentNodes Gchain (Gchain.node 1) := by decide
    have := h [0] 1 [] rfl 0 hp
    simp at this

/-- Witness for C10: an input with matching shape but dtype `"int32"` still
yields the stored `"float32"` reference output metadata. -/
theorem computeOutputSpec_shortcut_witness :
    ([KT.mk [none, some 4] "int32"].length = fChain.inputs.length) ∧
    (∀ p ∈ [KT.mk [none, some 4] "int32"].zip fChain.inputs,
      p.1.shape = (Gchain.tensor p.2).shape) ∧
    computeOutputSpec Gchain fChain (fun _ args => args)
        [KT.mk [none, some 4] "int32"] =
      .ok (fChain.outputs.map (fun t => some (refKT Gchain t))) :=
  ⟨by decide, by decide,
   computeOutputSpec_shortcut Gchain fChain (fun _ args => args)
     [KT.mk [none, some 4] "int32"] (by decide) (by decide)⟩

/-! ## The depth-assignment loop -/

section DepthLoop

/-- Skipping the dependency-raising fold leaves unrelated keys unchanged. -/
theorem raise_fold_get_ne (L : List Nat) (d : Nat) :
    ∀ (nd : List (Nat × Nat)) (k : Nat), k ∉ L →
      alGet (L.foldl (fun nd p => alUpdate nd p (max (d + 1) (alGetD nd p 0))) nd) k =
        alGet nd k := by
  induction L with
  | nil => intro nd k _; rfl
  | cons p L ih =>
    intro nd k hk
    rw [List.foldl_cons, ih _ k (fun hc => hk (List.mem_cons_of_mem _ hc)),
      alGet_update_ne _ _ _ (fun hc => hk (by rw [hc]; exact List.mem_cons_self p L))]

/-- The dependency-raising fold only increases recorded depths. -/
theorem raise_fold_mono (L : List Nat) (d : Nat) :
    ∀ (nd : List (Nat × Nat)) (k dk : Nat), alGet nd k = some dk →
      ∃ dk', alGet (L.foldl (fun nd p => alUpdate nd p (max (d + 1) (alGetD nd p 0))) nd) k =
        some dk' ∧ dk ≤ dk' := by
  induction L with
  | nil => intro nd k dk h; exact ⟨dk, h, le_refl dk⟩
  | cons p L ih =>
    intro nd k dk h
    rw [List.foldl_cons]
    by_cases hkp : k = p
    · subst hkp
      have h1 : alGet (alUpdate nd k (max (d + 1) (alGetD nd k 0))) k =
          some (max (d + 1) (alGetD nd k 0)) := alGet_update_self _ _ _
      have hdk : dk ≤ max (d + 1) (alGetD nd k 0) := by
        have : alGetD nd k 0 = dk := by rw [alGetD, h]; rfl
        rw [this]
        exact le_max_right _ _
      obtain ⟨dk', h2, h3⟩ := ih _ k _ h1
      exact ⟨dk', h2, le_trans hdk h3⟩
    · have h1 : alGet (alUpdate nd p (max (d + 1) (alGetD nd p 0))) k = some dk := by
        rw [alGet_update_ne _ _ _ hkp]; exact h
      exact ih _ k dk h1

/-- After the dependency-raising fold, every listed dependency is recorded
with depth at least `d + 1`. -/
theorem raise_fold_ge (L : List Nat) (d : Nat) :
    ∀ (nd : List (Nat × Nat)) (p : Nat), p ∈ L →
      ∃ dp, alGet (L.foldl (fun nd p => alUpdate nd p (max (d + 1) (alGetD nd p 0))) nd) p =
        some dp ∧ d + 1 ≤ dp := by
  induction L with
  | nil => simp
  | cons q L ih =>
    intro nd p hp
    rw [List.foldl_cons]
    by_cases hpL : p ∈ L
    · exact ih _ p hpL
    · have hpq : p = q := by
        rcases List.mem_cons.1 hp with h | h
        · exact h
        · exact absurd h hpL
      subst hpq
      have h1 : alGet (alUpdate nd p (max (d + 1) (alGetD nd p 0))) p =
          some (max (d + 1) (alGetD nd p 0)) := alGet_update_self _ _ _
      obtain ⟨dp, h2, h3⟩ := raise_fold_mono L d _ p _ h1
      exact ⟨dp, h2, le_trans (le_max_left _ _) h3⟩

theorem raise_fold_keys (L : List Nat) (d : Nat) :
    ∀ (nd : List (Nat × Nat)) (k : Nat),
      k ∈ alKeys (L.foldl (fun nd p => alUpdate nd p (max (d + 1) (alGetD nd p 0))) nd) →
      k ∈ alKeys nd ∨ k ∈ L := by
  induction L with
  | nil => intro nd k h; exact Or.inl h
  | cons p L ih =>
    intro nd k h
    rw [List.foldl_cons] at h
    rcases ih _ k h with h | h
    · rcases mem_alKeys_update.1 h with h | rfl
      · exact Or.inl h
      · exact Or.inr (List.mem_cons_self _ _)
    · exact Or.inr (List.mem_cons_of_mem _ h)

/-- The processed node's final entry and its dependencies' entries after one
`depthStep`. -/
theorem depthStep_out (G : Graph) (nd od : List (Nat × Nat)) (m : Nat)
    (hmp : m ∉ parentNodes G (G.node m)) :
    ∃ dm, alGet (depthStep G (nd, od) m).1 m = some dm ∧
      (∀ d0, alGet nd m = some d0 → d0 ≤ dm) ∧
      (∀ p ∈ parentNodes G (G.node m), ∃ dp,
        alGet (depthStep G (nd, od) m).1 p = some dp ∧ dm + 1 ≤ dp) := by
  unfold depthStep
  dsimp only
  refine ⟨max (alGetD nd m 0) (alGetD od ((G.node m).operation.getD 0) 0), ?_, ?_, ?_⟩
  · rw [raise_fold_get_ne _ _ _ _ hmp, alGet_update_self]
  · intro d0 h0
    have : alGetD nd m 0 = d0 := by rw [alGetD, h0]; rfl
    rw [this]
    exact le_max_left _ _
  · intro p hp
    exact raise_fold_ge _ _ _ p hp

/-- `depthStep` leaves every key other than the processed node and its
dependencies unchanged. -/
theorem depthStep_untouched (G : Graph) (nd od : List (Nat × Nat)) (m k : Nat)
    (hkm : k ≠ m) (hkp : k ∉ parentNodes G (G.node m)) :
    alGet (depthStep G (nd, od) m).1 k = alGet nd k := by
  unfold depthStep
  dsimp only
  rw [raise_fold_get_ne _ _ _ _ hkp, alGet_update_ne _ _ _ hkm,
    alGet_setdefault_ne _ _ _ hkm]

/-- `depthStep` only increases recorded depths. -/
theorem depthStep_mono (G : Graph) (nd od : List (Nat × Nat)) (m k dk : Nat)
    (h : alGet nd k = some dk) :
    ∃ dk', alGet (depthStep G (nd, od) m).1 k = some dk' ∧ dk ≤ dk' := by
  unfold depthStep
  dsimp only
  have hsd : alGet (alSetdefault nd m 0) k = some dk := by
    by_cases hkm : k = m
    · subst hkm
      rw [alGet_setdefault_self, h]
      rfl
    · rw [alGet_setdefault_ne _ _ _ hkm]; exact h
  by_cases hkm : k = m
  · subst hkm
    have hup : alGet (alUpdate (alSetdefault nd k 0) k
        (max (alGetD nd k 0) (alGetD od ((G.node k).operation.getD 0) 0))) k =
        some (max (alGetD nd k 0) (alGetD od ((G.node k).operation.getD 0) 0)) :=
      alGet_update_self _ _ _
    obtain ⟨dk', h2, h3⟩ := raise_fold_mono _ _ _ k _ hup
    refine ⟨dk', h2, le_trans ?_ h3⟩
    have : alGetD nd k 0 = dk := by rw [alGetD, h]; rfl
    rw [this]
    exact le_max_left _ _
  · have hup : alGet (alUpdate (alSetdefault nd m 0) m
        (max (alGetD nd m 0) (alGetD od ((G.node m).operation.getD 0) 0))) k = some dk := by
      rw [alGet_update_ne _ _ _ hkm]; exact hsd
    exact raise_fold_mono _ _ _ k _ hup

theorem depthStep_nd_keys (G : Graph) (nd od : List (Nat × Nat)) (m k : Nat)
    (h : k ∈ alKeys (depthStep G (nd, od) m).1) :
    k ∈ alKeys nd ∨ k = m ∨ k ∈ parentNodes G (G.node m) := by
  unfold depthStep at h
  dsimp only at h
  rcases raise_fold_keys _ _ _ k h with h | h
  · rcases mem_alKeys_update.1 h with h | rfl
    · rcases mem_alKeys_setdefault.1 h with h | rfl
      · exact Or.inl h
      · exact Or.inr (Or.inl rfl)
    · exact Or.inr (Or.inl rfl)
  · exact Or.inr (Or.inr h)

theorem depthStep_od_mem (G : Graph) (nd od : List (Nat × Nat)) (m k : Nat)
    (h : k ∈ alKeys od) : k ∈ alKeys (depthStep G (nd, od) m).2 := by
  unfold depthStep
  dsimp only
  exact mem_alKeys_update.2 (Or.inl h)

theorem depthStep_od_self (G : Graph) (nd od : List (Nat × Nat)) (m : Nat) :
    ((G.node m).operation.getD 0) ∈ alKeys (depthStep G (nd, od) m).2 := by
  unfold depthStep
  dsimp only
  exact mem_alKeys_update.2 (Or.inr rfl)

/-- The main induction over the depth-assignment loop. -/
theorem depthLoop_go (G : Graph) (order : List Nat)
    (hnodup : order.Nodup)
    (hdeps : ∀ pre n post, order = pre ++ n :: post →
      ∀ p ∈ parentNodes G (G.node n), p ∈ pre) :
    ∀ (Q P : List Nat) (nd od : List (Nat × Nat)),
      order.reverse = P ++ Q → DepthInv G P nd od →
      DepthInv G (P ++ Q) (Q.foldl (depthStep G) (nd, od)).1
        (Q.foldl (depthStep G) (nd, od)).2 := by
  intro Q
  induction Q with
  | nil =>
    intro P nd od _ hInv
    simpa using hInv
  | cons m Q' ih =>
    intro P nd od hsplit hInv
    obtain ⟨hI, hK, hO⟩ := hInv
    have hrevnodup : (P ++ m :: Q').Nodup := by
      rw [← hsplit]
      exact List.nodup_reverse.2 hnodup
    have hdisj := (List.nodup_append.1 hrevnodup).2.2
    have hmP : m ∉ P := fun hc => hdisj hc (List.mem_cons_self _ _)
    have hPQ : ∀ a ∈ P, a ∉ Q' := fun a ha hc => hdisj ha (List.mem_cons_of_mem _ hc)
    have hmQ : m ∉ Q' :=
      (List.nodup_cons.1 (List.nodup_append.1 hrevnodup).2.1).1
    have horder : order = Q'.reverse ++ m :: P.reverse := by
      have : order = (P ++ m :: Q').reverse := by
        rw [← hsplit, List.reverse_reverse]
      rw [this, List.reverse_append, List.reverse_cons, List.append_assoc,
        List.singleton_append]
    have hparents : ∀ p ∈ parentNodes G (G.node m), p ∈ Q'.reverse :=
      hdeps Q'.reverse m P.reverse horder
    have hparP : ∀ p ∈ parentNodes G (G.node m), p ∉ P := by
      intro p hp hc
      exact hPQ p hc (List.mem_reverse.1 (hparents p hp))
    have hmm : m ∉ parentNodes G (G.node m) := fun hc =>
      hmQ (List.mem_reverse.1 (hparents m hc))
    obtain ⟨dm, hdm, hdmub, hdmpar⟩ := depthStep_out G nd od m hmm
    have hInv' : DepthInv G (P ++ [m]) (depthStep G (nd, od) m).1
        (depthStep G (nd, od) m).2 := by
      refine ⟨?_, ?_, ?_⟩
      · intro n hn
        rcases List.mem_append.1 hn with hn | hn
        · obtain ⟨dn, hdn, hdnp⟩ := hI n hn
          have hnm : n ≠ m := fun hc => hmP (hc ▸ hn)
          have hnpar : n ∉ parentNodes G (G.node m) := fun hc => hparP n hc hn
          refine ⟨dn, ?_, ?_⟩
          · rw [depthStep_untouched G nd od m n hnm hnpar]; exact hdn
          · intro p hp
            obtain ⟨dp, hdp, hdple⟩ := hdnp p hp
            obtain ⟨dp', hdp', hle⟩ := depthStep_mono G nd od m p dp hdp
            exact ⟨dp', hdp', le_trans hdple hle⟩
        · rw [List.mem_singleton] at hn
          subst hn
          exact ⟨dm, hdm, hdmpar⟩
      · intro k hk
        rcases depthStep_nd_keys G nd od m k hk with hk | hk | hk
        · rcases hK k hk with hk | ⟨a, ha, hpa⟩
          · exact Or.inl (List.mem_append.2 (Or.inl hk))
          · exact Or.inr ⟨a, List.mem_append.2 (Or.inl ha), hpa⟩
        · exact Or.inl (List.mem_append.2 (Or.inr (hk ▸ List.mem_singleton_self _)))
        · exact Or.inr ⟨m, List.mem_append.2 (Or.inr (List.mem_singleton_self _)), hk⟩
      · intro n hn
        rcases List.mem_append.1 hn with hn | hn
        · exact depthStep_od_mem G nd od m _ (hO n hn)
        · rw [List.mem_singleton] at hn
          subst hn
          exact depthStep_od_self G nd od n
    have hsplit' : order.reverse = (P ++ [m]) ++ Q' := by
      rw [hsplit, List.append_assoc, List.singleton_append]
    have := ih (P ++ [m]) (depthStep G (nd, od) m).1 (depthStep G (nd, od) m).2
      hsplit' hInv'
    rw [List.append_assoc, List.singleton_append] at this
    simpa using this

/-- After the whole depth-assignment loop: every traversed node has a depth,
the dependency invariant holds, all keys are traversed nodes, and every
traversed node's operation has an operation-depth entry. -/
theorem computeDepths_inv (G : Graph) (st : DFSState) (hinv : DFSInv G st) :
    DepthInv G st.order.reverse (computeDepths G st.order).1
      (computeDepths G st.order).2 := by
  unfold computeDepths
  have h0 : DepthInv G [] ([] : List (Nat × Nat)) ([] : List (Nat × Nat)) := by
    refine ⟨by simp, ?_, by simp⟩
    intro k hk
    simp [alKeys] at hk
  have := depthLoop_go G st.order hinv.order_nodup hinv.deps_before
    st.order.reverse [] [] [] (by simp) h0
  simpa using this

/-- Unpacking `InputsWF` for one declared input with a history. -/
theorem InputsWF.spec {G : Graph} {ins : List Nat} (h : InputsWF G ins) {t : Nat}
    (ht : t ∈ ins) {o i : Nat} (hh : (G.tensor t).history = some (o, i)) :
    i = 0 ∧ ∃ r, (G.op o).inbound_nodes = [r] ∧ (G.node r).is_input = true ∧
      (G.node r).input_tensors = [t] ∧ (G.node r).outputs = [t] ∧
      (G.node r).operation = some o ∧ r ∈ alKeys G.nodes := by
  unfold InputsWF inputsWFCheck at h
  rw [List.all_eq_true] at h
  have h' := h t ht
  rw [hh] at h'
  dsimp only at h'
  cases hin : (G.op o).inbound_nodes with
  | nil =>
    rw [hin] at h'
    simp at h'
  | cons r rest =>
    cases rest with
    | nil =>
      rw [hin] at h'
      simp only [Bool.and_eq_true, beq_iff_eq, List.contains_eq_any_beq,
        List.any_eq_true, decide_eq_true_eq] at h'
      obtain ⟨hi0, hrest⟩ := h'
      refine ⟨hi0, r, rfl, ?_, ?_, ?_, ?_, ?_⟩
      · tauto
      · tauto
      · tauto
      · tauto
      · obtain ⟨x, hx, hxr⟩ : ∃ x ∈ alKeys G.nodes, r = x := by tauto
        rw [hxr]
        exact hx
    | cons r' rest' =>
      rw [hin] at h'
      simp at h'

/-- Parents of members stay inside a dependency-closed ordered list. -/
theorem deps_closed {G : Graph} {order : List Nat}
    (hdeps : ∀ pre n post, order = pre ++ n :: post →
      ∀ p ∈ parentNodes G (G.node n), p ∈ pre)
    {n : Nat} (hn : n ∈ order) {p : Nat} (hp : p ∈ parentNodes G (G.node n)) :
    p ∈ order := by
  obtain ⟨s, t, rfl⟩ := List.append_of_mem hn
  exact List.mem_append.2 (Or.inl (hdeps s n t rfl p hp))

/-- The unreached-input registration preserves the depth invariant and the
key/operation-depth correspondence. -/
theorem registerLoop_inv (G : Graph) (ins : List Nat) (hwfin : InputsWF G ins) :
    ∀ (sub : List Nat), (∀ t ∈ sub, t ∈ ins) → ∀ (dd : DepthData),
    (∀ n dn, alGet dd.nodes_depths n = some dn →
      ∀ p ∈ parentNodes G (G.node n), ∃ dp,
        alGet dd.nodes_depths p = some dp ∧ dn + 1 ≤ dp) →
    (∀ k ∈ alKeys dd.nodes_depths,
      ((G.node k).operation.getD 0) ∈ alKeys dd.operations_depths) →
    (∀ n dn, alGet (sub.foldl (regStep G) dd).nodes_depths n = some dn →
      ∀ p ∈ parentNodes G (G.node n), ∃ dp,
        alGet (sub.foldl (regStep G) dd).nodes_depths p = some dp ∧ dn + 1 ≤ dp) ∧
    (∀ k ∈ alKeys (sub.foldl (regStep G) dd).nodes_depths,
      ((G.node k).operation.getD 0) ∈
        alKeys (sub.foldl (regStep G) dd).operations_depths) := by
  intro sub
  induction sub with
  | nil => intro _ dd h1 h2; exact ⟨h1, h2⟩
  | cons t sub ih =>
    intro hsub dd h1 h2
    rw [List.foldl_cons]
    refine ih (fun x hx => hsub x (List.mem_cons_of_mem _ hx)) (regStep G dd t) ?_ ?_
    · -- depth invariant after one registration step
      unfold regStep
      cases hh : (G.tensor t).history with
      | none => exact h1
      | some oi =>
        obtain ⟨o, i⟩ := oi
        dsimp only
        by_cases hod : (alGet dd.operations_depths o).isSome
        · rw [if_pos hod]; exact h1
        · rw [if_neg hod]
          obtain ⟨hi0, r, hinb, hisin, hit, hout, hop, hrk⟩ :=
            hwfin.spec (hsub t (List.mem_cons_self _ _)) hh
          have hr : (G.op o).inbound_nodes.getD 0 0 = r := by rw [hinb]; rfl
          have hrnotin : r ∉ alKeys dd.nodes_depths := by
            intro hc
            have hmem := h2 r hc
            rw [hop] at hmem
            dsimp only [Option.getD] at hmem
            rw [mem_alKeys_iff] at hmem
            exact hod hmem
          intro n dn hdn p hp
          dsimp only at hdn ⊢
          rw [hr] at hdn ⊢
          by_cases hnr : n = r
          · subst hnr
            exfalso
            have hpe : parentNodes G (G.node n) = [] := by
              unfold parentNodes
              rw [if_pos hisin]
            rw [hpe] at hp
            simp at hp
          · rw [alGet_update_ne _ _ _ hnr] at hdn
            obtain ⟨dp, hdp, hle⟩ := h1 n dn hdn p hp
            have hpr : p ≠ r := by
              intro hc
              subst hc
              rw [mem_alKeys_iff, hdp] at hrnotin
              exact hrnotin rfl
            refine ⟨dp, ?_, hle⟩
            rw [alGet_update_ne _ _ _ hpr]
            exact hdp
    · -- key correspondence after one registration step
      unfold regStep
      cases hh : (G.tensor t).history with
      | none => exact h2
      | some oi =>
        obtain ⟨o, i⟩ := oi
        dsimp only
        by_cases hod : (alGet dd.operations_depths o).isSome
        · rw [if_pos hod]; exact h2
        · rw [if_neg hod]
          obtain ⟨hi0, r, hinb, hisin, hit, hout, hop, hrk⟩ :=
            hwfin.spec (hsub t (List.mem_cons_self _ _)) hh
          have hr : (G.op o).inbound_nodes.getD 0 0 = r := by rw [hinb]; rfl
          intro k hk
          dsimp only at hk ⊢
          rw [hr] at hk
          rcases mem_alKeys_update.1 hk with hk | rfl
          · exact mem_alKeys_update.2 (Or.inl (h2 k hk))
          · rw [hop]
            exact mem_alKeys_update.2 (Or.inr rfl)

/-- The depth invariant for the final `nodes_depths` dict (after the loop and
the unreached-input registration). -/
theorem nodesDepthsOf_inv (G : Graph) (ins : List Nat) (st : DFSState)
    (hwfin : InputsWF G ins) (hinv : DFSInv G st) :
    ∀ n dn, alGet (nodesDepthsOf G ins st).nodes_depths n = some dn →
      ∀ p ∈ parentNodes G (G.node n), ∃ dp,
        alGet (nodesDepthsOf G ins st).nodes_depths p = some dp ∧ dn + 1 ≤ dp := by
  obtain ⟨hA, hB, hC⟩ := computeDepths_inv G st hinv
  have hmem : ∀ k, k ∈ alKeys (computeDepths G st.order).1 → k ∈ st.order.reverse := by
    intro k hk
    rcases hB k hk with hk | ⟨m, hm, hpm⟩
    · exact hk
    · rw [List.mem_reverse] at hm ⊢
      exact deps_closed hinv.deps_before hm hpm
  have h1 : ∀ n dn, alGet (computeDepths G st.order).1 n = some dn →
      ∀ p ∈ parentNodes G (G.node n), ∃ dp,
        alGet (computeDepths G st.order).1 p = some dp ∧ dn + 1 ≤ dp := by
    intro n dn hdn p hp
    have hnk : n ∈ alKeys (computeDepths G st.order).1 := by
      rw [mem_alKeys_iff, hdn]; rfl
    obtain ⟨dn', hdn', hpar⟩ := hA n (hmem n hnk)
    rw [hdn] at hdn'
    injection hdn' with hdneq
    subst hdneq
    exact hpar p hp
  have h2 : ∀ k ∈ alKeys (computeDepths G st.order).1,
      ((G.node k).operation.getD 0) ∈ alKeys (computeDepths G st.order).2 :=
    fun k hk => hC k (hmem k hk)
  have hreg := registerLoop_inv G ins hwfin ins (fun _ ht => ht)
    { nodes_depths := (computeDepths G st.order).1
      operations_depths := (computeDepths G st.order).2
      operation_indices := st.operation_indices
      network_nodes := networkNodesOf G st.order } h1 h2
  unfold nodesDepthsOf registerUnreached
  exact hreg.1

/-- C2: for every graph accepted by `map_graph`, every node with a recorded
depth in `nodes_depths` has each of its dependency nodes recorded with a
depth at least one greater. -/
theorem map_graph_depth_invariant (G : Graph) (ins outs : List Nat)
    (hwfin : InputsWF G ins) (res : MapResult)
    (_hok : map_graph G ins outs = .ok res)
    (st : DFSState) (hst : buildMap G outs = .ok st) :
    ∀ n dn, alGet (nodesDepthsOf G ins st).nodes_depths n = some dn →
      ∀ p ∈ parentNodes G (G.node n), ∃ dp,
        alGet (nodesDepthsOf G ins st).nodes_depths p = some dp ∧ dn + 1 ≤ dp :=
  nodesDepthsOf_inv G ins st hwfin (buildMap_ok G outs st hst).1

/-- Witness for C2 on the concrete chain graph. -/
theorem map_graph_depth_invariant_witness :
    InputsWF Gchain [0] ∧ map_graph Gchain [0] [1] = .ok chainMapResult ∧
      buildMap Gchain [1] = .ok chainDFS ∧
      (∀ n dn, alGet (nodesDepthsOf Gchain [0] chainDFS).nodes_depths n = some dn →
        ∀ p ∈ parentNodes Gchain (Gchain.node n), ∃ dp,
          alGet (nodesDepthsOf Gchain [0] chainDFS).nodes_depths p = some dp ∧
            dn + 1 ≤ dp) :=
  ⟨by rfl, by rfl, by rfl,
   map_graph_depth_invariant Gchain [0] [1] (by rfl) chainMapResult (by rfl)
     chainDFS (by rfl)⟩

end DepthLoop

/-! ## Well-formedness accessors -/

theorem contains_iff_mem {l : List Nat} {a : Nat} : l.contains a = true ↔ a ∈ l := by
  rw [List.contains_eq_any_beq, List.any_eq_true]
  constructor
  · rintro ⟨x, hx, hax⟩
    rw [show a = x from by simpa using hax]
    exact hx
  · intro h
    exact ⟨a, h, by simp⟩

/-- A tensor with a recorded history is a registered tensor object. -/
theorem tensor_mem_of_history {G : Graph} {t : Nat} {x : Nat × Nat}
    (hh : (G.tensor t).history = some x) : (t, G.tensor t) ∈ G.tensors := by
  unfold Graph.tensor at hh ⊢
  cases hl : alGet G.tensors t with
  | none =>
    rw [hl] at hh
    have hred : ((none : Option Tensor).getD default).history = none := rfl
    rw [hred] at hh
    exact Option.noConfusion hh
  | some tv =>
    exact alGet_mem hl

theorem Graph.WF.props {G : Graph} (h : G.WF) : WFProps G := by
  unfold Graph.WF Graph.wfCheck at h
  simp only [Bool.and_eq_true, decide_eq_true_eq, List.all_eq_true] at h
  obtain ⟨⟨⟨⟨⟨⟨⟨⟨h1, h2⟩, h3⟩, h4⟩, h5⟩, h6⟩, h7⟩, h8⟩, h9⟩ := h
  refine ⟨h1, h2, h3, ?_, ?_, h6, ?_, h8, ?_⟩
  · -- resolve
    intro t o i hh
    have hmem := tensor_mem_of_history hh
    have hc := h4 _ hmem
    dsimp only at hc
    rw [hh] at hc
    dsimp only at hc
    simp only [Bool.and_eq_true, decide_eq_true_eq, beq_iff_eq,
      contains_iff_mem] at hc
    exact ⟨by tauto, by tauto, by tauto, by tauto⟩
  · -- producer uniqueness
    intro a ha b hb x hxa hxb
    have hc := h5 a ha b hb x hxa
    simp only [Bool.or_eq_true, Bool.not_eq_true', beq_iff_eq] at hc
    rcases hc with hc | hc
    · exfalso
      have : ¬ x ∈ b.2.outputs := by
        rw [← contains_iff_mem, hc]
        simp
      exact this hxb
    · exact hc
  · -- back references
    intro a ha x hx
    have hc := h7 a ha x hx
    cases hop : a.2.operation with
    | none =>
      rw [hop] at hc
      cases hh : (G.tensor x).history <;> rw [hh] at hc <;> simp at hc
    | some o =>
      cases hh : (G.tensor x).history with
      | none =>
        rw [hop, hh] at hc
        simp at hc
      | some oi =>
        obtain ⟨o1, i1⟩ := oi
        rw [hop, hh] at hc
        dsimp only at hc
        simp only [Bool.and_eq_true, beq_iff_eq] at hc
        refine ⟨o, i1, rfl, ?_, hc.2⟩
        rw [hc.1]
  · -- input nodes carry their placeholder as input tensors
    intro a ha hin
    have hc := h9 a ha
    simp only [Bool.or_eq_true, Bool.not_eq_true', beq_iff_eq, hin] at hc
    rcases hc with hc | hc
    · exact absurd hc (by simp)
    · exact hc

theorem node_pair_mem {G : Graph} {r : Nat} (hr : r ∈ alKeys G.nodes) :
    (r, G.node r) ∈ G.nodes := by
  rw [mem_alKeys_iff] at hr
  cases hl : alGet G.nodes r with
  | none => rw [hl] at hr; exact absurd hr (by simp)
  | some nd =>
    have : G.node r = nd := by unfold Graph.node; rw [hl]; rfl
    rw [this]
    exact alGet_mem hl

/-! ## Fuel sufficiency and error classification for the traversal -/

theorem visitList_no_fuel (G : Graph)
    (visit : Nat → DFSState → Except GraphError DFSState) (fuel : Nat)
    (hok : ∀ t s s', DFSInv G s → visit t s = .ok s' → DFSStep G s s')
    (hnf : ∀ t s, DFSInv G s → (∀ n ∈ s.in_progress, n ∈ alKeys G.nodes) →
      G.nodes.length + 1 ≤ fuel + s.in_progress.length → visit t s ≠ .error .fuel) :
    ∀ ts s, DFSInv G s → (∀ n ∈ s.in_progress, n ∈ alKeys G.nodes) →
      G.nodes.length + 1 ≤ fuel + s.in_progress.length →
      visitList visit ts s ≠ .error .fuel := by
  intro ts
  induction ts with
  | nil => intro s _ _ _ hc; exact absurd hc (by simp [visitList])
  | cons t ts ih =>
    intro s hinv hip hbound hc
    rw [visitList] at hc
    cases hv0 : visit t s with
    | error e =>
      rw [hv0] at hc
      injection hc with hc
      subst hc
      exact hnf t s hinv hip hbound hv0
    | ok smid =>
      rw [hv0] at hc
      have hstep := hok t s smid hinv hv0
      refine ih smid hstep.inv ?_ ?_ hc
      · rw [hstep.ip_eq]; exact hip
      · rw [hstep.ip_eq]; exact hbound

theorem buildMapVisit_no_fuel (G : Graph) (hwf : G.WF) :
    ∀ fuel t s, DFSInv G s → (∀ n ∈ s.in_progress, n ∈ alKeys G.nodes) →
      G.nodes.length + 1 ≤ fuel + s.in_progress.length →
      buildMapVisit G fuel t s ≠ .error .fuel := by
  have hprops := hwf.props
  intro fuel
  induction fuel with
  | zero =>
    intro t s hinv hip hbound
    exfalso
    have hsub : List.Subperm s.in_progress (alKeys G.nodes) :=
      List.subperm_of_subset hinv.ip_nodup hip
    have hlen : s.in_progress.length ≤ (alKeys G.nodes).length :=
      hsub.length_le
    have : (alKeys G.nodes).length = G.nodes.length := by
      unfold alKeys; exact List.length_map _ _
    omega
  | succ fuel ih =>
    intro t s hinv hip hbound hc
    rw [buildMapVisit] at hc
    cases hh : (G.tensor t).history with
    | none => rw [hh] at hc; exact absurd hc (by simp)
    | some oi =>
      obtain ⟨opId, nodeIndex⟩ := oi
      rw [hh] at hc
      dsimp only at hc
      by_cases hfin : (G.op opId).inbound_nodes.getD nodeIndex 0 ∈ s.finished
      · rw [if_pos hfin] at hc; exact absurd hc (by simp)
      · rw [if_neg hfin] at hc
        by_cases hipm : (G.op opId).inbound_nodes.getD nodeIndex 0 ∈ s.in_progress
        · rw [if_pos hipm] at hc; exact absurd hc (by simp)
        · rw [if_neg hipm] at hc
          have hrk : (G.op opId).inbound_nodes.getD nodeIndex 0 ∈ alKeys G.nodes :=
            (hprops.resolve t opId nodeIndex hh).2.1
          have hinv1 : DFSInv G
              { s with
                operation_indices :=
                  if (alGet s.operation_indices opId).isSome then s.operation_indices
                  else s.operation_indices ++ [(opId, (s.operation_indices.length : Int))]
                in_progress := (G.op opId).inbound_nodes.getD nodeIndex 0 :: s.in_progress } :=
            { fin_iff := hinv.fin_iff
              order_nodup := hinv.order_nodup
              deps_before := hinv.deps_before
              ip_nodup := List.Nodup.cons hipm hinv.ip_nodup
              ip_fin := by
                intro n hn
                rcases List.mem_cons.1 hn with rfl | hn
                · exact hfin
                · exact hinv.ip_fin n hn }
          cases hrec : visitList (fun x st => buildMapVisit G fuel x st)
              (if (G.node ((G.op opId).inbound_nodes.getD nodeIndex 0)).is_input then []
               else (G.node ((G.op opId).inbound_nodes.getD nodeIndex 0)).input_tensors)
              { s with
                operation_indices :=
                  if (alGet s.operation_indices opId).isSome then s.operation_indices
                  else s.operation_indices ++ [(opId, (s.operation_indices.length : Int))]
                in_progress := (G.op opId).inbound_nodes.getD nodeIndex 0 :: s.in_progress } with
          | error e =>
            rw [hrec] at hc
            injection hc with hc
            subst hc
            refine visitList_no_fuel G _ fuel
              (fun x sa sb hi hk => (buildMapVisit_ok G fuel x sa sb hi hk).1)
              (fun x sa hi hk hb => ih x sa hi hk hb)
              _ _ hinv1 ?_ ?_ hrec
            · intro n hn
              rcases List.mem_cons.1 hn with rfl | hn
              · exact hrk
              · exact hip n hn
            · dsimp only [List.length_cons]
              omega
          | ok s2 =>
            rw [hrec] at hc
            exact absurd hc (by simp)

theorem buildMap_no_fuel (G : Graph) (hwf : G.WF) (outputs : List Nat) :
    buildMap G outputs ≠ .error .fuel := by
  unfold buildMap
  refine visitList_no_fuel G _ (G.nodes.length + 1)
    (fun x sa sb hi hk => (buildMapVisit_ok G _ x sa sb hi hk).1)
    (fun x sa hi hk hb => buildMapVisit_no_fuel G hwf _ x sa hi hk hb)
    outputs _ (DFSInv_init G) (by simp) (by simp)

theorem visitList_error_shape
    (visit : Nat → DFSState → Except GraphError DFSState)
    (hv : ∀ t s e, visit t s = .error e → e = .fuel ∨ ∃ x nm, e = .cycle x nm) :
    ∀ ts s e, visitList visit ts s = .error e →
      e = .fuel ∨ ∃ x nm, e = .cycle x nm := by
  intro ts
  induction ts with
  | nil => intro s e hc; exact absurd hc (by simp [visitList])
  | cons t ts ih =>
    intro s e hc
    rw [visitList] at hc
    cases hv0 : visit t s with
    | error e' =>
      rw [hv0] at hc
      injection hc with hc
      subst hc
      exact hv t s e' hv0
    | ok smid =>
      rw [hv0] at hc
      exact ih smid e hc

/-- `_build_map_helper` only ever raises the cycle error (or runs out of the
artificial fuel). -/
theorem buildMapVisit_error_shape (G : Graph) :
    ∀ fuel t s e, buildMapVisit G fuel t s = .error e →
      e = .fuel ∨ ∃ x nm, e = .cycle x nm := by
  intro fuel
  induction fuel with
  | zero =>
    intro t s e hc
    rw [buildMapVisit] at hc
    injection hc with hc
    exact Or.inl hc.symm
  | succ fuel ih =>
    intro t s e hc
    rw [buildMapVisit] at hc
    cases hh : (G.tensor t).history with
    | none => rw [hh] at hc; exact absurd hc (by simp)
    | some oi =>
      obtain ⟨opId, nodeIndex⟩ := oi
      rw [hh] at hc
      dsimp only at hc
      by_cases hfin : (G.op opId).inbound_nodes.getD nodeIndex 0 ∈ s.finished
      · rw [if_pos hfin] at hc; exact absurd hc (by simp)
      · rw [if_neg hfin] at hc
        by_cases hipm : (G.op opId).inbound_nodes.getD nodeIndex 0 ∈ s.in_progress
        · rw [if_pos hipm] at hc
          injection hc with hc
          exact Or.inr ⟨t, (G.op opId).name, hc.symm⟩
        · rw [if_neg hipm] at hc
          cases hrec : visitList (fun x st => buildMapVisit G fuel x st)
              (if (G.node ((G.op opId).inbound_nodes.getD nodeIndex 0)).is_input then []
               else (G.node ((G.op opId).inbound_nodes.getD nodeIndex 0)).input_tensors)
              { s with
                operation_indices :=
                  if (alGet s.operation_indices opId).isSome then s.operation_indices
                  else s.operation_indices ++ [(opId, (s.operation_indices.length : Int))]
                in_progress := (G.op opId).inbound_nodes.getD nodeIndex 0 :: s.in_progress } with
          | error e' =>
            rw [hrec] at hc
            injection hc with hc
            subst hc
            exact visitList_error_shape _ (fun x sa eb hk => ih x sa eb hk) _ _ e' hrec
          | ok s2 =>
            rw [hrec] at hc
            exact absurd hc (by simp)

theorem buildMap_error_shape (G : Graph) (outputs : List Nat) (e : GraphError)
    (h : buildMap G outputs = .error e) : e = .fuel ∨ ∃ x nm, e = .cycle x nm :=
  visitList_error_shape _
    (fun x sa eb hk => buildMapVisit_error_shape G _ x sa eb hk) _ _ e h

/-! ## C4: cycle detection -/

theorem idx_lt_of_mem_pre {order pre post : List Nat} {n p : Nat}
    (hnodup : order.Nodup) (hsplit : order = pre ++ n :: post) (hp : p ∈ pre) :
    order.indexOf p < order.indexOf n := by
  subst hsplit
  rw [List.indexOf_append_of_mem hp]
  have hnpre : n ∉ pre := by
    rw [List.nodup_append] at hnodup
    exact fun hc => hnodup.2.2 hc (List.mem_cons_self _ _)
  rw [List.indexOf_append_of_not_mem hnpre, List.indexOf_cons_self]
  have := List.indexOf_lt_length.2 hp
  omega

theorem nodeDep_idx_lt {G : Graph} {order : List Nat}
    (hnodup : order.Nodup)
    (hdeps : ∀ pre n post, order = pre ++ n :: post →
      ∀ p ∈ parentNodes G (G.node n), p ∈ pre)
    {n p : Nat} (hn : n ∈ order) (hdep : NodeDep G n p) :
    p ∈ order ∧ order.indexOf p < order.indexOf n := by
  obtain ⟨s, t2, hsp⟩ := List.append_of_mem hn
  have hp := hdeps s n t2 hsp p hdep
  refine ⟨?_, idx_lt_of_mem_pre hnodup hsp hp⟩
  rw [hsp]
  exact List.mem_append.2 (Or.inl hp)

theorem transGen_idx_lt {G : Graph} {order : List Nat}
    (hnodup : order.Nodup)
    (hdeps : ∀ pre n post, order = pre ++ n :: post →
      ∀ p ∈ parentNodes G (G.node n), p ∈ pre) :
    ∀ {n p : Nat}, Relation.TransGen (NodeDep G) n p → n ∈ order →
      p ∈ order ∧ order.indexOf p < order.indexOf n := by
  intro n p h
  induction h with
  | single h => intro hn; exact nodeDep_idx_lt hnodup hdeps hn h
  | tail hab hbc ih =>
    intro hn
    obtain ⟨hb, hlt⟩ := ih hn
    obtain ⟨hc, hlt2⟩ := nodeDep_idx_lt hnodup hdeps hb hbc
    exact ⟨hc, lt_trans hlt2 hlt⟩

theorem reflTransGen_mem {G : Graph} {order : List Nat}
    (hdeps : ∀ pre n post, order = pre ++ n :: post →
      ∀ p ∈ parentNodes G (G.node n), p ∈ pre) :
    ∀ {a b : Nat}, Relation.ReflTransGen (NodeDep G) a b → a ∈ order →
      b ∈ order := by
  intro a b h
  induction h with
  | refl => exact id
  | tail hab hbc ih =>
    intro ha
    exact deps_closed hdeps (ih ha) hbc

/-- C4: whenever some output tensor transitively depends on itself (so the
backward traversal revisits an in-progress node), constructing the Function
fails with a cycle error naming a tensor and its operation, and no Function
value is produced. -/
theorem cycle_detection (G : Graph) (hwf : G.WF) (ins outs : List Nat)
    (hcyc : OutputSelfDependent G outs) :
    ∃ x nm, buildFunction G ins outs = .error (.cycle x nm) := by
  cases hb : buildMap G outs with
  | ok st =>
    exfalso
    obtain ⟨hinv, hip, hres⟩ := buildMap_ok G outs st hb
    obtain ⟨x, hx, r₀, r, hres0, hreach, hcyc2⟩ := hcyc
    have hr0 : r₀ ∈ st.order := (hinv.fin_iff r₀).1 (hres x hx r₀ hres0)
    have hr : r ∈ st.order := reflTransGen_mem hinv.deps_before hreach hr0
    obtain ⟨_, hlt⟩ := transGen_idx_lt hinv.order_nodup hinv.deps_before hcyc2 hr
    exact absurd hlt (lt_irrefl _)
  | error e =>
    rcases buildMap_error_shape G outs e hb with rfl | ⟨x, nm, rfl⟩
    · exact absurd hb (buildMap_no_fuel G hwf outs)
    · refine ⟨x, nm, ?_⟩
      unfold buildFunction map_graph
      rw [hb]
      rfl

/-! ## C7: the disconnection scan and unreached inputs -/

theorem mem_setAdd_self (l : List String) (s : String) : s ∈ setAdd l s := by
  unfold setAdd
  split
  · assumption
  · exact List.mem_append.2 (Or.inr (List.mem_singleton_self s))

theorem mem_setAdd_of_mem {l : List String} {x : String} (s : String)
    (h : x ∈ l) : x ∈ setAdd l s := by
  unfold setAdd
  split
  · exact h
  · exact List.mem_append.2 (Or.inl h)

/-- Once an unreached input operation is registered, later registration steps
preserve its node depth, node key and operation-depth entry. -/
theorem registerLoop_persist (G : Graph) (ins : List Nat) (hwfin : InputsWF G ins) :
    ∀ (sub : List Nat), (∀ x ∈ sub, x ∈ ins) → ∀ (dd : DepthData) (o r : Nat),
      (G.node r).operation = some o →
      alGet dd.nodes_depths r = some 0 →
      makeNodeKey (G.op o).name 0 ∈ dd.network_nodes →
      (alGet dd.operations_depths o).isSome →
      alGet (sub.foldl (regStep G) dd).nodes_depths r = some 0 ∧
        makeNodeKey (G.op o).name 0 ∈ (sub.foldl (regStep G) dd).network_nodes ∧
        (alGet (sub.foldl (regStep G) dd).operations_depths o).isSome := by
  intro sub
  induction sub with
  | nil => intro _ dd o r _ h1 h2 h3; exact ⟨h1, h2, h3⟩
  | cons t' sub ih =>
    intro hsub dd o r hro h1 h2 h3
    rw [List.foldl_cons]
    refine ih (fun x hx => hsub x (List.mem_cons_of_mem _ hx)) (regStep G dd t') o r hro
      ?_ ?_ ?_
    all_goals
      unfold regStep
      cases hh : (G.tensor t').history with
      | none => assumption
      | some oi =>
        obtain ⟨o2, i2⟩ := oi
        dsimp only
        by_cases hod : (alGet dd.operations_depths o2).isSome
        · rw [if_pos hod]; assumption
        · rw [if_neg hod]
          obtain ⟨hi0, r2, hinb2, hisin2, hit2, hout2, hop2, hrk2⟩ :=
            hwfin.spec (hsub t' (List.mem_cons_self _ _)) hh
          have ho2o : o2 ≠ o := by
            intro hc
            rw [hc] at hod
            exact hod h3
          have hr2 : (G.op o2).inbound_nodes.getD 0 0 = r2 := by rw [hinb2]; rfl
          have hr2r : r2 ≠ r := by
            intro hc
            rw [hc] at hop2
            rw [hop2] at hro
            exact ho2o (by injection hro)
          dsimp only
          first
          | (rw [hr2, alGet_update_ne _ _ _ (fun hc => hr2r hc.symm)]; assumption)
          | (exact mem_setAdd_of_mem _ (by assumption))
          | (rw [alGet_update_ne _ _ _ (fun hc => ho2o hc.symm)]; assumption)

/-- Each declared input whose operation has no recorded depth before the
registration pass ends up registered: node depth 0 for its input node, a
node key from the operation name, and an operation-depth entry. -/
theorem registerLoop_registers (G : Graph) (ins : List Nat) (hwfin : InputsWF G ins) :
    ∀ (sub : List Nat), (∀ x ∈ sub, x ∈ ins) → ∀ (dd : DepthData),
      ∀ t ∈ sub, ∀ o i, (G.tensor t).history = some (o, i) →
      (alGet dd.operations_depths o).isSome ∨
        (alGet (sub.foldl (regStep G) dd).nodes_depths
            ((G.op o).inbound_nodes.getD 0 0) = some 0 ∧
          makeNodeKey (G.op o).name 0 ∈ (sub.foldl (regStep G) dd).network_nodes ∧
          (alGet (sub.foldl (regStep G) dd).operations_depths o).isSome) := by
  intro sub
  induction sub with
  | nil => intro _ dd t ht; exact absurd ht (by simp)
  | cons t' sub ih =>
    intro hsub dd t ht o i hh
    rw [List.foldl_cons]
    by_cases hod : (alGet dd.operations_depths o).isSome
    · exact Or.inl hod
    · right
      obtain ⟨hi0, r, hinb, hisin, hit, hout, hop, hrk⟩ :=
        hwfin.spec (hsub t ht) hh
      have hr : (G.op o).inbound_nodes.getD 0 0 = r := by rw [hinb]; rfl
      rcases List.mem_cons.1 ht with rfl | htsub
      · -- the head input itself triggers the registration
        have hstep : regStep G dd t =
            { nodes_depths := alUpdate dd.nodes_depths ((G.op o).inbound_nodes.getD 0 0) 0
              operations_depths := alUpdate dd.operations_depths o 0
              operation_indices := alUpdate dd.operation_indices o (-1)
              network_nodes := setAdd dd.network_nodes (makeNodeKey (G.op o).name 0) } := by
          unfold regStep
          rw [hh]
          dsimp only
          rw [if_neg hod]
        rw [hstep, hr]
        refine registerLoop_persist G ins hwfin sub
          (fun x hx => hsub x (List.mem_cons_of_mem _ hx)) _ o r hop ?_ ?_ ?_
        · dsimp only
          exact alGet_update_self _ _ _
        · dsimp only
          exact mem_setAdd_self _ _
        · dsimp only
          rw [alGet_update_self]
          rfl
      · -- the input is handled later in the fold
        have := ih (fun x hx => hsub x (List.mem_cons_of_mem _ hx)) (regStep G dd t')
          t htsub o i hh
        rcases this with hod2 | hdone
        · -- the head step must itself have registered this operation
          unfold regStep at hod2
          cases hh2 : (G.tensor t').history with
          | none =>
            rw [hh2] at hod2
            exact absurd hod2 hod
          | some oi2 =>
            obtain ⟨o2, i2⟩ := oi2
            rw [hh2] at hod2
            dsimp only at hod2
            by_cases hod3 : (alGet dd.operations_depths o2).isSome
            · rw [if_pos hod3] at hod2
              exact absurd hod2 hod
            · rw [if_neg hod3] at hod2
              dsimp only at hod2
              have ho2 : o2 = o := by
                by_contra hne
                rw [alGet_update_ne _ _ _ (fun hc => hne hc.symm)] at hod2
                exact hod hod2
              rw [ho2] at hh2 hod3
              have hstep : regStep G dd t' =
                  { nodes_depths := alUpdate dd.nodes_depths ((G.op o).inbound_nodes.getD 0 0) 0
                    operations_depths := alUpdate dd.operations_depths o 0
                    operation_indices := alUpdate dd.operation_indices o (-1)
                    network_nodes := setAdd dd.network_nodes (makeNodeKey (G.op o).name 0) } := by
                unfold regStep
                rw [hh2]
                dsimp only
                rw [if_neg hod3]
              rw [hstep, hr]
              refine registerLoop_persist G ins hwfin sub
                (fun x hx => hsub x (List.mem_cons_of_mem _ hx)) _ o r hop ?_ ?_ ?_
              · dsimp only
                exact alGet_update_self _ _ _
              · dsimp only
                exact mem_setAdd_self _ _
              · dsimp only
                rw [alGet_update_self]
                rfl
        · exact hdone

/-- C7: `map_graph` raises the disconnected-graph error exactly when the
depth-bucket walk with a growing computable set (seeded with the declared
inputs) finds a node input tensor that is not computable; and declared
inputs never reached by the backward traversal cause no error and are
registered at depth 0 under their own node key, their input tensors all
being declared inputs. -/
theorem map_graph_disconnected_iff (G : Graph) (ins outs : List Nat)
    (hwfin : InputsWF G ins) (st : DFSState) (hb : buildMap G outs = .ok st) :
    (∀ x nm, map_graph G ins outs = .error (.disconnected x nm) ↔
      scanNodes G ins
        (orderedNodesOf (bucketize (nodesDepthsOf G ins st).nodes_depths)) =
        .error (.disconnected x nm)) ∧
    (∀ t ∈ ins, ∀ o i, (G.tensor t).history = some (o, i) →
      alGet (computeDepths G st.order).2 o = none →
      alGet (nodesDepthsOf G ins st).nodes_depths
          ((G.op o).inbound_nodes.getD 0 0) = some 0 ∧
        makeNodeKey (G.op o).name 0 ∈ (nodesDepthsOf G ins st).network_nodes ∧
        ∀ y ∈ (G.node ((G.op o).inbound_nodes.getD 0 0)).input_tensors, y ∈ ins) := by
  constructor
  · intro x nm
    unfold map_graph
    rw [hb]
    dsimp only
    split
    · next e heq =>
        rw [heq]
        constructor
        · intro hc
          injection hc with hc
          rw [hc]
        · intro hc
          injection hc with hc
          rw [hc]
    · next cs heq =>
        rw [heq]
        split
        · constructor
          · intro hc
            simp at hc
          · intro hc
            simp at hc
        · constructor
          · intro hc
            simp at hc
          · intro hc
            simp at hc
  · intro t ht o i hh hod
    obtain ⟨hi0, r, hinb, hisin, hit, hout, hop, hrk⟩ := hwfin.spec ht hh
    have hr : (G.op o).inbound_nodes.getD 0 0 = r := by rw [hinb]; rfl
    have hreg := registerLoop_registers G ins hwfin ins (fun _ hx => hx)
      { nodes_depths := (computeDepths G st.order).1
        operations_depths := (computeDepths G st.order).2
        operation_indices := st.operation_indices
        network_nodes := networkNodesOf G st.order } t ht o i hh
    rcases hreg with hpres | hdone
    · dsimp only at hpres
      rw [hod] at hpres
      exact absurd hpres (by simp)
    · unfold nodesDepthsOf registerUnreached
      refine ⟨hdone.1, hdone.2.1, ?_⟩
      intro y hy
      rw [hr, hit] at hy
      rw [List.mem_singleton] at hy
      exact hy ▸ ht

/-- Witness for C7 on the chain graph with an extra unreached input. -/
theorem map_graph_disconnected_iff_witness :
    InputsWF G7 [0, 2] ∧ buildMap G7 [1] = .ok chainDFS ∧
      ((∀ x nm, map_graph G7 [0, 2] [1] = .error (.disconnected x nm) ↔
        scanNodes G7 [0, 2]
          (orderedNodesOf (bucketize (nodesDepthsOf G7 [0, 2] chainDFS).nodes_depths)) =
          .error (.disconnected x nm)) ∧
      (∀ t ∈ [0, 2], ∀ o i, (G7.tensor t).history = some (o, i) →
        alGet (computeDepths G7 chainDFS.order).2 o = none →
        alGet (nodesDepthsOf G7 [0, 2] chainDFS).nodes_depths
            ((G7.op o).inbound_nodes.getD 0 0) = some 0 ∧
          makeNodeKey (G7.op o).name 0 ∈
            (nodesDepthsOf G7 [0, 2] chainDFS).network_nodes ∧
          ∀ y ∈ (G7.node ((G7.op o).inbound_nodes.getD 0 0)).input_tensors,
            y ∈ [0, 2])) :=
  ⟨by rfl, by rfl,
   map_graph_disconnected_iff G7 [0, 2] [1] (by rfl) chainDFS (by rfl)⟩

/-! ## C8: operation-name uniqueness -/

/-- C8: once the traversal and connectivity scan pass, two distinct
operations sharing a name (anywhere in the final operations list) make
`map_graph` raise the duplicate-name error; with pairwise distinct names no
error is raised and the analysis is returned. -/
theorem map_graph_duplicate_names (G : Graph) (ins outs : List Nat)
    (st : DFSState) (hb : buildMap G outs = .ok st) (cs : List Nat)
    (hscan : scanNodes G ins
      (orderedNodesOf (bucketize (nodesDepthsOf G ins st).nodes_depths)) = .ok cs) :
    (∀ o1 ∈ operationsOf (nodesDepthsOf G ins st),
      ∀ o2 ∈ operationsOf (nodesDepthsOf G ins st),
      o1 ≠ o2 → (G.op o1).name = (G.op o2).name →
      ∃ nm c, map_graph G ins outs = .error (.duplicateName nm c)) ∧
    (((operationsOf (nodesDepthsOf G ins st)).map (fun o => (G.op o).name)).Nodup →
      map_graph G ins outs = .ok
        { network_nodes := (nodesDepthsOf G ins st).network_nodes
          nodes_by_depth := bucketize (nodesDepthsOf G ins st).nodes_depths
          operations := operationsOf (nodesDepthsOf G ins st)
          operations_by_depth := operationsByDepthOf (nodesDepthsOf G ins st) }) := by
  constructor
  · intro o1 h1 o2 h2 hne hname
    have hnotnodup : ¬ ((operationsOf (nodesDepthsOf G ins st)).map
        (fun o => (G.op o).name)).Nodup := by
      intro hnd
      exact hne (List.inj_on_of_nodup_map hnd h1 h2 hname)
    cases hfind : ((operationsOf (nodesDepthsOf G ins st)).map
        (fun o => (G.op o).name)).find?
        (fun nm => ((operationsOf (nodesDepthsOf G ins st)).map
          (fun o => (G.op o).name)).count nm != 1) with
    | none =>
      exfalso
      apply hnotnodup
      rw [List.nodup_iff_count_eq_one]
      intro a ha
      have := List.find?_eq_none.1 hfind a ha
      simpa using this
    | some nm' =>
      refine ⟨nm', ((operationsOf (nodesDepthsOf G ins st)).map
        (fun o => (G.op o).name)).count nm', ?_⟩
      unfold map_graph
      rw [hb]
      dsimp only
      split
      · next e heq =>
        rw [hscan] at heq
        exact absurd heq (by simp)
      · next cs2 heq =>
        split
        · next nm2 hfind2 =>
          rw [hfind] at hfind2
          injection hfind2 with hfind2
          rw [hfind2]
        · next hfind2 =>
          rw [hfind] at hfind2
          exact absurd hfind2 (by simp)
  · intro hnd
    have hfind : ((operationsOf (nodesDepthsOf G ins st)).map
        (fun o => (G.op o).name)).find?
        (fun nm => ((operationsOf (nodesDepthsOf G ins st)).map
          (fun o => (G.op o).name)).count nm != 1) = none := by
      rw [List.find?_eq_none]
      intro a ha
      have := List.nodup_iff_count_eq_one.1 hnd a ha
      simp [this]
    unfold map_graph
    rw [hb]
    dsimp only
    split
    · next e heq =>
      rw [hscan] at heq
      exact absurd heq (by simp)
    · next cs2 heq =>
      split
      · next nm2 hfind2 =>
        rw [hfind] at hfind2
        exact absurd hfind2 (by simp)
      · rfl

/-- Witness for C8 on the chain graph (names pairwise distinct, and the
duplicate branch holds vacuously). -/
theorem map_graph_duplicate_names_witness :
    buildMap Gchain [1] = .ok chainDFS ∧
      scanNodes Gchain [0]
        (orderedNodesOf (bucketize (nodesDepthsOf Gchain [0] chainDFS).nodes_depths)) =
        .ok [0, 0, 1] ∧
      ((∀ o1 ∈ operationsOf (nodesDepthsOf Gchain [0] chainDFS),
        ∀ o2 ∈ operationsOf (nodesDepthsOf Gchain [0] chainDFS),
        o1 ≠ o2 → (Gchain.op o1).name = (Gchain.op o2).name →
        ∃ nm c, map_graph Gchain [0] [1] = .error (.duplicateName nm c)) ∧
      (((operationsOf (nodesDepthsOf Gchain [0] chainDFS)).map
          (fun o => (Gchain.op o).name)).Nodup →
        map_graph Gchain [0] [1] = .ok
          { network_nodes := (nodesDepthsOf Gchain [0] chainDFS).network_nodes
            nodes_by_depth := bucketize (nodesDepthsOf Gchain [0] chainDFS).nodes_depths
            operations := operationsOf (nodesDepthsOf Gchain [0] chainDFS)
            operations_by_depth :=
              operationsByDepthOf (nodesDepthsOf Gchain [0] chainDFS) })) :=
  ⟨by rfl, by rfl,
   map_graph_duplicate_names Gchain [0] [1] chainDFS (by rfl) [0, 0, 1] (by rfl)⟩

/-- Witness for C4: the two-operation cyclic graph. -/
theorem cycle_detection_witness :
    Gcycle.WF ∧ OutputSelfDependent Gcycle [1] ∧
      ∃ x nm, buildFunction Gcycle [] [1] = .error (.cycle x nm) := by
  have hwf : Gcycle.WF := by rfl
  have hcyc : OutputSelfDependent Gcycle [1] := by
    refine ⟨1, by decide, 1, 1, by rfl, Relation.ReflTransGen.refl, ?_⟩
    have h12 : NodeDep Gcycle 1 2 := by unfold NodeDep; decide
    have h21 : NodeDep Gcycle 2 1 := by unfold NodeDep; decide
    exact Relation.TransGen.head h12 (Relation.TransGen.single h21)
  exact ⟨hwf, hcyc, cycle_detection Gcycle hwf [] [1] hcyc⟩

/-! ## C5: recorded operation depths of shared operations -/

theorem alGet_append {β : Type} (l l' : List (Nat × β)) (k : Nat) :
    alGet (l ++ l') k =
      match alGet l k with
      | some v => some v
      | none => alGet l' k := by
  induction l with
  | nil => rfl
  | cons p l ih =>
    rw [List.cons_append, alGet_cons, alGet_cons, ih]
    by_cases h : p.1 = k <;> simp [h]

theorem alGet_map_snd {β γ : Type} (f : β → γ) :
    ∀ (l : List (Nat × β)) (k : Nat),
      alGet (l.map (fun p => (p.1, f p.2))) k = (alGet l k).map f := by
  intro l
  induction l with
  | nil => intro k; rfl
  | cons p l ih =>
    intro k
    rw [List.map_cons, alGet_cons, alGet_cons, ih]
    by_cases h : p.1 = k <;> simp [h]

theorem alKeys_map_snd {β γ : Type} (f : β → γ) (l : List (Nat × β)) :
    alKeys (l.map (fun p => (p.1, f p.2))) = alKeys l := by
  simp [alKeys, List.map_map, Function.comp]

/-- The operation-depth component written by one `depthStep`. -/
theorem depthStep_od_val (G : Graph) (nd od : List (Nat × Nat)) (m : Nat) :
    (depthStep G (nd, od) m).2 =
      alUpdate od ((G.node m).operation.getD 0)
        (max (alGetD nd m 0) (alGetD od ((G.node m).operation.getD 0) 0)) := rfl

/-- The exact node-depth entry of the processed node after one `depthStep`. -/
theorem depthStep_m_val (G : Graph) (nd od : List (Nat × Nat)) (m : Nat)
    (hmp : m ∉ parentNodes G (G.node m)) :
    alGet (depthStep G (nd, od) m).1 m =
      some (max (alGetD nd m 0) (alGetD od ((G.node m).operation.getD 0) 0)) := by
  unfold depthStep
  dsimp only
  rw [raise_fold_get_ne _ _ _ _ hmp, alGet_update_self]

theorem depthStep_od_keys_nodup (G : Graph) (nd od : List (Nat × Nat)) (m : Nat)
    (h : (alKeys od).Nodup) : (alKeys (depthStep G (nd, od) m).2).Nodup := by
  rw [depthStep_od_val]
  exact alKeys_nodup_update _ h

theorem computeDepths_od_nodup (G : Graph) (order : List Nat) :
    (alKeys (computeDepths G order).2).Nodup := by
  unfold computeDepths
  have hgen : ∀ (L : List Nat) (st : List (Nat × Nat) × List (Nat × Nat)),
      (alKeys st.2).Nodup → (alKeys (L.foldl (depthStep G) st).2).Nodup := by
    intro L
    induction L with
    | nil => intro st h; exact h
    | cons m L ih =>
      intro st h
      rw [List.foldl_cons]
      refine ih _ ?_
      obtain ⟨nd, od⟩ := st
      exact depthStep_od_keys_nodup G nd od m h
  refine hgen _ _ ?_
  simp [alKeys]

theorem regStep_od_nodup (G : Graph) (dd : DepthData) (t : Nat)
    (h : (alKeys dd.operations_depths).Nodup) :
    (alKeys (regStep G dd t).operations_depths).Nodup := by
  unfold regStep
  cases hh : (G.tensor t).history with
  | none => exact h
  | some oi =>
    obtain ⟨o, i⟩ := oi
    dsimp only
    by_cases hod : (alGet dd.operations_depths o).isSome
    · rw [if_pos hod]; exact h
    · rw [if_neg hod]
      exact alKeys_nodup_update _ h

theorem registerLoop_od_nodup (G : Graph) :
    ∀ (sub : List Nat) (dd : DepthData), (alKeys dd.operations_depths).Nodup →
    (alKeys (sub.foldl (regStep G) dd).operations_depths).Nodup := by
  intro sub
  induction sub with
  | nil => intro dd h; exact h
  | cons t sub ih =>
    intro dd h
    rw [List.foldl_cons]
    exact ih _ (regStep_od_nodup G dd t h)

theorem nodesDepthsOf_od_nodup (G : Graph) (ins : List Nat) (st : DFSState) :
    (alKeys (nodesDepthsOf G ins st).operations_depths).Nodup := by
  unfold nodesDepthsOf registerUnreached
  exact registerLoop_od_nodup G ins _ (computeDepths_od_nodup G st.order)

/-- Fold induction for `bucketize`: the bucket relation is preserved by one
appended entry with a fresh key. -/
theorem bucketize_go :
    ∀ (suf front : List (Nat × Nat)) (acc : List (Nat × List Nat)),
      (alKeys (front ++ suf)).Nodup → BucketInv front acc →
      BucketInv (front ++ suf) (bucketizeFrom acc suf) := by
  intro suf
  induction suf with
  | nil =>
    intro front acc _ h
    simpa [bucketizeFrom] using h
  | cons e suf ih =>
    intro front acc hnd hInv
    obtain ⟨hiff, hbnd, hknd⟩ := hInv
    obtain ⟨n, dn⟩ := e
    have hkeys : alKeys (front ++ (n, dn) :: suf) =
        alKeys front ++ n :: alKeys suf := by
      simp [alKeys]
    have hnd2 : (alKeys front ++ n :: alKeys suf).Nodup := by
      rw [← hkeys]; exact hnd
    have hnfront : n ∉ alKeys front := fun hc =>
      (List.nodup_append.1 hnd2).2.2 hc (List.mem_cons_self _ _)
    have hgfn : alGet front n = none := by
      cases hg : alGet front n with
      | none => rfl
      | some w =>
        exact absurd (mem_alKeys_iff.2 (by rw [hg]; rfl)) hnfront
    have happ : ∀ k, alGet (front ++ [(n, dn)]) k =
        if alGet front k = none then (if n = k then some dn else none)
        else alGet front k := by
      intro k
      rw [alGet_append, alGet_cons]
      cases hg : alGet front k with
      | none => simp [alGet]
      | some w => simp
    have hInv' : BucketInv (front ++ [(n, dn)])
        (alUpdate acc dn (alGetD acc dn [] ++ [n])) := by
      refine ⟨?_, ?_, ?_⟩
      · intro k d
        by_cases hd : d = dn
        · subst hd
          have hbkt : alGetD (alUpdate acc d (alGetD acc d [] ++ [n])) d [] =
              alGetD acc d [] ++ [n] := by
            unfold alGetD
            rw [alGet_update_self]
            rfl
          rw [hbkt, happ k]
          by_cases hk : n = k
          · subst hk
            simp [hgfn]
          · have hnotk : k ∈ alGetD acc d [] ++ [n] ↔ k ∈ alGetD acc d [] := by
              rw [List.mem_append, List.mem_singleton]
              constructor
              · intro h
                rcases h with h | h
                · exact h
                · exact absurd h.symm hk
              · exact Or.inl
            rw [hnotk, hiff k d]
            cases hg : alGet front k with
            | none => simp [hk]
            | some w => simp
        · have hbkt : alGetD (alUpdate acc dn (alGetD acc dn [] ++ [n])) d [] =
              alGetD acc d [] := by
            unfold alGetD
            rw [alGet_update_ne _ _ _ hd]
          rw [hbkt, happ k, hiff k d]
          by_cases hk : n = k
          · subst hk
            simp [hgfn]
            exact fun hc => hd hc.symm
          · cases hg : alGet front k with
            | none => simp [hk]
            | some w => simp
      · intro d
        by_cases hd : d = dn
        · subst hd
          have hbkt : alGetD (alUpdate acc d (alGetD acc d [] ++ [n])) d [] =
              alGetD acc d [] ++ [n] := by
            unfold alGetD
            rw [alGet_update_self]
            rfl
          rw [hbkt]
          refine nodup_append_singleton (hbnd d) ?_
          intro hc
          rw [hiff n d, hgfn] at hc
          exact Option.noConfusion hc
        · have hbkt : alGetD (alUpdate acc dn (alGetD acc dn [] ++ [n])) d [] =
              alGetD acc d [] := by
            unfold alGetD
            rw [alGet_update_ne _ _ _ hd]
          rw [hbkt]
          exact hbnd d
      · exact alKeys_nodup_update _ hknd
    have hnd3 : (alKeys ((front ++ [(n, dn)]) ++ suf)).Nodup := by
      rw [List.append_assoc, List.singleton_append]
      exact hnd
    have hstep := ih (front ++ [(n, dn)])
      (alUpdate acc dn (alGetD acc dn [] ++ [n])) hnd3 hInv'
    rw [List.append_assoc, List.singleton_append] at hstep
    exact hstep

/-- Specification of `bucketize` on a duplicate-free dict: bucket membership
is exactly the recorded value, and buckets and keys are duplicate-free. -/
theorem bucketize_spec (entries : List (Nat × Nat))
    (hnd : (alKeys entries).Nodup) : BucketInv entries (bucketize entries) := by
  have h0 : BucketInv [] ([] : List (Nat × List Nat)) := by
    refine ⟨?_, ?_, ?_⟩
    · intro k d
      constructor
      · intro h
        exact absurd h (by simp [alGetD, alGet])
      · intro h
        exact absurd h (by simp [alGet])
    · intro d
      simp [alGetD, alGet]
    · simp [alKeys]
  have hmain := bucketize_go entries [] [] (by simpa using hnd) h0
  rw [List.nil_append] at hmain
  exact hmain

/-- The bucket of `operations_by_depth` at a depth is the sorted bucket of
the raw `bucketize`. -/
theorem operationsByDepthOf_bucket (dd : DepthData) (d : Nat) :
    alGetD (operationsByDepthOf dd) d [] =
      sortOpsByIdx dd.operation_indices
        (alGetD (bucketize dd.operations_depths) d []) := by
  unfold operationsByDepthOf alGetD
  rw [alGet_map_snd]
  cases h : alGet (bucketize dd.operations_depths) d with
  | none => rfl
  | some b => rfl

/-- With duplicate-free operation-depth keys, the flat `operations` list has
no repeats. -/
theorem operationsOf_nodup (dd : DepthData)
    (hnd : (alKeys dd.operations_depths).Nodup) : (operationsOf dd).Nodup := by
  obtain ⟨hiff, hbnd, hknd⟩ := bucketize_spec dd.operations_depths hnd
  have hkeys : alKeys (operationsByDepthOf dd) =
      alKeys (bucketize dd.operations_depths) := by
    unfold operationsByDepthOf
    exact alKeys_map_snd _ _
  have hbuck_mem : ∀ k d, k ∈ alGetD (operationsByDepthOf dd) d [] →
      alGet dd.operations_depths k = some d := by
    intro k d hk
    rw [operationsByDepthOf_bucket] at hk
    unfold sortOpsByIdx at hk
    exact (hiff k d).1 ((List.perm_insertionSort _ _).mem_iff.1 hk)
  have hbuck_nd : ∀ d, (alGetD (operationsByDepthOf dd) d []).Nodup := by
    intro d
    rw [operationsByDepthOf_bucket]
    unfold sortOpsByIdx
    rw [(List.perm_insertionSort _ _).nodup_iff]
    exact hbnd d
  have hksnd : (sortKeysDesc (alKeys (operationsByDepthOf dd))).Nodup := by
    unfold sortKeysDesc
    rw [(List.perm_insertionSort _ _).nodup_iff, hkeys]
    exact hknd
  have hmain : ∀ (ks : List Nat), ks.Nodup →
      (ks.flatMap (fun d => alGetD (operationsByDepthOf dd) d [])).Nodup := by
    intro ks
    induction ks with
    | nil => intro _; simp
    | cons d ks ih =>
      intro hnd'
      have hstep : (d :: ks).flatMap (fun d => alGetD (operationsByDepthOf dd) d []) =
          alGetD (operationsByDepthOf dd) d [] ++
            ks.flatMap (fun d => alGetD (operationsByDepthOf dd) d []) := rfl
      rw [hstep, List.nodup_append]
      refine ⟨hbuck_nd d, ih (List.nodup_cons.1 hnd').2, ?_⟩
      intro x hx hx'
      rw [List.mem_flatMap] at hx'
      obtain ⟨d', hd', hx'⟩ := hx'
      have h1 := hbuck_mem x d hx
      have h2 := hbuck_mem x d' hx'
      rw [h1] at h2
      injection h2 with h2
      subst h2
      exact (List.nodup_cons.1 hnd').1 hd'
  exact hmain _ hksnd

/-- Induction over the depth-assignment loop for the recorded operation
depths: each entry is the maximum of the recorded node depths over the
processed nodes of its operation, attained by one of them. -/
theorem opDepthLoop_go (G : Graph) (order : List Nat)
    (hnodup : order.Nodup)
    (hdeps : ∀ pre n post, order = pre ++ n :: post →
      ∀ p ∈ parentNodes G (G.node n), p ∈ pre) :
    ∀ (Q P : List Nat) (nd od : List (Nat × Nat)),
      order.reverse = P ++ Q → OpDepthMax G P nd od →
      OpDepthMax G (P ++ Q) (Q.foldl (depthStep G) (nd, od)).1
        (Q.foldl (depthStep G) (nd, od)).2 := by
  intro Q
  induction Q with
  | nil =>
    intro P nd od _ hInv
    simpa using hInv
  | cons m Q' ih =>
    intro P nd od hsplit hInv
    obtain ⟨hO, hM⟩ := hInv
    have hrevnodup : (P ++ m :: Q').Nodup := by
      rw [← hsplit]
      exact List.nodup_reverse.2 hnodup
    have hdisj := (List.nodup_append.1 hrevnodup).2.2
    have hmP : m ∉ P := fun hc => hdisj hc (List.mem_cons_self _ _)
    have hPQ : ∀ a ∈ P, a ∉ Q' := fun a ha hc => hdisj ha (List.mem_cons_of_mem _ hc)
    have hmQ : m ∉ Q' :=
      (List.nodup_cons.1 (List.nodup_append.1 hrevnodup).2.1).1
    have horder : order = Q'.reverse ++ m :: P.reverse := by
      have : order = (P ++ m :: Q').reverse := by
        rw [← hsplit, List.reverse_reverse]
      rw [this, List.reverse_append, List.reverse_cons, List.append_assoc,
        List.singleton_append]
    have hparents : ∀ p ∈ parentNodes G (G.node m), p ∈ Q'.reverse :=
      hdeps Q'.reverse m P.reverse horder
    have hparP : ∀ p ∈ parentNodes G (G.node m), p ∉ P := by
      intro p hp hc
      exact hPQ p hc (List.mem_reverse.1 (hparents p hp))
    have hmm : m ∉ parentNodes G (G.node m) := fun hc =>
      hmQ (List.mem_reverse.1 (hparents m hc))
    have hInv' : OpDepthMax G (P ++ [m]) (depthStep G (nd, od) m).1
        (depthStep G (nd, od) m).2 := by
      constructor
      · intro n hn
        rcases List.mem_append.1 hn with hn | hn
        · exact depthStep_od_mem G nd od m _ (hO n hn)
        · rw [List.mem_singleton] at hn
          subst hn
          exact depthStep_od_self G nd od n
      · intro o v hov
        rw [depthStep_od_val, alGet_update] at hov
        by_cases ho : o = (G.node m).operation.getD 0
        · rw [if_pos ho] at hov
          injection hov with hv
          constructor
          · refine ⟨m, List.mem_append.2 (Or.inr (List.mem_singleton_self _)),
              ?_, ho.symm⟩
            rw [depthStep_m_val G nd od m hmm, hv]
          · intro n hn dn hdn hop
            rcases List.mem_append.1 hn with hn | hn
            · have hnm : n ≠ m := fun hc => hmP (hc ▸ hn)
              have hnpar : n ∉ parentNodes G (G.node m) := fun hc => hparP n hc hn
              rw [depthStep_untouched G nd od m n hnm hnpar] at hdn
              have hK : o ∈ alKeys od := hop ▸ hO n hn
              obtain ⟨w, hw⟩ := Option.isSome_iff_exists.1 (mem_alKeys_iff.1 hK)
              have hbound := (hM o w hw).2 n hn dn hdn hop
              have hwd : alGetD od ((G.node m).operation.getD 0) 0 = w := by
                rw [alGetD, ← ho, hw]
                rfl
              have hle : dn ≤ alGetD od ((G.node m).operation.getD 0) 0 := by
                rw [hwd]
                exact hbound
              rw [← hv]
              exact le_trans hle (le_max_right _ _)
            · rw [List.mem_singleton] at hn
              subst hn
              rw [depthStep_m_val G nd od n hmm] at hdn
              injection hdn with hdn
              rw [← hv, ← hdn]
        · rw [if_neg ho] at hov
          constructor
          · obtain ⟨n, hn, hnd, hop⟩ := (hM o v hov).1
            have hnm : n ≠ m := fun hc => hmP (hc ▸ hn)
            have hnpar : n ∉ parentNodes G (G.node m) := fun hc => hparP n hc hn
            refine ⟨n, List.mem_append.2 (Or.inl hn), ?_, hop⟩
            rw [depthStep_untouched G nd od m n hnm hnpar]
            exact hnd
          · intro n hn dn hdn hop
            rcases List.mem_append.1 hn with hn | hn
            · have hnm : n ≠ m := fun hc => hmP (hc ▸ hn)
              have hnpar : n ∉ parentNodes G (G.node m) := fun hc => hparP n hc hn
              rw [depthStep_untouched G nd od m n hnm hnpar] at hdn
              exact (hM o v hov).2 n hn dn hdn hop
            · rw [List.mem_singleton] at hn
              subst hn
              exact absurd hop.symm ho
    have hsplit' : order.reverse = (P ++ [m]) ++ Q' := by
      rw [hsplit, List.append_assoc, List.singleton_append]
    have hrest := ih (P ++ [m]) (depthStep G (nd, od) m).1
      (depthStep G (nd, od) m).2 hsplit' hInv'
    rw [List.append_assoc, List.singleton_append] at hrest
    simpa using hrest

/-- The operation-depth maximum property after the whole loop. -/
theorem computeDepths_opmax (G : Graph) (st : DFSState) (hinv : DFSInv G st) :
    OpDepthMax G st.order.reverse (computeDepths G st.order).1
      (computeDepths G st.order).2 := by
  unfold computeDepths
  have h0 : OpDepthMax G [] ([] : List (Nat × Nat)) ([] : List (Nat × Nat)) := by
    constructor
    · intro n hn
      simp at hn
    · intro o v hov
      exact absurd hov (by simp [alGet])
  have hmain := opDepthLoop_go G st.order hinv.order_nodup hinv.deps_before
    st.order.reverse [] [] [] (by simp) h0
  simpa using hmain

/-- One unreached-input registration step preserves the key correspondence
between recorded node depths and recorded operation depths. -/
theorem regStep_keycorr (G : Graph) (ins : List Nat) (hwfin : InputsWF G ins)
    (t : Nat) (ht : t ∈ ins) (dd : DepthData)
    (h2 : ∀ k ∈ alKeys dd.nodes_depths,
      ((G.node k).operation.getD 0) ∈ alKeys dd.operations_depths) :
    ∀ k ∈ alKeys (regStep G dd t).nodes_depths,
      ((G.node k).operation.getD 0) ∈ alKeys (regStep G dd t).operations_depths := by
  unfold regStep
  cases hh : (G.tensor t).history with
  | none => exact h2
  | some oi =>
    obtain ⟨o, i⟩ := oi
    dsimp only
    by_cases hod : (alGet dd.operations_depths o).isSome
    · rw [if_pos hod]; exact h2
    · rw [if_neg hod]
      obtain ⟨hi0, r, hinb, hisin, hit, hout, hop, hrk⟩ := hwfin.spec ht hh
      have hr : (G.op o).inbound_nodes.getD 0 0 = r := by rw [hinb]; rfl
      intro k hk
      dsimp only at hk ⊢
      rw [hr] at hk
      rcases mem_alKeys_update.1 hk with hk | rfl
      · exact mem_alKeys_update.2 (Or.inl (h2 k hk))
      · rw [hop]
        exact mem_alKeys_update.2 (Or.inr rfl)

/-- One unreached-input registration step preserves the operation-depth
maximum property: the fresh operation is registered at depth 0, attained by
its root node, which is also registered at node-depth 0. -/
theorem regStep_opmax (G : Graph) (ins : List Nat) (hwfin : InputsWF G ins)
    (t : Nat) (ht : t ∈ ins) (dd : DepthData)
    (h2 : ∀ k ∈ alKeys dd.nodes_depths,
      ((G.node k).operation.getD 0) ∈ alKeys dd.operations_depths)
    (hM : OpDepthMaxAll G dd) : OpDepthMaxAll G (regStep G dd t) := by
  unfold regStep
  cases hh : (G.tensor t).history with
  | none => exact hM
  | some oi =>
    obtain ⟨o', i⟩ := oi
    dsimp only
    by_cases hod : (alGet dd.operations_depths o').isSome
    · rw [if_pos hod]; exact hM
    · rw [if_neg hod]
      obtain ⟨hi0, r, hinb, hisin, hit, hout, hop, hrk⟩ := hwfin.spec ht hh
      have hr : (G.op o').inbound_nodes.getD 0 0 = r := by rw [hinb]; rfl
      have hrnotin : r ∉ alKeys dd.nodes_depths := by
        intro hc
        have hmem := h2 r hc
        rw [hop] at hmem
        dsimp only [Option.getD] at hmem
        rw [mem_alKeys_iff] at hmem
        exact hod hmem
      intro o v hov
      dsimp only at hov ⊢
      rw [hr]
      rw [alGet_update] at hov
      by_cases hoo : o = o'
      · rw [if_pos hoo] at hov
        injection hov with hv
        constructor
        · refine ⟨r, ?_, ?_⟩
          · rw [alGet_update_self, hv]
          · rw [hop, hoo]
            rfl
        · intro n dn hdn hopn
          by_cases hnr : n = r
          · subst hnr
            rw [alGet_update_self] at hdn
            injection hdn with hdn
            rw [← hv, ← hdn]
          · rw [alGet_update_ne _ _ _ hnr] at hdn
            exfalso
            have hkn : n ∈ alKeys dd.nodes_depths := by
              rw [mem_alKeys_iff, hdn]
              rfl
            have hmem := h2 n hkn
            rw [hopn, hoo] at hmem
            rw [mem_alKeys_iff] at hmem
            exact hod hmem
      · rw [if_neg hoo] at hov
        obtain ⟨n, hn, hopn⟩ := (hM o v hov).1
        constructor
        · have hnr : n ≠ r := by
            intro hc
            subst hc
            exact hrnotin (mem_alKeys_iff.2 (by rw [hn]; rfl))
          refine ⟨n, ?_, hopn⟩
          rw [alGet_update_ne _ _ _ hnr]
          exact hn
        · intro n' dn hdn hopn'
          by_cases hnr : n' = r
          · subst hnr
            exfalso
            rw [hop] at hopn'
            exact hoo hopn'.symm
          · rw [alGet_update_ne _ _ _ hnr] at hdn
            exact (hM o v hov).2 n' dn hdn hopn'

/-- The whole unreached-input registration preserves the operation-depth
maximum property. -/
theorem registerLoop_opmax (G : Graph) (ins : List Nat) (hwfin : InputsWF G ins) :
    ∀ (sub : List Nat), (∀ t ∈ sub, t ∈ ins) → ∀ (dd : DepthData),
    (∀ k ∈ alKeys dd.nodes_depths,
      ((G.node k).operation.getD 0) ∈ alKeys dd.operations_depths) →
    OpDepthMaxAll G dd → OpDepthMaxAll G (sub.foldl (regStep G) dd) := by
  intro sub
  induction sub with
  | nil => intro _ dd _ h; exact h
  | cons t sub ih =>
    intro hsub dd h2 hM
    rw [List.foldl_cons]
    exact ih (fun x hx => hsub x (List.mem_cons_of_mem _ hx)) (regStep G dd t)
      (regStep_keycorr G ins hwfin t (hsub t (List.mem_cons_self _ _)) dd h2)
      (regStep_opmax G ins hwfin t (hsub t (List.mem_cons_self _ _)) dd h2 hM)

/-- The operation-depth maximum property of the final analysis data. -/
theorem nodesDepthsOf_opmax (G : Graph) (ins : List Nat) (st : DFSState)
    (hwfin : InputsWF G ins) (hinv : DFSInv G st) :
    OpDepthMaxAll G (nodesDepthsOf G ins st) := by
  obtain ⟨hA, hB, hC⟩ := computeDepths_inv G st hinv
  obtain ⟨hO, hM⟩ := computeDepths_opmax G st hinv
  have hmem : ∀ k, k ∈ alKeys (computeDepths G st.order).1 →
      k ∈ st.order.reverse := by
    intro k hk
    rcases hB k hk with hk | ⟨m, hm, hpm⟩
    · exact hk
    · rw [List.mem_reverse] at hm ⊢
      exact deps_closed hinv.deps_before hm hpm
  have h2 : ∀ k ∈ alKeys (computeDepths G st.order).1,
      ((G.node k).operation.getD 0) ∈ alKeys (computeDepths G st.order).2 :=
    fun k hk => hC k (hmem k hk)
  have hall : OpDepthMaxAll G
      { nodes_depths := (computeDepths G st.order).1
        operations_depths := (computeDepths G st.order).2
        operation_indices := st.operation_indices
        network_nodes := networkNodesOf G st.order } := by
    intro o v hov
    dsimp only at hov ⊢
    constructor
    · obtain ⟨n, _, hn, hop⟩ := (hM o v hov).1
      exact ⟨n, hn, hop⟩
    · intro n dn hdn hop
      have hk : n ∈ alKeys (computeDepths G st.order).1 := by
        rw [mem_alKeys_iff, hdn]
        rfl
      exact (hM o v hov).2 n (hmem n hk) dn hdn hop
  unfold nodesDepthsOf registerUnreached
  exact registerLoop_opmax G ins hwfin ins (fun _ ht => ht) _ h2 hall

/-- An accepted `map_graph` run determines its result: the record built from
the analysis data of the DFS state. -/
theorem map_graph_ok_elim (G : Graph) (ins outs : List Nat) (res : MapResult)
    (hok : map_graph G ins outs = .ok res) :
    ∃ st, buildMap G outs = .ok st ∧
      res = { network_nodes := (nodesDepthsOf G ins st).network_nodes
              nodes_by_depth := bucketize (nodesDepthsOf G ins st).nodes_depths
              operations := operationsOf (nodesDepthsOf G ins st)
              operations_by_depth := operationsByDepthOf (nodesDepthsOf G ins st) } := by
  unfold map_graph at hok
  cases hb : buildMap G outs with
  | error e =>
    rw [hb] at hok
    exact Except.noConfusion hok
  | ok st =>
    rw [hb] at hok
    dsimp only at hok
    refine ⟨st, rfl, ?_⟩
    split at hok
    · exact Except.noConfusion hok
    · split at hok
      · exact Except.noConfusion hok
      · injection hok with h
        exact h.symm

/-- C5 (amended): for every graph accepted by `map_graph`, every operation
in the returned flat `operations` list occurs exactly once there, and each
recorded operation depth is the maximum of the *recorded* node depths over
the nodes of that operation (attained by one of them) — not, in general,
the maximum of the nodes' true graph-depths. -/
theorem map_graph_shared_op_depth (G : Graph) (ins outs : List Nat)
    (hwfin : InputsWF G ins) (res : MapResult)
    (hok : map_graph G ins outs = .ok res)
    (st : DFSState) (hst : buildMap G outs = .ok st) :
    (∀ o ∈ res.operations, res.operations.count o = 1) ∧
    OpDepthMaxAll G (nodesDepthsOf G ins st) := by
  obtain ⟨st', hst', hres⟩ := map_graph_ok_elim G ins outs res hok
  rw [hst] at hst'
  injection hst' with hsteq
  subst hsteq
  have hnd := nodesDepthsOf_od_nodup G ins st
  have hopsnd := operationsOf_nodup _ hnd
  constructor
  · intro o ho
    rw [hres] at ho ⊢
    dsimp only at ho ⊢
    exact List.count_eq_one_of_mem hopsnd ho
  · exact nodesDepthsOf_opmax G ins st hwfin (buildMap_ok G outs st hst).1

/-- Witness for the amended C5 on the shared-operation graph `G5`. -/
theorem map_graph_shared_op_depth_witness :
    InputsWF G5 [0, 1, 2] ∧ map_graph G5 [0, 1, 2] [11, 9, 6] = .ok G5res ∧
      buildMap G5 [11, 9, 6] = .ok G5dfs ∧
      ((∀ o ∈ G5res.operations, G5res.operations.count o = 1) ∧
        OpDepthMaxAll G5 (nodesDepthsOf G5 [0, 1, 2] G5dfs)) :=
  ⟨by rfl, by rfl, by rfl,
   map_graph_shared_op_depth G5 [0, 1, 2] [11, 9, 6] (by rfl) G5res (by rfl)
     G5dfs (by rfl)⟩

/-- C5, counterexample to the claim as stated: `map_graph` accepts `G5`, in
which the operation `7` ("O") is shared between nodes `9` and `8` whose true
graph-depths are 1 and 2, yet the recorded operation depth is 3, not
`max 1 2 = 2`: the recorded depth is dragged up by the shared-operation
maximum rule interacting with the longer parallel chain. -/
theorem shared_op_depth_counterexample :
    (map_graph G5 [0, 1, 2] [11, 9, 6]).toOption.isSome = true ∧
    (buildMap G5 [11, 9, 6]).map (fun st =>
      ((G5.op 7).inbound_nodes,
        alGet (trueNodeDepths G5 st.order) 9,
        alGet (trueNodeDepths G5 st.order) 8,
        alGet (nodesDepthsOf G5 [0, 1, 2] st).operations_depths 7)) =
      .ok ([8, 9], some 1, some 2, some 3) ∧
    (3 : Nat) ≠ max 1 2 :=
  ⟨by rfl, by rfl, by decide⟩

/-! ## C1: the replay engine computes the topological evaluation -/

section WriteFold

variable {V : Type}

/-- The output-recording fold leaves keys outside the written pairs
unchanged. -/
theorem writeFold_untouched (L : List (Nat × V)) :
    ∀ (d : List (Nat × V)) (x : Nat), x ∉ L.map (·.1) →
      alGet (L.foldl (fun d p => alUpdate d p.1 p.2) d) x = alGet d x := by
  induction L with
  | nil => intro d x _; rfl
  | cons p L ih =>
    intro d x hx
    rw [List.map_cons, List.mem_cons] at hx
    push_neg at hx
    rw [List.foldl_cons, ih _ x hx.2, alGet_update_ne _ _ _ hx.1]

/-- Every written key holds a value after the fold. -/
theorem writeFold_some (L : List (Nat × V)) :
    ∀ (d : List (Nat × V)) (x : Nat), x ∈ L.map (·.1) →
      (alGet (L.foldl (fun d p => alUpdate d p.1 p.2) d) x).isSome = true := by
  induction L with
  | nil => intro d x hx; exact absurd hx (by simp)
  | cons p L ih =>
    intro d x hx
    rw [List.foldl_cons]
    by_cases hxL : x ∈ L.map (·.1)
    · exact ih _ x hxL
    · have hxp : x = p.1 := by
        rw [List.map_cons, List.mem_cons] at hx
        rcases hx with hx | hx
        · exact hx
        · exact absurd hx hxL
      rw [writeFold_untouched L _ x hxL, hxp, alGet_update_self]
      rfl

/-- The value of a written key does not depend on the starting dict. -/
theorem writeFold_indep (L : List (Nat × V)) :
    ∀ (d1 d2 : List (Nat × V)) (x : Nat), x ∈ L.map (·.1) →
      alGet (L.foldl (fun d p => alUpdate d p.1 p.2) d1) x =
      alGet (L.foldl (fun d p => alUpdate d p.1 p.2) d2) x := by
  induction L with
  | nil => intro d1 d2 x hx; exact absurd hx (by simp)
  | cons p L ih =>
    intro d1 d2 x hx
    rw [List.foldl_cons, List.foldl_cons]
    by_cases hxL : x ∈ L.map (·.1)
    · exact ih _ _ x hxL
    · have hxp : x = p.1 := by
        rw [List.map_cons, List.mem_cons] at hx
        rcases hx with hx | hx
        · exact hx
        · exact absurd hx hxL
      rw [writeFold_untouched L _ x hxL, writeFold_untouched L _ x hxL, hxp,
        alGet_update_self, alGet_update_self]

/-- The fold respects pointwise dict equality. -/
theorem writeFold_congr (L : List (Nat × V)) :
    ∀ (d1 d2 : List (Nat × V)), DictEq d1 d2 →
      DictEq (L.foldl (fun d p => alUpdate d p.1 p.2) d1)
        (L.foldl (fun d p => alUpdate d p.1 p.2) d2) := by
  induction L with
  | nil => intro d1 d2 h; exact h
  | cons p L ih =>
    intro d1 d2 h
    rw [List.foldl_cons, List.foldl_cons]
    refine ih _ _ ?_
    intro y
    rw [alGet_update, alGet_update, h y]

/-- The fold never erases a value. -/
theorem writeFold_isSome_mono (L : List (Nat × V)) :
    ∀ (d : List (Nat × V)) (x : Nat), (alGet d x).isSome = true →
      (alGet (L.foldl (fun d p => alUpdate d p.1 p.2) d) x).isSome = true := by
  induction L with
  | nil => intro d x h; exact h
  | cons p L ih =>
    intro d x h
    rw [List.foldl_cons]
    refine ih _ x ?_
    rw [alGet_update]
    by_cases hxp : x = p.1
    · rw [if_pos hxp]; rfl
    · rw [if_neg hxp]; exact h

/-- If every written pair is consistent with `f`, the fold preserves the
invariant that every stored value is `f` of its key. -/
theorem writeFold_inv (f : Nat → V) (L : List (Nat × V)) :
    ∀ (d : List (Nat × V)), (∀ p ∈ L, p.2 = f p.1) →
      (∀ x v, alGet d x = some v → v = f x) →
      ∀ x v, alGet (L.foldl (fun d p => alUpdate d p.1 p.2) d) x = some v →
        v = f x := by
  induction L with
  | nil => intro d _ hInv; exact hInv
  | cons p L ih =>
    intro d hL hInv
    rw [List.foldl_cons]
    refine ih _ (fun q hq => hL q (List.mem_cons_of_mem _ hq)) ?_
    intro x v hx
    rw [alGet_update] at hx
    by_cases hxp : x = p.1
    · rw [if_pos hxp] at hx
      injection hx with hx
      rw [← hx, hL p (List.mem_cons_self _ _), hxp]
    · rw [if_neg hxp] at hx
      exact hInv x v hx

end WriteFold

section ApplyNode

variable {V : Type}

theorem filterMap_alGet_congr (l : List Nat) (d1 d2 : List (Nat × V))
    (h : ∀ x ∈ l, alGet d1 x = alGet d2 x) :
    l.filterMap (fun x => alGet d1 x) = l.filterMap (fun x => alGet d2 x) := by
  induction l with
  | nil => rfl
  | cons x l ih =>
    rw [List.filterMap_cons, List.filterMap_cons,
      h x (List.mem_cons_self _ _),
      ih (fun y hy => h y (List.mem_cons_of_mem _ hy))]

theorem zip_fst_mem {α β : Type} {l1 : List α} {l2 : List β} {x : α}
    (h : x ∈ (l1.zip l2).map (·.1)) : x ∈ l1 := by
  rw [List.mem_map] at h
  obtain ⟨p, hp, hx⟩ := h
  rw [← hx]
  exact (List.of_mem_zip hp).1

/-- `topoEvalDict` is the fold of the unconditional node evaluation. -/
theorem topoEvalDict_foldl (G : Graph) (opApply : Nat → List V → List V)
    (σ : List Nat) (d0 : List (Nat × V)) :
    topoEvalDict G opApply σ d0 = σ.foldl (applyNode G opApply) d0 := rfl

/-- Unfolding of `applyNode`, with the arguments read from any dict that
agrees with the evaluation dict on the node's input tensors. -/
theorem applyNode_args_eq (G : Graph) (A : Nat → List V → List V)
    (d1 d2 : List (Nat × V)) (n : Nat)
    (h : ∀ x ∈ (G.node n).input_tensors, alGet d1 x = alGet d2 x) :
    applyNode G A d1 n = ((G.node n).outputs.zip (A ((G.node n).operation.getD 0)
      ((G.node n).input_tensors.filterMap (fun x => alGet d2 x)))).foldl
      (fun d p => alUpdate d p.1 p.2) d1 := by
  unfold applyNode
  dsimp only
  rw [filterMap_alGet_congr _ _ _ h]

theorem applyNode_congr (G : Graph) (A : Nat → List V → List V)
    (d1 d2 : List (Nat × V)) (n : Nat) (h : DictEq d1 d2) :
    DictEq (applyNode G A d1 n) (applyNode G A d2 n) := by
  unfold applyNode
  dsimp only
  rw [filterMap_alGet_congr _ d1 d2 (fun x _ => h x)]
  exact writeFold_congr _ _ _ h

theorem applyNode_untouched (G : Graph) (A : Nat → List V → List V)
    (d : List (Nat × V)) (n : Nat) (x : Nat) (hx : x ∉ (G.node n).outputs) :
    alGet (applyNode G A d n) x = alGet d x := by
  unfold applyNode
  dsimp only
  refine writeFold_untouched _ _ _ ?_
  intro hc
  exact hx (zip_fst_mem hc)

theorem applyNode_isSome_mono (G : Graph) (A : Nat → List V → List V)
    (d : List (Nat × V)) (n : Nat) (x : Nat)
    (h : (alGet d x).isSome = true) :
    (alGet (applyNode G A d n) x).isSome = true := by
  unfold applyNode
  dsimp only
  exact writeFold_isSome_mono _ _ _ h

theorem foldl_applyNode_congr (G : Graph) (A : Nat → List V → List V) :
    ∀ (L : List Nat) (d1 d2 : List (Nat × V)), DictEq d1 d2 →
      DictEq (L.foldl (applyNode G A) d1) (L.foldl (applyNode G A) d2) := by
  intro L
  induction L with
  | nil => intro d1 d2 h; exact h
  | cons n L ih =>
    intro d1 d2 h
    rw [List.foldl_cons, List.foldl_cons]
    exact ih _ _ (applyNode_congr G A d1 d2 n h)

/-- Two node evaluations commute when neither reads or writes what the
other writes. -/
theorem applyNode_swap (G : Graph) (A : Nat → List V → List V)
    (d : List (Nat × V)) (a c : Nat)
    (hra : ∀ x ∈ (G.node a).input_tensors, x ∉ (G.node c).outputs)
    (hrc : ∀ x ∈ (G.node c).input_tensors, x ∉ (G.node a).outputs)
    (hw : ∀ x ∈ (G.node a).outputs, x ∉ (G.node c).outputs) :
    DictEq (applyNode G A (applyNode G A d c) a)
      (applyNode G A (applyNode G A d a) c) := by
  have hLA := applyNode_args_eq G A d d a (fun _ _ => rfl)
  have hLC := applyNode_args_eq G A d d c (fun _ _ => rfl)
  have e1 : applyNode G A (applyNode G A d c) a =
      ((G.node a).outputs.zip (A ((G.node a).operation.getD 0)
        ((G.node a).input_tensors.filterMap (fun x => alGet d x)))).foldl
        (fun d p => alUpdate d p.1 p.2) (applyNode G A d c) := by
    refine applyNode_args_eq G A _ d a ?_
    intro x hx
    exact applyNode_untouched G A d c x (hra x hx)
  have e2 : applyNode G A (applyNode G A d a) c =
      ((G.node c).outputs.zip (A ((G.node c).operation.getD 0)
        ((G.node c).input_tensors.filterMap (fun x => alGet d x)))).foldl
      (fun d p => alUpdate d p.1 p.2) (applyNode G A d a) := by
    refine applyNode_args_eq G A _ d c ?_
    intro x hx
    exact applyNode_untouched G A d a x (hrc x hx)
  intro x
  rw [e1, e2, hLA, hLC]
  by_cases hxa : x ∈ ((G.node a).outputs.zip (A ((G.node a).operation.getD 0)
      ((G.node a).input_tensors.filterMap (fun x => alGet d x)))).map (·.1)
  · have hxc : x ∉ ((G.node c).outputs.zip (A ((G.node c).operation.getD 0)
        ((G.node c).input_tensors.filterMap (fun x => alGet d x)))).map (·.1) := by
      intro hc
      exact hw x (zip_fst_mem hxa) (zip_fst_mem hc)
    rw [writeFold_untouched _ _ _ hxc]
    exact writeFold_indep _ _ _ _ hxa
  · by_cases hxc : x ∈ ((G.node c).outputs.zip (A ((G.node c).operation.getD 0)
        ((G.node c).input_tensors.filterMap (fun x => alGet d x)))).map (·.1)
    · rw [writeFold_untouched _ _ _ hxa]
      exact (writeFold_indep _ _ _ _ hxc).symm
    · rw [writeFold_untouched _ _ _ hxa, writeFold_untouched _ _ _ hxc,
        writeFold_untouched _ _ _ hxc, writeFold_untouched _ _ _ hxa]

end ApplyNode

theorem append_decomp_right {α : Type} {A rest pre post : List α} {n : α}
    (h : A ++ rest = pre ++ n :: post) (hn : n ∉ A) :
    ∃ pre', pre = A ++ pre' ∧ rest = pre' ++ n :: post := by
  rcases List.append_eq_append_iff.1 h with ⟨w, hw1, hw2⟩ | ⟨w, hw1, hw2⟩
  · exact ⟨w, hw1, hw2⟩
  · cases w with
    | nil =>
      refine ⟨[], by simpa using hw1.symm, ?_⟩
      rw [List.nil_append] at hw2 ⊢
      exact hw2.symm
    | cons y w' =>
      injection hw2 with hy hrest
      exfalso
      apply hn
      rw [hw1, ← hy]
      exact List.mem_append.2 (Or.inr (List.mem_cons_self _ _))

/-- Removing one element from a dependency-respecting enumeration keeps the
property for the remaining members. -/
theorem TopoOk.drop_mid {G : Graph} {B1 B2 : List Nat} {a : Nat}
    (h : TopoOk G (B1 ++ a :: B2)) (hnd : (B1 ++ a :: B2).Nodup) :
    TopoOk G (B1 ++ B2) := by
  intro pre n post hdecomp p hp hpL
  have haB : a ∉ B1 ++ B2 := by
    intro hc
    rcases List.mem_append.1 hc with hc | hc
    · exact (List.nodup_append.1 hnd).2.2 hc (List.mem_cons_self _ _)
    · exact (List.nodup_cons.1 (List.nodup_append.1 hnd).2.1).1 hc
  have hmem : p ∈ B1 ++ a :: B2 := by
    rcases List.mem_append.1 hpL with h' | h'
    · exact List.mem_append.2 (Or.inl h')
    · exact List.mem_append.2 (Or.inr (List.mem_cons_of_mem _ h'))
  rcases List.append_eq_append_iff.1 hdecomp with ⟨w, hw1, hw2⟩ | ⟨w, hw1, hw2⟩
  · -- pre = B1 ++ w, B2 = w ++ n :: post
    have hdec2 : B1 ++ a :: B2 = (B1 ++ a :: w) ++ n :: post := by
      rw [hw2]
      simp
    have hres := h (B1 ++ a :: w) n post hdec2 p hp hmem
    rw [hw1]
    rcases List.mem_append.1 hres with h' | h'
    · exact List.mem_append.2 (Or.inl h')
    · rcases List.mem_cons.1 h' with h' | h'
      · exact absurd (h' ▸ hpL) haB
      · exact List.mem_append.2 (Or.inr h')
  · cases w with
    | nil =>
      rw [List.append_nil] at hw1
      rw [List.nil_append] at hw2
      have hdec2 : B1 ++ a :: B2 = (pre ++ [a]) ++ n :: post := by
        rw [hw1, ← hw2]
        simp
      have hres := h (pre ++ [a]) n post hdec2 p hp hmem
      rcases List.mem_append.1 hres with h' | h'
      · exact h'
      · rw [List.mem_singleton] at h'
        exact absurd (h' ▸ hpL) haB
    | cons y w' =>
      injection hw2 with hy hpost
      have hdec2 : B1 ++ a :: B2 = pre ++ n :: (w' ++ a :: B2) := by
        rw [hw1, ← hy]
        simp
      exact h pre n (w' ++ a :: B2) hdec2 p hp hmem

section Confluence

variable {V : Type}

/-- A node evaluation commutes with the fold over a list of nodes it does
not interact with. -/
theorem applyNode_comm_fold (G : Graph) (A : Nat → List V → List V) (a : Nat) :
    ∀ (B1 : List Nat) (d : List (Nat × V)),
      (∀ c ∈ B1,
        (∀ x ∈ (G.node a).input_tensors, x ∉ (G.node c).outputs) ∧
        (∀ x ∈ (G.node c).input_tensors, x ∉ (G.node a).outputs) ∧
        (∀ x ∈ (G.node a).outputs, x ∉ (G.node c).outputs)) →
      DictEq (applyNode G A (B1.foldl (applyNode G A) d) a)
        (B1.foldl (applyNode G A) (applyNode G A d a)) := by
  intro B1
  induction B1 with
  | nil =>
    intro d _ x
    rfl
  | cons c B1 ih =>
    intro d hc
    rw [List.foldl_cons, List.foldl_cons]
    have h1 := ih (applyNode G A d c)
      (fun c' h' => hc c' (List.mem_cons_of_mem _ h'))
    obtain ⟨hra, hrc, hw⟩ := hc c (List.mem_cons_self _ _)
    have h2 := applyNode_swap G A d a c hra hrc hw
    have h3 := foldl_applyNode_congr G A B1 _ _ h2
    intro x
    rw [h1 x, h3 x]

/-- Confluence of the unconditional evaluation: two duplicate-free,
dependency-respecting enumerations of the same node set with pairwise
disjoint outputs and producer-exact reads fold to pointwise equal dicts. -/
theorem topoFold_confluence (G : Graph) (A : Nat → List V → List V) :
    ∀ (L1 L2 : List Nat) (d : List (Nat × V)),
      L1.Nodup → L2.Nodup → (∀ n, n ∈ L1 ↔ n ∈ L2) →
      TopoOk G L1 → TopoOk G L2 →
      (∀ u ∈ L1, ∀ v ∈ L1, u ≠ v → ∀ x ∈ (G.node u).outputs,
        x ∉ (G.node v).outputs) →
      (∀ u ∈ L1, ∀ x ∈ (G.node u).input_tensors, ∀ v ∈ L1,
        x ∈ (G.node v).outputs → v ∈ parentNodes G (G.node u)) →
      DictEq (L1.foldl (applyNode G A) d) (L2.foldl (applyNode G A) d) := by
  intro L1
  induction L1 with
  | nil =>
    intro L2 d _ _ hiff _ _ _ _
    have hL2 : L2 = [] := by
      cases hc : L2 with
      | nil => rfl
      | cons b L2' =>
        exact absurd ((hiff b).2 (hc ▸ List.mem_cons_self _ _))
          (List.not_mem_nil b)
    rw [hL2]
    intro x
    rfl
  | cons a L1' ih =>
    intro L2 d hnd1 hnd2 hiff htopo1 htopo2 hdisj hpar
    have haL2 : a ∈ L2 := (hiff a).1 (List.mem_cons_self _ _)
    obtain ⟨B1, B2, rfl⟩ := List.append_of_mem haL2
    have haB1 : a ∉ B1 := fun hc =>
      (List.nodup_append.1 hnd2).2.2 hc (List.mem_cons_self _ _)
    have haB2 : a ∉ B2 :=
      (List.nodup_cons.1 (List.nodup_append.1 hnd2).2.1).1
    have haL1' : a ∉ L1' := (List.nodup_cons.1 hnd1).1
    have hB1L1 : ∀ c ∈ B1, c ∈ a :: L1' :=
      fun c hc => (hiff c).2 (List.mem_append.2 (Or.inl hc))
    have hcond : ∀ c ∈ B1,
        (∀ x ∈ (G.node a).input_tensors, x ∉ (G.node c).outputs) ∧
        (∀ x ∈ (G.node c).input_tensors, x ∉ (G.node a).outputs) ∧
        (∀ x ∈ (G.node a).outputs, x ∉ (G.node c).outputs) := by
      intro c hcB1
      have hcL1 : c ∈ a :: L1' := hB1L1 c hcB1
      have hca : c ≠ a := by
        intro hceq
        rw [hceq] at hcB1
        exact haB1 hcB1
      refine ⟨?_, ?_, ?_⟩
      · intro x hx hxc
        have hcpar : c ∈ parentNodes G (G.node a) :=
          hpar a (List.mem_cons_self _ _) x hx c hcL1 hxc
        have hres := htopo1 [] a L1' rfl c hcpar hcL1
        simp at hres
      · intro x hx hxa
        have hapar : a ∈ parentNodes G (G.node c) :=
          hpar c hcL1 x hx a (List.mem_cons_self _ _) hxa
        obtain ⟨C1, C2, hC⟩ := List.append_of_mem hcB1
        have hdec : B1 ++ a :: B2 = C1 ++ c :: (C2 ++ a :: B2) := by
          rw [hC]
          simp
        have haC1 := htopo2 C1 c (C2 ++ a :: B2) hdec a hapar
          (List.mem_append.2 (Or.inr (List.mem_cons_self _ _)))
        apply haB1
        rw [hC]
        exact List.mem_append.2 (Or.inl haC1)
      · intro x hxa hxc
        exact hdisj a (List.mem_cons_self _ _) c hcL1
          (fun h => hca h.symm) x hxa hxc
    have hcomm := applyNode_comm_fold G A a B1 d hcond
    have hstep := foldl_applyNode_congr G A B2 _ _ hcomm
    have hL2eq : DictEq ((B1 ++ a :: B2).foldl (applyNode G A) d)
        ((B1 ++ B2).foldl (applyNode G A) (applyNode G A d a)) := by
      intro x
      rw [List.foldl_append, List.foldl_cons, hstep x, List.foldl_append]
    have hndB : (B1 ++ B2).Nodup := by
      rw [List.nodup_append]
      refine ⟨(List.nodup_append.1 hnd2).1,
        (List.nodup_cons.1 (List.nodup_append.1 hnd2).2.1).2, ?_⟩
      intro y hy hy'
      exact (List.nodup_append.1 hnd2).2.2 hy (List.mem_cons_of_mem _ hy')
    have hiff' : ∀ n, n ∈ L1' ↔ n ∈ B1 ++ B2 := by
      intro n
      constructor
      · intro hn
        have hnL2 := (hiff n).1 (List.mem_cons_of_mem _ hn)
        rcases List.mem_append.1 hnL2 with h' | h'
        · exact List.mem_append.2 (Or.inl h')
        · rcases List.mem_cons.1 h' with h' | h'
          · exact absurd (h' ▸ hn) haL1'
          · exact List.mem_append.2 (Or.inr h')
      · intro hn
        have hnL2 : n ∈ B1 ++ a :: B2 := by
          rcases List.mem_append.1 hn with h' | h'
          · exact List.mem_append.2 (Or.inl h')
          · exact List.mem_append.2 (Or.inr (List.mem_cons_of_mem _ h'))
        rcases List.mem_cons.1 ((hiff n).2 hnL2) with h' | h'
        · exfalso
          rw [h'] at hn
          rcases List.mem_append.1 hn with h'' | h''
          · exact haB1 h''
          · exact haB2 h''
        · exact h'
    have htopo1' : TopoOk G L1' := by
      intro pre n post hdec p hp hpL
      have hres := htopo1 (a :: pre) n post (by rw [hdec]; rfl) p hp
        (List.mem_cons_of_mem _ hpL)
      rcases List.mem_cons.1 hres with h' | h'
      · exact absurd (h' ▸ hpL) haL1'
      · exact h'
    have htopo2' : TopoOk G (B1 ++ B2) := TopoOk.drop_mid htopo2 hnd2
    have hdisj' : ∀ u ∈ L1', ∀ v ∈ L1', u ≠ v → ∀ x ∈ (G.node u).outputs,
        x ∉ (G.node v).outputs :=
      fun u hu v hv => hdisj u (List.mem_cons_of_mem _ hu) v
        (List.mem_cons_of_mem _ hv)
    have hpar' : ∀ u ∈ L1', ∀ x ∈ (G.node u).input_tensors, ∀ v ∈ L1',
        x ∈ (G.node v).outputs → v ∈ parentNodes G (G.node u) :=
      fun u hu x hx v hv => hpar u (List.mem_cons_of_mem _ hu) x hx v
        (List.mem_cons_of_mem _ hv)
    have ihinst := ih (B1 ++ B2) (applyNode G A d a)
      (List.nodup_cons.1 hnd1).2 hndB hiff' htopo1' htopo2' hdisj' hpar'
    intro x
    rw [List.foldl_cons, ihinst x, ← hL2eq x]

end Confluence

section RunFold

variable {V : Type}

/-- When the node has an operation, is not an input node and all its input
values are present, `runStep` performs the unconditional evaluation. -/
theorem runStep_eq_applyNode (G : Graph) (A : Nat → List V → List V)
    (dict : List (Nat × V)) (n : Nat)
    (hop : (G.node n).operation.isSome = true)
    (hin : (G.node n).is_input = false)
    (havail : ∀ x ∈ (G.node n).input_tensors, (alGet dict x).isSome = true) :
    runStep G A dict n = applyNode G A dict n := by
  have h1 : ((G.node n).operation.isNone || (G.node n).is_input) = false := by
    cases hc : (G.node n).operation with
    | none =>
      rw [hc] at hop
      exact absurd hop (by simp)
    | some o =>
      rw [hin]
      rfl
  have h2 : ((G.node n).input_tensors.any (fun x => (alGet dict x).isNone)) = false := by
    rw [List.any_eq_false]
    intro x hx
    have hs := havail x hx
    cases hc : alGet dict x with
    | none =>
      rw [hc] at hs
      exact absurd hs (by simp)
    | some v => simp
  unfold runStep applyNode
  dsimp only
  rw [if_neg (by rw [h1]; exact Bool.false_ne_true), if_neg (by rw [h2]; exact Bool.false_ne_true)]

/-- A decomposition of a filtered list lifts to a decomposition of the
original list. -/
theorem filter_decomp {α : Type} (q : α → Bool) :
    ∀ (l pre' : List α) (n : α) (post' : List α),
      l.filter q = pre' ++ n :: post' →
      ∃ pre post, l = pre ++ n :: post ∧ pre.filter q = pre' ∧
        post.filter q = post' := by
  intro l
  induction l with
  | nil =>
    intro pre' n post' h
    rw [List.filter_nil] at h
    cases pre' <;> simp at h
  | cons a l ih =>
    intro pre' n post' h
    by_cases hq : q a = true
    · rw [List.filter_cons_of_pos hq] at h
      cases pre' with
      | nil =>
        rw [List.nil_append] at h
        injection h with h1 h2
        refine ⟨[], l, by rw [h1, List.nil_append], by simp, ?_⟩
        rw [← h2]
      | cons b pre'' =>
        injection h with h1 h2
        obtain ⟨pre, post, hl, hpre, hpost⟩ := ih pre'' n post' h2
        refine ⟨a :: pre, post, by rw [hl, List.cons_append], ?_, hpost⟩
        rw [List.filter_cons_of_pos hq, hpre, h1]
    · rw [List.filter_cons_of_neg hq] at h
      obtain ⟨pre, post, hl, hpre, hpost⟩ := ih pre' n post' h
      refine ⟨a :: pre, post, by rw [hl, List.cons_append], ?_, hpost⟩
      rw [List.filter_cons_of_neg hq, hpre]

/-- A successful connectivity scan makes every node input computable at the
node's turn: it is a declared input or an output of an earlier node. -/
theorem scan_ok_elim (G : Graph) :
    ∀ (order computable cs : List Nat),
      scanNodes G computable order = .ok cs →
      ∀ pre n post, order = pre ++ n :: post →
        ∀ x ∈ (G.node n).input_tensors,
          x ∈ computable ∨ ∃ m ∈ pre, x ∈ (G.node m).outputs := by
  intro order
  induction order with
  | nil =>
    intro computable cs _ pre n post hdec
    cases pre <;> simp at hdec
  | cons k rest ih =>
    intro computable cs hscan pre n post hdec
    unfold scanNodes at hscan
    dsimp only at hscan
    cases hf : (G.node k).input_tensors.find? (fun x => !(computable.contains x)) with
    | some y =>
      rw [hf] at hscan
      exact Except.noConfusion hscan
    | none =>
      rw [hf] at hscan
      have hall : ∀ x ∈ (G.node k).input_tensors, x ∈ computable := by
        intro x hx
        have hb := List.find?_eq_none.1 hf x hx
        cases hcc : computable.contains x with
        | false =>
          exfalso
          apply hb
          rw [hcc]
          rfl
        | true => exact contains_iff_mem.1 hcc
      cases pre with
      | nil =>
        rw [List.nil_append] at hdec
        injection hdec with h1 h2
        subst h1
        intro x hx
        exact Or.inl (hall x hx)
      | cons k' pre' =>
        injection hdec with h1 h2
        subst h1
        intro x hx
        rcases ih _ cs hscan pre' n post h2 x hx with hx' | ⟨m, hm, hmx⟩
        · rcases List.mem_append.1 hx' with h' | h'
          · exact Or.inl h'
          · exact Or.inr ⟨k, List.mem_cons_self _ _, h'⟩
        · exact Or.inr ⟨m, List.mem_cons_of_mem _ hm, hmx⟩

/-- Strengthened availability: the computable witness can always be chosen
to be a declared input or a *non-input* earlier node, because an input
node's output placeholder is its own input. -/
theorem scan_avail (G : Graph) (hwfp : WFProps G) (ins order cs : List Nat)
    (hscan : scanNodes G ins order = .ok cs)
    (hmem : ∀ n ∈ order, n ∈ alKeys G.nodes) :
    ∀ pre n post, order = pre ++ n :: post →
      ∀ x ∈ (G.node n).input_tensors,
        x ∈ ins ∨ ∃ m ∈ pre, (G.node m).is_input = false ∧
          x ∈ (G.node m).outputs := by
  suffices h : ∀ (k : Nat) (pre : List Nat) (n : Nat) (post : List Nat),
      pre.length ≤ k → order = pre ++ n :: post →
      ∀ x ∈ (G.node n).input_tensors,
        x ∈ ins ∨ ∃ m ∈ pre, (G.node m).is_input = false ∧
          x ∈ (G.node m).outputs by
    intro pre n post hdec x hx
    exact h pre.length pre n post (le_refl _) hdec x hx
  intro k
  induction k with
  | zero =>
    intro pre n post hlen hdec x hx
    have hpre : pre = [] := List.length_eq_zero.1 (Nat.le_zero.1 hlen)
    subst hpre
    rcases scan_ok_elim G order ins cs hscan [] n post hdec x hx with h | ⟨m, hm, _⟩
    · exact Or.inl h
    · simp at hm
  | succ k ihk =>
    intro pre n post hlen hdec x hx
    rcases scan_ok_elim G order ins cs hscan pre n post hdec x hx with h | ⟨m, hm, hmx⟩
    · exact Or.inl h
    · by_cases him : (G.node m).is_input = true
      · obtain ⟨P1, P2, hP⟩ := List.append_of_mem hm
        have hdec2 : order = P1 ++ m :: (P2 ++ n :: post) := by
          rw [hdec, hP]
          simp
        have hmo : m ∈ order := by
          rw [hdec]
          exact List.mem_append.2 (Or.inl hm)
        have hiteq := hwfp.input_tensors_eq (m, G.node m)
          (node_pair_mem (hmem m hmo)) him
        have hxin : x ∈ (G.node m).input_tensors := by
          rw [hiteq]
          exact hmx
        have hlenP1 : P1.length ≤ k := by
          have hlt : P1.length < pre.length := by
            rw [hP, List.length_append, List.length_cons]
            omega
          omega
        rcases ihk P1 m (P2 ++ n :: post) hlenP1 hdec2 x hxin with h' | ⟨m', hm', hmm'⟩
        · exact Or.inl h'
        · refine Or.inr ⟨m', ?_, hmm'⟩
          rw [hP]
          exact List.mem_append.2 (Or.inl hm')
      · exact Or.inr ⟨m, hm, Bool.eq_false_iff.2 him, hmx⟩

/-- The guarded replay fold equals the unconditional fold over the
non-input nodes, given availability, operations present and arity-correct
operation functions. -/
theorem runFold_filter (G : Graph) (A : Nat → List V → List V) (ins : List Nat) :
    ∀ (L Lpre : List Nat) (dict : List (Nat × V)),
      (∀ pre n post, Lpre ++ L = pre ++ n :: post → (G.node n).is_input = false →
        ∀ x ∈ (G.node n).input_tensors, x ∈ ins ∨
          ∃ m ∈ pre, (G.node m).is_input = false ∧ x ∈ (G.node m).outputs) →
      (∀ n ∈ L, (G.node n).operation.isSome = true) →
      (∀ n ∈ L, (G.node n).is_input = false →
        ∀ args, (A ((G.node n).operation.getD 0) args).length =
          (G.node n).outputs.length) →
      (∀ x ∈ ins, (alGet dict x).isSome = true) →
      (∀ m ∈ Lpre, (G.node m).is_input = false →
        ∀ x ∈ (G.node m).outputs, (alGet dict x).isSome = true) →
      L.foldl (runStep G A) dict =
        (L.filter (fun n => !(G.node n).is_input)).foldl (applyNode G A) dict := by
  intro L
  induction L with
  | nil => intro Lpre dict _ _ _ _ _; rfl
  | cons n L ih =>
    intro Lpre dict havail hop harity hins houts
    rw [List.foldl_cons]
    by_cases hin : (G.node n).is_input = true
    · have hc : ((G.node n).operation.isNone || (G.node n).is_input) = true := by
        rw [hin]
        simp
      have hstep : runStep G A dict n = dict := by
        unfold runStep
        dsimp only
        rw [if_pos hc]
      rw [hstep]
      have hfil : (n :: L).filter (fun n => !(G.node n).is_input) =
          L.filter (fun n => !(G.node n).is_input) := by
        refine List.filter_cons_of_neg ?_
        rw [hin]
        simp
      rw [hfil]
      refine ih (Lpre ++ [n]) dict ?_ (fun m hm => hop m (List.mem_cons_of_mem _ hm))
        (fun m hm => harity m (List.mem_cons_of_mem _ hm)) hins ?_
      · intro pre n' post hdec
        rw [List.append_assoc, List.singleton_append] at hdec
        exact havail pre n' post hdec
      · intro m hm hmin x hx
        rcases List.mem_append.1 hm with hm | hm
        · exact houts m hm hmin x hx
        · rw [List.mem_singleton] at hm
          subst hm
          rw [hmin] at hin
          exact absurd hin (by simp)
    · have hinf : (G.node n).is_input = false := Bool.eq_false_iff.2 hin
      have havail_n : ∀ x ∈ (G.node n).input_tensors, (alGet dict x).isSome = true := by
        intro x hx
        rcases havail Lpre n L rfl hinf x hx with hxi | ⟨m, hm, hmin, hmx⟩
        · exact hins x hxi
        · exact houts m hm hmin x hmx
      rw [runStep_eq_applyNode G A dict n (hop n (List.mem_cons_self _ _)) hinf havail_n]
      have hfil : (n :: L).filter (fun n => !(G.node n).is_input) =
          n :: L.filter (fun n => !(G.node n).is_input) := by
        refine List.filter_cons_of_pos ?_
        rw [hinf]
        rfl
      rw [hfil, List.foldl_cons]
      have hwrites : ∀ x ∈ (G.node n).outputs,
          (alGet (applyNode G A dict n) x).isSome = true := by
        intro x hx
        unfold applyNode
        dsimp only
        refine writeFold_some _ _ _ ?_
        show x ∈ ((G.node n).outputs.zip _).map Prod.fst
        rw [List.map_fst_zip]
        · exact hx
        · rw [harity n (List.mem_cons_self _ _) hinf _]
      refine ih (Lpre ++ [n]) (applyNode G A dict n) ?_
        (fun m hm => hop m (List.mem_cons_of_mem _ hm))
        (fun m hm => harity m (List.mem_cons_of_mem _ hm)) ?_ ?_
      · intro pre n' post hdec
        rw [List.append_assoc, List.singleton_append] at hdec
        exact havail pre n' post hdec
      · intro x hxi
        exact applyNode_isSome_mono G A dict n x (hins x hxi)
      · intro m hm hmin x hx
        rcases List.mem_append.1 hm with hm | hm
        · exact applyNode_isSome_mono G A dict n x (houts m hm hmin x hx)
        · rw [List.mem_singleton] at hm
          subst hm
          exact hwrites x hx

end RunFold

theorem raise_fold_keys_nodup (L : List Nat) (d : Nat) :
    ∀ (nd : List (Nat × Nat)), (alKeys nd).Nodup →
      (alKeys (L.foldl (fun nd p => alUpdate nd p (max (d + 1) (alGetD nd p 0))) nd)).Nodup := by
  induction L with
  | nil => intro nd h; exact h
  | cons p L ih =>
    intro nd h
    rw [List.foldl_cons]
    exact ih _ (alKeys_nodup_update _ h)

theorem depthStep_nd_keys_nodup (G : Graph) (nd od : List (Nat × Nat)) (m : Nat)
    (h : (alKeys nd).Nodup) : (alKeys (depthStep G (nd, od) m).1).Nodup := by
  unfold depthStep
  dsimp only
  exact raise_fold_keys_nodup _ _ _
    (alKeys_nodup_update _ (alKeys_nodup_setdefault _ h))

theorem computeDepths_nd_nodup (G : Graph) (order : List Nat) :
    (alKeys (computeDepths G order).1).Nodup := by
  unfold computeDepths
  have hgen : ∀ (L : List Nat) (st : List (Nat × Nat) × List (Nat × Nat)),
      (alKeys st.1).Nodup → (alKeys (L.foldl (depthStep G) st).1).Nodup := by
    intro L
    induction L with
    | nil => intro st h; exact h
    | cons m L ih =>
      intro st h
      rw [List.foldl_cons]
      refine ih _ ?_
      obtain ⟨nd, od⟩ := st
      exact depthStep_nd_keys_nodup G nd od m h
  refine hgen _ _ ?_
  simp [alKeys]

theorem regStep_nd_nodup (G : Graph) (dd : DepthData) (t : Nat)
    (h : (alKeys dd.nodes_depths).Nodup) :
    (alKeys (regStep G dd t).nodes_depths).Nodup := by
  unfold regStep
  cases hh : (G.tensor t).history with
  | none => exact h
  | some oi =>
    obtain ⟨o, i⟩ := oi
    dsimp only
    by_cases hod : (alGet dd.operations_depths o).isSome
    · rw [if_pos hod]; exact h
    · rw [if_neg hod]
      exact alKeys_nodup_update _ h

theorem nodesDepthsOf_nd_nodup (G : Graph) (ins : List Nat) (st : DFSState) :
    (alKeys (nodesDepthsOf G ins st).nodes_depths).Nodup := by
  unfold nodesDepthsOf registerUnreached
  have hgen : ∀ (sub : List Nat) (dd : DepthData), (alKeys dd.nodes_depths).Nodup →
      (alKeys (sub.foldl (regStep G) dd).nodes_depths).Nodup := by
    intro sub
    induction sub with
    | nil => intro dd h; exact h
    | cons t sub ih =>
      intro dd h
      rw [List.foldl_cons]
      exact ih _ (regStep_nd_nodup G dd t h)
  exact hgen ins _ (computeDepths_nd_nodup G st.order)

/-- Membership in the depth-ordered node walk is membership in the depth
dict. -/
theorem orderedNodesOf_mem (entries : List (Nat × Nat))
    (hnd : (alKeys entries).Nodup) (k : Nat) :
    k ∈ orderedNodesOf (bucketize entries) ↔ k ∈ alKeys entries := by
  obtain ⟨hiff, hbnd, hknd⟩ := bucketize_spec entries hnd
  unfold orderedNodesOf
  constructor
  · intro h
    rw [List.mem_flatMap] at h
    obtain ⟨d, _, hk⟩ := h
    rw [mem_alKeys_iff, (hiff k d).1 hk]
    rfl
  · intro h
    obtain ⟨d, hd⟩ := Option.isSome_iff_exists.1 (mem_alKeys_iff.1 h)
    have hk : k ∈ alGetD (bucketize entries) d [] := (hiff k d).2 hd
    have hdk : d ∈ alKeys (bucketize entries) := by
      rw [mem_alKeys_iff]
      cases hb : alGet (bucketize entries) d with
      | none =>
        exfalso
        unfold alGetD at hk
        rw [hb] at hk
        simp at hk
      | some b => rfl
    rw [List.mem_flatMap]
    refine ⟨d, ?_, hk⟩
    unfold sortKeysDesc
    exact (List.perm_insertionSort _ _).mem_iff.2 hdk

/-- The depth-ordered node walk lists each recorded node once. -/
theorem orderedNodesOf_nodup (entries : List (Nat × Nat))
    (hnd : (alKeys entries).Nodup) :
    (orderedNodesOf (bucketize entries)).Nodup := by
  obtain ⟨hiff, hbnd, hknd⟩ := bucketize_spec entries hnd
  unfold orderedNodesOf
  have hksnd : (sortKeysDesc (alKeys (bucketize entries))).Nodup := by
    unfold sortKeysDesc
    rw [(List.perm_insertionSort _ _).nodup_iff]
    exact hknd
  have hmain : ∀ (ks : List Nat), ks.Nodup →
      (ks.flatMap (fun d => alGetD (bucketize entries) d [])).Nodup := by
    intro ks
    induction ks with
    | nil => intro _; simp
    | cons d ks ih =>
      intro hnd'
      have hstep : (d :: ks).flatMap (fun d => alGetD (bucketize entries) d []) =
          alGetD (bucketize entries) d [] ++
            ks.flatMap (fun d => alGetD (bucketize entries) d []) := rfl
      rw [hstep, List.nodup_append]
      refine ⟨hbnd d, ih (List.nodup_cons.1 hnd').2, ?_⟩
      intro x hx hx'
      rw [List.mem_flatMap] at hx'
      obtain ⟨d', hd', hx'⟩ := hx'
      have h1 := (hiff x d).1 hx
      have h2 := (hiff x d').1 hx'
      rw [h1] at h2
      injection h2 with h2
      subst h2
      exact (List.nodup_cons.1 hnd').1 hd'
  exact hmain _ hksnd

/-- Membership in the flattened bucket lists is membership in the dict. -/
theorem bucketize_flatMap_mem (entries : List (Nat × Nat))
    (hnd : (alKeys entries).Nodup) (k : Nat) :
    k ∈ (bucketize entries).flatMap (·.2) ↔ k ∈ alKeys entries := by
  obtain ⟨hiff, hbnd, hknd⟩ := bucketize_spec entries hnd
  constructor
  · intro h
    rw [List.mem_flatMap] at h
    obtain ⟨p, hp, hk⟩ := h
    have hget : alGet (bucketize entries) p.1 = some p.2 := by
      refine alGet_eq_some_of_mem hknd ?_
      cases p
      exact hp
    have hk' : k ∈ alGetD (bucketize entries) p.1 [] := by
      unfold alGetD
      rw [hget]
      exact hk
    rw [mem_alKeys_iff, (hiff k p.1).1 hk']
    rfl
  · intro h
    obtain ⟨d, hd⟩ := Option.isSome_iff_exists.1 (mem_alKeys_iff.1 h)
    have hk : k ∈ alGetD (bucketize entries) d [] := (hiff k d).2 hd
    cases hb : alGet (bucketize entries) d with
    | none =>
      exfalso
      unfold alGetD at hk
      rw [hb] at hk
      simp at hk
    | some b =>
      rw [List.mem_flatMap]
      refine ⟨(d, b), alGet_mem hb, ?_⟩
      unfold alGetD at hk
      rw [hb] at hk
      exact hk

/-- In a flat walk of buckets with strictly descending keys, members of a
strictly deeper bucket appear before members of a shallower one. -/
theorem flatMap_before (f : Nat → List Nat) :
    ∀ (ks : List Nat), ks.Pairwise (fun a b => b ≤ a) → ks.Nodup →
      ∀ (p n dp dn : Nat), dp ∈ ks → p ∈ f dp → dn ∈ ks → n ∈ f dn → dn < dp →
      (∀ d d', d ∈ ks → d' ∈ ks → n ∈ f d → n ∈ f d' → d = d') →
      ∀ pre post, ks.flatMap f = pre ++ n :: post → p ∈ pre := by
  intro ks
  induction ks with
  | nil =>
    intro _ _ p n dp dn hdp
    simp at hdp
  | cons d ks ih =>
    intro hsort hnd p n dp dn hdp hp hdn hn hlt huniq pre post hdec
    have hdnd : dn ≠ d := by
      intro hc
      subst hc
      rcases List.mem_cons.1 hdp with h' | h'
      · exact absurd h' (Nat.ne_of_gt hlt)
      · have := (List.pairwise_cons.1 hsort).1 dp h'
        omega
    have hdnks : dn ∈ ks := by
      rcases List.mem_cons.1 hdn with h' | h'
      · exact absurd h' hdnd
      · exact h'
    have hnfd : n ∉ f d := by
      intro hc
      exact hdnd (huniq dn d hdn (List.mem_cons_self _ _) hn hc)
    have hstep : (d :: ks).flatMap f = f d ++ ks.flatMap f := rfl
    rw [hstep] at hdec
    obtain ⟨pre', hpre, hrest⟩ := append_decomp_right hdec hnfd
    rcases List.mem_cons.1 hdp with hdpd | hdpks
    · subst hdpd
      rw [hpre]
      exact List.mem_append.2 (Or.inl hp)
    · have hres := ih (List.pairwise_cons.1 hsort).2 (List.nodup_cons.1 hnd).2
        p n dp dn hdpks hp hdnks hn hlt
        (fun e e' he he' => huniq e e' (List.mem_cons_of_mem _ he)
          (List.mem_cons_of_mem _ he'))
        pre' post hrest
      rw [hpre]
      exact List.mem_append.2 (Or.inr hres)

/-- The descending key sort is sorted. -/
theorem sortKeysDesc_sorted (l : List Nat) :
    (sortKeysDesc l).Pairwise (fun a b => b ≤ a) := by
  haveI hto : IsTotal Nat (fun a b : Nat => b ≤ a) := ⟨fun a b => le_total b a⟩
  haveI htr : IsTrans Nat (fun a b : Nat => b ≤ a) :=
    ⟨fun a b c hab hbc => le_trans hbc hab⟩
  exact List.sorted_insertionSort _ l

/-- The depth-ordered node walk respects the recorded depth invariant:
every recorded dependency of a walked node appears strictly before it. -/
theorem orderedNodesOf_deps_before (G : Graph) (entries : List (Nat × Nat))
    (hnd : (alKeys entries).Nodup)
    (hdepth : ∀ n dn, alGet entries n = some dn →
      ∀ p ∈ parentNodes G (G.node n), ∃ dp, alGet entries p = some dp ∧
        dn + 1 ≤ dp) :
    TopoOk G (orderedNodesOf (bucketize entries)) := by
  obtain ⟨hiff, hbnd, hknd⟩ := bucketize_spec entries hnd
  intro pre n post hdec p hp hpL
  have hn : n ∈ orderedNodesOf (bucketize entries) := by
    rw [hdec]
    exact List.mem_append.2 (Or.inr (List.mem_cons_self _ _))
  obtain ⟨dn, hdn⟩ := Option.isSome_iff_exists.1
    (mem_alKeys_iff.1 ((orderedNodesOf_mem entries hnd n).1 hn))
  obtain ⟨dp, hdp, hlt⟩ := hdepth n dn hdn p hp
  have hkey : ∀ {x : Nat} {dx : Nat}, alGet entries x = some dx →
      dx ∈ sortKeysDesc (alKeys (bucketize entries)) := by
    intro x dx hx
    have hk : x ∈ alGetD (bucketize entries) dx [] := (hiff x dx).2 hx
    have hdk : dx ∈ alKeys (bucketize entries) := by
      rw [mem_alKeys_iff]
      cases hb : alGet (bucketize entries) dx with
      | none =>
        exfalso
        unfold alGetD at hk
        rw [hb] at hk
        simp at hk
      | some b => rfl
    unfold sortKeysDesc
    exact (List.perm_insertionSort _ _).mem_iff.2 hdk
  have hksnd : (sortKeysDesc (alKeys (bucketize entries))).Nodup := by
    unfold sortKeysDesc
    rw [(List.perm_insertionSort _ _).nodup_iff]
    exact hknd
  refine flatMap_before (fun d => alGetD (bucketize entries) d [])
    (sortKeysDesc (alKeys (bucketize entries))) (sortKeysDesc_sorted _) hksnd
    p n dp dn (hkey hdp) ((hiff p dp).2 hdp) (hkey hdn) ((hiff n dn).2 hdn)
    (by omega) ?_ pre post hdec
  intro d d' _ _ hd hd'
  have h1 := (hiff n d).1 hd
  have h2 := (hiff n d').1 hd'
  rw [h1] at h2
  exact Option.some.inj h2

/-- A predicate on traversed nodes survives the worklist loop. -/
theorem visitList_pred (P : Nat → Prop)
    (visit : Nat → DFSState → Except GraphError DFSState)
    (hvisit : ∀ t s s', visit t s = .ok s' →
      (∀ n ∈ s.order, P n) → ∀ n ∈ s'.order, P n) :
    ∀ (ts : List Nat) (s s' : DFSState), visitList visit ts s = .ok s' →
      (∀ n ∈ s.order, P n) → ∀ n ∈ s'.order, P n := by
  intro ts
  induction ts with
  | nil =>
    intro s s' h hP
    injection h with h
    rw [← h]
    exact hP
  | cons t ts ih =>
    intro s s' h hP
    unfold visitList at h
    cases hv : visit t s with
    | error e =>
      rw [hv] at h
      exact Except.noConfusion h
    | ok s1 =>
      rw [hv] at h
      exact ih s1 s' h (hvisit t s s1 hv hP)

/-- Every node appended to the traversal order comes from some tensor's
history; a predicate true of all such resolved nodes holds of every
traversed node. -/
theorem buildMapVisit_pred (G : Graph) (P : Nat → Prop)
    (hres : ∀ t o i, (G.tensor t).history = some (o, i) →
      P ((G.op o).inbound_nodes.getD i 0)) :
    ∀ (fuel t : Nat) (s s' : DFSState), buildMapVisit G fuel t s = .ok s' →
      (∀ n ∈ s.order, P n) → ∀ n ∈ s'.order, P n := by
  intro fuel
  induction fuel with
  | zero =>
    intro t s s' h
    exact Except.noConfusion h
  | succ fuel ih =>
    intro t s s' h hP
    unfold buildMapVisit at h
    cases hh : (G.tensor t).history with
    | none =>
      rw [hh] at h
      injection h with h
      rw [← h]
      exact hP
    | some oi =>
      obtain ⟨opId, idx⟩ := oi
      rw [hh] at h
      dsimp only at h
      by_cases hf : (G.op opId).inbound_nodes.getD idx 0 ∈ s.finished
      · rw [if_pos hf] at h
        injection h with h
        rw [← h]
        exact hP
      · rw [if_neg hf] at h
        by_cases hip : (G.op opId).inbound_nodes.getD idx 0 ∈ s.in_progress
        · rw [if_pos hip] at h
          exact Except.noConfusion h
        · rw [if_neg hip] at h
          split at h
          · exact Except.noConfusion h
          · next s2 heq =>
            injection h with h
            have hs2 := visitList_pred P _
              (fun t' s_ s_' hv hP' => ih t' s_ s_' hv hP') _ _ _ heq hP
            intro n hn
            rw [← h] at hn
            dsimp only at hn
            rcases List.mem_append.1 hn with hn | hn
            · exact hs2 n hn
            · rw [List.mem_singleton] at hn
              rw [hn]
              exact hres t opId idx hh

/-- Every node in the DFS traversal order satisfies any predicate true of
all history-resolved nodes. -/
theorem buildMap_pred (G : Graph) (P : Nat → Prop)
    (hres : ∀ t o i, (G.tensor t).history = some (o, i) →
      P ((G.op o).inbound_nodes.getD i 0))
    (outputs : List Nat) (st : DFSState) (h : buildMap G outputs = .ok st) :
    ∀ n ∈ st.order, P n := by
  unfold buildMap at h
  refine visitList_pred P _
    (fun t s s' hv hP => buildMapVisit_pred G P hres _ t s s' hv hP)
    outputs _ st h ?_
  intro n hn
  simp at hn

/-- Every traversed node is an existing node of the graph. -/
theorem buildMap_order_nodes (G : Graph) (hwfp : WFProps G)
    (outputs : List Nat) (st : DFSState) (h : buildMap G outputs = .ok st) :
    ∀ n ∈ st.order, n ∈ alKeys G.nodes :=
  buildMap_pred G _ (fun t o i hh => (hwfp.resolve t o i hh).2.1) outputs st h

/-- Every key of the final node-depth dict is an existing node of the
graph. -/
theorem nodesDepthsOf_keys_nodes (G : Graph) (ins : List Nat) (st : DFSState)
    (hwfin : InputsWF G ins)
    (hinv : DFSInv G st) (horder : ∀ n ∈ st.order, n ∈ alKeys G.nodes) :
    ∀ k ∈ alKeys (nodesDepthsOf G ins st).nodes_depths, k ∈ alKeys G.nodes := by
  obtain ⟨hA, hB, hC⟩ := computeDepths_inv G st hinv
  have h0 : ∀ k ∈ alKeys (computeDepths G st.order).1, k ∈ alKeys G.nodes := by
    intro k hk
    rcases hB k hk with hk | ⟨m, hm, hpm⟩
    · exact horder k (List.mem_reverse.1 hk)
    · exact horder k
        (deps_closed hinv.deps_before (List.mem_reverse.1 hm) hpm)
  have hgen : ∀ (sub : List Nat), (∀ t ∈ sub, t ∈ ins) → ∀ (dd : DepthData),
      (∀ k ∈ alKeys dd.nodes_depths, k ∈ alKeys G.nodes) →
      ∀ k ∈ alKeys (sub.foldl (regStep G) dd).nodes_depths, k ∈ alKeys G.nodes := by
    intro sub
    induction sub with
    | nil => intro _ dd h; exact h
    | cons t sub ih =>
      intro hsub dd hP
      rw [List.foldl_cons]
      refine ih (fun x hx => hsub x (List.mem_cons_of_mem _ hx)) _ ?_
      unfold regStep
      cases hh : (G.tensor t).history with
      | none => exact hP
      | some oi =>
        obtain ⟨o, i⟩ := oi
        dsimp only
        by_cases hod : (alGet dd.operations_depths o).isSome
        · rw [if_pos hod]; exact hP
        · rw [if_neg hod]
          obtain ⟨hi0, r, hinb, hisin, hit, hout, hop, hrk⟩ :=
            hwfin.spec (hsub t (List.mem_cons_self _ _)) hh
          have hr : (G.op o).inbound_nodes.getD 0 0 = r := by rw [hinb]; rfl
          intro k hk
          dsimp only at hk
          rw [hr] at hk
          rcases mem_alKeys_update.1 hk with hk | rfl
          · exact hP k hk
          · exact hrk
  unfold nodesDepthsOf registerUnreached
  exact hgen ins (fun _ ht => ht) _ h0

/-- An accepted `map_graph` run passed its connectivity scan. -/
theorem map_graph_ok_scan (G : Graph) (ins outs : List Nat) (res : MapResult)
    (hok : map_graph G ins outs = .ok res) (st : DFSState)
    (hst : buildMap G outs = .ok st) :
    ∃ cs, scanNodes G ins
      (orderedNodesOf (bucketize (nodesDepthsOf G ins st).nodes_depths)) =
      .ok cs := by
  unfold map_graph at hok
  rw [hst] at hok
  dsimp only at hok
  split at hok
  · exact Except.noConfusion hok
  · next cs heq => exact ⟨cs, heq⟩

/-- A constructed `Function` determines its stored analysis, and its
construction passed the connectivity scan. -/
theorem buildFunction_ok_elim (G : Graph) (ins outs : List Nat) (f : KFunction)
    (h : buildFunction G ins outs = .ok f) :
    ∃ st, buildMap G outs = .ok st ∧
      f = { inputs := ins, outputs := outs
            nodes := (nodesDepthsOf G ins st).network_nodes
            nodes_by_depth := bucketize (nodesDepthsOf G ins st).nodes_depths
            operations := operationsOf (nodesDepthsOf G ins st)
            operations_by_depth := operationsByDepthOf (nodesDepthsOf G ins st) } ∧
      ∃ cs, scanNodes G ins
        (orderedNodesOf (bucketize (nodesDepthsOf G ins st).nodes_depths)) =
        .ok cs := by
  cases hm : map_graph G ins outs with
  | error e =>
    unfold buildFunction at h
    rw [hm] at h
    exact Except.noConfusion h
  | ok res =>
    unfold buildFunction at h
    rw [hm] at h
    injection h with h
    obtain ⟨st, hst, hres⟩ := map_graph_ok_elim G ins outs res hm
    refine ⟨st, hst, ?_, map_graph_ok_scan G ins outs res hm st hst⟩
    rw [← h, hres]

theorem seedDict_covers {V : Type} (refs : List Nat) (vals : List V)
    (hlen : vals.length = refs.length) :
    ∀ x ∈ refs, (alGet (seedDict refs vals) x).isSome = true := by
  intro x hx
  unfold seedDict
  refine writeFold_some _ _ _ ?_
  show x ∈ (refs.zip vals).map Prod.fst
  rw [List.map_fst_zip]
  · exact hx
  · exact le_of_eq hlen.symm

theorem map_alGet_congr {V : Type} (d1 d2 : List (Nat × V)) (h : DictEq d1 d2) :
    ∀ l : List Nat, l.map (alGet d1) = l.map (alGet d2) := by
  intro l
  induction l with
  | nil => rfl
  | cons a l ih => rw [List.map_cons, List.map_cons, h a, ih]

/-- C1: on a well-formed graph accepted by `Function.__init__`, `call`
returns the outputs obtained by evaluating each node's operation once, in
any valid topological order of the non-input analysis nodes, with each
node's arguments taken from the values computed for its input tensors
(the operation functions producing one value per node output). -/
theorem function_call_topo {V : Type} (G : Graph) (ins outs : List Nat)
    (hwf : G.WF) (hwfin : InputsWF G ins)
    (f : KFunction) (hbuild : buildFunction G ins outs = .ok f)
    (shapeOf : V → List (Option Nat)) (opApply : Nat → List V → List V)
    (vals : List V) (hlen : vals.length = ins.length)
    (hcompat : assertInputCompatibility G f.inputs (vals.map shapeOf) = .ok ())
    (harity : ∀ n ∈ analysisNodes f, (G.node n).is_input = false →
      ∀ args, (opApply ((G.node n).operation.getD 0) args).length =
        (G.node n).outputs.length)
    (σ : List Nat) (hσ : ValidTopoOrder G f σ) :
    call G f shapeOf opApply vals = .ok (topoEval G f opApply σ vals) := by
  obtain ⟨hσnd, hσmem, hσdeps⟩ := hσ
  have hwfp := hwf.props
  obtain ⟨st, hst, hf, cs, hscan⟩ := buildFunction_ok_elim G ins outs f hbuild
  have hfin : f.inputs = ins := by rw [hf]
  have hfnb : f.nodes_by_depth =
      bucketize (nodesDepthsOf G ins st).nodes_depths := by rw [hf]
  have hndnd := nodesDepthsOf_nd_nodup G ins st
  have hinv := (buildMap_ok G outs st hst).1
  have horder := buildMap_order_nodes G hwfp outs st hst
  have hkeysnodes := nodesDepthsOf_keys_nodes G ins st hwfin hinv horder
  have hρmem : ∀ k, k ∈ orderedNodesOf (bucketize (nodesDepthsOf G ins st).nodes_depths) ↔
      k ∈ alKeys (nodesDepthsOf G ins st).nodes_depths :=
    orderedNodesOf_mem _ hndnd
  have hρnd := orderedNodesOf_nodup _ hndnd
  have hρnodes : ∀ n ∈ orderedNodesOf (bucketize (nodesDepthsOf G ins st).nodes_depths),
      n ∈ alKeys G.nodes := fun n hn => hkeysnodes n ((hρmem n).1 hn)
  have hρtopo : TopoOk G (orderedNodesOf (bucketize (nodesDepthsOf G ins st).nodes_depths)) :=
    orderedNodesOf_deps_before G _ hndnd (nodesDepthsOf_inv G ins st hwfin hinv)
  have havail := scan_avail G hwfp ins _ cs hscan hρnodes
  have hana : ∀ n, n ∈ analysisNodes f ↔
      n ∈ alKeys (nodesDepthsOf G ins st).nodes_depths := by
    intro n
    unfold analysisNodes
    rw [hfnb]
    exact bucketize_flatMap_mem _ hndnd n
  have hop : ∀ n ∈ orderedNodesOf (bucketize (nodesDepthsOf G ins st).nodes_depths),
      (G.node n).operation.isSome = true := fun n hn =>
    hwfp.op_some (n, G.node n) (node_pair_mem (hρnodes n hn))
  have harityρ : ∀ n ∈ orderedNodesOf (bucketize (nodesDepthsOf G ins st).nodes_depths),
      (G.node n).is_input = false →
      ∀ args, (opApply ((G.node n).operation.getD 0) args).length =
        (G.node n).outputs.length := fun n hn hni args =>
    harity n ((hana n).2 ((hρmem n).1 hn)) hni args
  have hseed : ∀ x ∈ ins, (alGet (seedDict ins vals) x).isSome = true :=
    seedDict_covers ins vals hlen
  -- Step 1: the guarded run equals the unconditional fold over the
  -- non-input nodes of the walk.
  have hrun1 : (orderedNodesOf (bucketize (nodesDepthsOf G ins st).nodes_depths)).foldl
        (runStep G opApply) (seedDict ins vals) =
      ((orderedNodesOf (bucketize (nodesDepthsOf G ins st).nodes_depths)).filter
        (fun n => !(G.node n).is_input)).foldl (applyNode G opApply)
        (seedDict ins vals) := by
    refine runFold_filter G opApply ins _ [] (seedDict ins vals) ?_ hop harityρ hseed ?_
    · intro pre n post hdec _
      rw [List.nil_append] at hdec
      exact havail pre n post hdec
    · intro m hm
      exact absurd hm (List.not_mem_nil m)
  -- Step 2: confluence between the filtered walk and σ.
  have hfilmem : ∀ n, n ∈ (orderedNodesOf (bucketize (nodesDepthsOf G ins st).nodes_depths)).filter
      (fun n => !(G.node n).is_input) ↔
      (n ∈ alKeys (nodesDepthsOf G ins st).nodes_depths ∧ (G.node n).is_input = false) := by
    intro n
    rw [List.mem_filter]
    constructor
    · intro ⟨h1, h2⟩
      exact ⟨(hρmem n).1 h1, by simpa using h2⟩
    · intro ⟨h1, h2⟩
      exact ⟨(hρmem n).2 h1, by simp [h2]⟩
  have hiff : ∀ n, n ∈ (orderedNodesOf (bucketize (nodesDepthsOf G ins st).nodes_depths)).filter
      (fun n => !(G.node n).is_input) ↔ n ∈ σ := by
    intro n
    rw [hfilmem n, hσmem n, hana n]
  have hfilnodes : ∀ n ∈ (orderedNodesOf (bucketize (nodesDepthsOf G ins st).nodes_depths)).filter
      (fun n => !(G.node n).is_input), n ∈ alKeys G.nodes := by
    intro n hn
    exact hρnodes n (List.mem_filter.1 hn).1
  have hfiltopo : TopoOk G ((orderedNodesOf (bucketize (nodesDepthsOf G ins st).nodes_depths)).filter
      (fun n => !(G.node n).is_input)) := by
    intro pre n post hdec p hp hpL
    obtain ⟨pre0, post0, hl, hpre, hpost⟩ := filter_decomp _ _ pre n post hdec
    have hpρ : p ∈ orderedNodesOf (bucketize (nodesDepthsOf G ins st).nodes_depths) :=
      (List.mem_filter.1 hpL).1
    have hppre := hρtopo pre0 n post0 hl p hp hpρ
    rw [← hpre]
    exact List.mem_filter.2 ⟨hppre, (List.mem_filter.1 hpL).2⟩
  have hσtopo : TopoOk G σ := by
    intro pre n post hdec p hp hpσ
    have hpni : (G.node p).is_input = false := ((hσmem p).1 hpσ).2
    exact hσdeps pre n post hdec p hp hpni
  have hdisj : ∀ u ∈ (orderedNodesOf (bucketize (nodesDepthsOf G ins st).nodes_depths)).filter
      (fun n => !(G.node n).is_input),
      ∀ v ∈ (orderedNodesOf (bucketize (nodesDepthsOf G ins st).nodes_depths)).filter
        (fun n => !(G.node n).is_input),
      u ≠ v → ∀ x ∈ (G.node u).outputs, x ∉ (G.node v).outputs := by
    intro u hu v hv huv x hxu hxv
    exact huv (hwfp.producer_unique (u, G.node u) (node_pair_mem (hfilnodes u hu))
      (v, G.node v) (node_pair_mem (hfilnodes v hv)) x hxu hxv)
  have hpar : ∀ u ∈ (orderedNodesOf (bucketize (nodesDepthsOf G ins st).nodes_depths)).filter
      (fun n => !(G.node n).is_input),
      ∀ x ∈ (G.node u).input_tensors,
      ∀ v ∈ (orderedNodesOf (bucketize (nodesDepthsOf G ins st).nodes_depths)).filter
        (fun n => !(G.node n).is_input),
      x ∈ (G.node v).outputs → v ∈ parentNodes G (G.node u) := by
    intro u hu x hx v hv hxv
    obtain ⟨o, i, hvop, hhist, hvres⟩ :=
      hwfp.back_ref (v, G.node v) (node_pair_mem (hfilnodes v hv)) x hxv
    have huni : (G.node u).is_input = false := ((hfilmem u).1 hu).2
    unfold parentNodes
    rw [if_neg (by rw [huni]; exact Bool.false_ne_true)]
    rw [List.mem_filterMap]
    refine ⟨x, hx, ?_⟩
    unfold resolveNode
    rw [hhist]
    exact congrArg some hvres
  have hconf := topoFold_confluence G opApply
    ((orderedNodesOf (bucketize (nodesDepthsOf G ins st).nodes_depths)).filter
      (fun n => !(G.node n).is_input)) σ (seedDict ins vals)
    (List.Nodup.filter _ hρnd) hσnd hiff hfiltopo hσtopo hdisj hpar
  -- Step 3: assemble.
  have hdicteq : DictEq
      ((orderedNodesOf f.nodes_by_depth).foldl (runStep G opApply)
        (seedDict f.inputs vals))
      (topoEvalDict G opApply σ (seedDict f.inputs vals)) := by
    rw [hfin, hfnb, topoEvalDict_foldl, hrun1]
    exact hconf
  have hrun : runThroughGraph G f opApply vals = topoEval G f opApply σ vals := by
    unfold runThroughGraph topoEval
    dsimp only
    exact map_alGet_congr _ _ hdicteq f.outputs
  unfold call
  rw [hcompat, hrun]

/-- Witness for C1 on the chain graph: a summing operation replayed on the
concrete input value 10, against the topological order `[1]`. -/
theorem function_call_topo_witness :
    Gchain.WF ∧ InputsWF Gchain [0] ∧
      buildFunction Gchain [0] [1] = .ok fChain ∧
      ([10].length = [0].length) ∧
      assertInputCompatibility Gchain fChain.inputs
        (([10] : List Nat).map (fun _ => [none, some 4])) = .ok () ∧
      (∀ n ∈ analysisNodes fChain, (Gchain.node n).is_input = false →
        ∀ args : List Nat,
          ((fun _ args => [args.foldl (· + ·) 0]) ((Gchain.node n).operation.getD 0)
            args).length = (Gchain.node n).outputs.length) ∧
      ValidTopoOrder Gchain fChain [1] ∧
      call Gchain fChain (fun _ => [none, some 4])
        (fun _ args => [args.foldl (· + ·) 0]) [10] =
        .ok (topoEval Gchain fChain (fun _ args => [args.foldl (· + ·) 0]) [1] [10]) := by
  have he : analysisNodes fChain = [1, 0] := by rfl
  have harity : ∀ n ∈ analysisNodes fChain, (Gchain.node n).is_input = false →
      ∀ args : List Nat,
        ((fun _ args => [args.foldl (· + ·) 0]) ((Gchain.node n).operation.getD 0)
          args).length = (Gchain.node n).outputs.length := by
    intro n hn hni args
    rw [he] at hn
    rcases List.mem_cons.1 hn with h1 | h1
    · subst h1
      rfl
    · rw [List.mem_singleton] at h1
      subst h1
      exact absurd hni (by decide)
  have hvto : ValidTopoOrder Gchain fChain [1] := by
    refine ⟨by decide, ?_, ?_⟩
    · intro n
      constructor
      · intro hn
        rw [List.mem_singleton] at hn
        subst hn
        exact ⟨by decide, by decide⟩
      · intro ⟨h1, h2⟩
        rw [he] at h1
        rcases List.mem_cons.1 h1 with h1 | h1
        · rw [h1]
          exact List.mem_singleton_self _
        · rw [List.mem_singleton] at h1
          subst h1
          exact absurd h2 (by decide)
    · intro pre n post hdec p hp hpni
      cases pre with
      | nil =>
        rw [List.nil_append] at hdec
        injection hdec with h1 h2
        subst h1
        have hpar : parentNodes Gchain (Gchain.node 1) = [0] := by rfl
        rw [hpar] at hp
        rw [List.mem_singleton] at hp
        subst hp
        exact absurd hpni (by decide)
      | cons a pre' =>
        injection hdec with h1 h2
        cases pre' <;> simp at h2
  refine ⟨by rfl, by rfl, by rfl, by rfl, by rfl, harity, hvto, ?_⟩
  exact function_call_topo Gchain [0] [1] (by rfl) (by rfl) fChain (by rfl)
    (fun _ => [none, some 4]) (fun _ args => [args.foldl (· + ·) 0]) [10] (by rfl)
    (by rfl) harity [1] hvto

/-! ## C3: the `compute_output_spec` shortcut against the full path -/

theorem zip_map_left_mem {α β : Type} (f : α → β) :
    ∀ (l : List α) (p : β × α), p ∈ (l.map f).zip l → p.1 = f p.2 := by
  intro l
  induction l with
  | nil => intro p hp; simp at hp
  | cons a l ih =>
    intro p hp
    rw [List.map_cons, List.zip_cons_cons] at hp
    rcases List.mem_cons.1 hp with hp | hp
    · rw [hp]
    · exact ih p hp

theorem zip_map_right_mem {α β : Type} (f : α → β) :
    ∀ (l : List α) (p : α × β), p ∈ l.zip (l.map f) → p.2 = f p.1 := by
  intro l
  induction l with
  | nil => intro p hp; simp at hp
  | cons a l ih =>
    intro p hp
    rw [List.map_cons, List.zip_cons_cons] at hp
    rcases List.mem_cons.1 hp with hp | hp
    · rw [hp]
    · exact ih p hp

theorem map_mem_congr {α β : Type} {f g : α → β} :
    ∀ {l : List α}, (∀ a ∈ l, f a = g a) → l.map f = l.map g := by
  intro l
  induction l with
  | nil => intro _; rfl
  | cons a l ih =>
    intro h
    rw [List.map_cons, List.map_cons, h a (List.mem_cons_self _ _),
      ih (fun b hb => h b (List.mem_cons_of_mem _ hb))]

theorem registerLoop_nd_keys_mono (G : Graph) :
    ∀ (sub : List Nat) (dd : DepthData) (k : Nat),
      k ∈ alKeys dd.nodes_depths →
      k ∈ alKeys (sub.foldl (regStep G) dd).nodes_depths := by
  intro sub
  induction sub with
  | nil => intro dd k h; exact h
  | cons t sub ih =>
    intro dd k h
    rw [List.foldl_cons]
    refine ih _ k ?_
    unfold regStep
    cases hh : (G.tensor t).history with
    | none => exact h
    | some oi =>
      obtain ⟨o, i⟩ := oi
      dsimp only
      by_cases hod : (alGet dd.operations_depths o).isSome
      · rw [if_pos hod]; exact h
      · rw [if_neg hod]
        exact mem_alKeys_update.2 (Or.inl h)

theorem filterMap_alGet_ref (G : Graph) (dict : List (Nat × KT))
    (hInv : ∀ x v, alGet dict x = some v → v = refKT G x) :
    ∀ (l : List Nat), (∀ x ∈ l, (alGet dict x).isSome = true) →
      l.filterMap (fun x => alGet dict x) = l.map (refKT G) := by
  intro l
  induction l with
  | nil => intro _; rfl
  | cons x l ih =>
    intro hl
    obtain ⟨v, hv⟩ := Option.isSome_iff_exists.1 (hl x (List.mem_cons_self _ _))
    simp only [List.filterMap_cons, hv, List.map_cons]
    rw [ih (fun y hy => hl y (List.mem_cons_of_mem _ hy)), hInv x v hv]

/-- Replaying the graph on the reference metadata with consistent operation
specs keeps every dict entry at the reference metadata of its tensor, keeps
the seeded inputs present, and computes every non-input node's outputs. -/
theorem refRunFold (G : Graph) (opSpec : Nat → List KT → List KT) (ins : List Nat) :
    ∀ (L Lpre : List Nat) (dict : List (Nat × KT)),
      (∀ pre n post, Lpre ++ L = pre ++ n :: post → (G.node n).is_input = false →
        ∀ x ∈ (G.node n).input_tensors, x ∈ ins ∨
          ∃ m ∈ pre, (G.node m).is_input = false ∧ x ∈ (G.node m).outputs) →
      (∀ n ∈ L, (G.node n).operation.isSome = true) →
      (∀ n ∈ L, (G.node n).is_input = false →
        opSpec ((G.node n).operation.getD 0)
          ((G.node n).input_tensors.map (refKT G)) =
        (G.node n).outputs.map (refKT G)) →
      (∀ x v, alGet dict x = some v → v = refKT G x) →
      (∀ x ∈ ins, (alGet dict x).isSome = true) →
      (∀ m ∈ Lpre, (G.node m).is_input = false →
        ∀ x ∈ (G.node m).outputs, (alGet dict x).isSome = true) →
      (∀ x v, alGet (L.foldl (runStep G opSpec) dict) x = some v →
        v = refKT G x) ∧
      (∀ x ∈ ins, (alGet (L.foldl (runStep G opSpec) dict) x).isSome = true) ∧
      (∀ m ∈ Lpre ++ L, (G.node m).is_input = false →
        ∀ x ∈ (G.node m).outputs,
          (alGet (L.foldl (runStep G opSpec) dict) x).isSome = true) := by
  intro L
  induction L with
  | nil =>
    intro Lpre dict _ _ _ hA hB hC
    refine ⟨hA, hB, ?_⟩
    intro m hm
    rw [List.append_nil] at hm
    exact hC m hm
  | cons n L ih =>
    intro Lpre dict havail hop hcons hA hB hC
    rw [List.foldl_cons]
    have havail' : ∀ pre n' post, (Lpre ++ [n]) ++ L = pre ++ n' :: post →
        (G.node n').is_input = false → ∀ x ∈ (G.node n').input_tensors,
        x ∈ ins ∨ ∃ m ∈ pre, (G.node m).is_input = false ∧
          x ∈ (G.node m).outputs := by
      intro pre n' post hdec
      rw [List.append_assoc, List.singleton_append] at hdec
      exact havail pre n' post hdec
    by_cases hin : (G.node n).is_input = true
    · have hc : ((G.node n).operation.isNone || (G.node n).is_input) = true := by
        rw [hin]
        simp
      have hstep : runStep G opSpec dict n = dict := by
        unfold runStep
        dsimp only
        rw [if_pos hc]
      rw [hstep]
      have hres := ih (Lpre ++ [n]) dict havail'
        (fun m hm => hop m (List.mem_cons_of_mem _ hm))
        (fun m hm => hcons m (List.mem_cons_of_mem _ hm)) hA hB ?_
      · refine ⟨hres.1, hres.2.1, ?_⟩
        intro m hm
        apply hres.2.2
        rw [List.append_assoc, List.singleton_append]
        exact hm
      · intro m hm hmin x hx
        rcases List.mem_append.1 hm with hm | hm
        · exact hC m hm hmin x hx
        · rw [List.mem_singleton] at hm
          subst hm
          rw [hmin] at hin
          exact absurd hin (by simp)
    · have hinf : (G.node n).is_input = false := Bool.eq_false_iff.2 hin
      have havail_n : ∀ x ∈ (G.node n).input_tensors,
          (alGet dict x).isSome = true := by
        intro x hx
        rcases havail Lpre n L rfl hinf x hx with hxi | ⟨m, hm, hmin, hmx⟩
        · exact hB x hxi
        · exact hC m hm hmin x hmx
      rw [runStep_eq_applyNode G opSpec dict n (hop n (List.mem_cons_self _ _))
        hinf havail_n]
      have hAN : applyNode G opSpec dict n =
          ((G.node n).outputs.zip ((G.node n).outputs.map (refKT G))).foldl
            (fun d p => alUpdate d p.1 p.2) dict := by
        rw [applyNode_args_eq G opSpec dict dict n (fun _ _ => rfl),
          filterMap_alGet_ref G dict hA _ havail_n,
          hcons n (List.mem_cons_self _ _) hinf]
      rw [hAN]
      have hpairs : ∀ p ∈ (G.node n).outputs.zip ((G.node n).outputs.map (refKT G)),
          p.2 = refKT G p.1 := fun p hp => zip_map_right_mem (refKT G) _ p hp
      have hA' := writeFold_inv (refKT G) _ dict hpairs hA
      have hB' : ∀ x ∈ ins,
          (alGet (((G.node n).outputs.zip ((G.node n).outputs.map (refKT G))).foldl
            (fun d p => alUpdate d p.1 p.2) dict) x).isSome = true :=
        fun x hx => writeFold_isSome_mono _ _ _ (hB x hx)
      have hwrites : ∀ x ∈ (G.node n).outputs,
          (alGet (((G.node n).outputs.zip ((G.node n).outputs.map (refKT G))).foldl
            (fun d p => alUpdate d p.1 p.2) dict) x).isSome = true := by
        intro x hx
        refine writeFold_some _ _ _ ?_
        show x ∈ ((G.node n).outputs.zip _).map Prod.fst
        rw [List.map_fst_zip]
        · exact hx
        · rw [List.length_map]
      have hC' : ∀ m ∈ Lpre ++ [n], (G.node m).is_input = false →
          ∀ x ∈ (G.node m).outputs,
          (alGet (((G.node n).outputs.zip ((G.node n).outputs.map (refKT G))).foldl
            (fun d p => alUpdate d p.1 p.2) dict) x).isSome = true := by
        intro m hm hmin x hx
        rcases List.mem_append.1 hm with hm | hm
        · exact writeFold_isSome_mono _ _ _ (hC m hm hmin x hx)
        · rw [List.mem_singleton] at hm
          subst hm
          exact hwrites x hx
      have hres := ih (Lpre ++ [n]) _ havail'
        (fun m hm => hop m (List.mem_cons_of_mem _ hm))
        (fun m hm => hcons m (List.mem_cons_of_mem _ hm)) hA' hB' hC'
      refine ⟨hres.1, hres.2.1, ?_⟩
      intro m hm
      apply hres.2.2
      rw [List.append_assoc, List.singleton_append]
      exact hm

/-- C3 (amended): on a well-formed constructed `Function` whose operation
specs reproduce the stored reference metadata (shape *and* dtype) and whose
declared outputs are produced tensors, `compute_output_spec` applied to the
reference input metadata returns the stored reference output metadata on
both the shortcut path and the full graph-traversal path — so the two paths
agree.  (As stated the claim is false: equal *shapes* do not pin down the
dtypes, see the counterexample.) -/
theorem computeOutputSpec_ref_agree (G : Graph) (ins outs : List Nat)
    (hwf : G.WF) (hwfin : InputsWF G ins)
    (f : KFunction) (hbuild : buildFunction G ins outs = .ok f)
    (opSpec : Nat → List KT → List KT)
    (hcons : ∀ n ∈ analysisNodes f, (G.node n).is_input = false →
      opSpec ((G.node n).operation.getD 0)
        ((G.node n).input_tensors.map (refKT G)) =
      (G.node n).outputs.map (refKT G))
    (houtsrc : ∀ t ∈ outs, ((G.tensor t).history).isSome = true) :
    computeOutputSpec G f opSpec (f.inputs.map (refKT G)) =
      .ok (f.outputs.map (fun t => some (refKT G t))) ∧
    computeOutputSpecFull G f opSpec (f.inputs.map (refKT G)) =
      .ok (f.outputs.map (fun t => some (refKT G t))) := by
  have hwfp := hwf.props
  obtain ⟨st, hst, hf, cs, hscan⟩ := buildFunction_ok_elim G ins outs f hbuild
  have hfin : f.inputs = ins := by rw [hf]
  have hfout : f.outputs = outs := by rw [hf]
  have hfnb : f.nodes_by_depth =
      bucketize (nodesDepthsOf G ins st).nodes_depths := by rw [hf]
  have hndnd := nodesDepthsOf_nd_nodup G ins st
  have hinv := (buildMap_ok G outs st hst).1
  have horder := buildMap_order_nodes G hwfp outs st hst
  have hkeysnodes := nodesDepthsOf_keys_nodes G ins st hwfin hinv horder
  have hρmem : ∀ k, k ∈ orderedNodesOf (bucketize (nodesDepthsOf G ins st).nodes_depths) ↔
      k ∈ alKeys (nodesDepthsOf G ins st).nodes_depths :=
    orderedNodesOf_mem _ hndnd
  have hρnodes : ∀ n ∈ orderedNodesOf (bucketize (nodesDepthsOf G ins st).nodes_depths),
      n ∈ alKeys G.nodes := fun n hn => hkeysnodes n ((hρmem n).1 hn)
  have havail := scan_avail G hwfp ins _ cs hscan hρnodes
  have hana : ∀ n, n ∈ analysisNodes f ↔
      n ∈ alKeys (nodesDepthsOf G ins st).nodes_depths := by
    intro n
    unfold analysisNodes
    rw [hfnb]
    exact bucketize_flatMap_mem _ hndnd n
  have hop : ∀ n ∈ orderedNodesOf (bucketize (nodesDepthsOf G ins st).nodes_depths),
      (G.node n).operation.isSome = true := fun n hn =>
    hwfp.op_some (n, G.node n) (node_pair_mem (hρnodes n hn))
  have hconsρ : ∀ n ∈ orderedNodesOf (bucketize (nodesDepthsOf G ins st).nodes_depths),
      (G.node n).is_input = false →
      opSpec ((G.node n).operation.getD 0)
        ((G.node n).input_tensors.map (refKT G)) =
      (G.node n).outputs.map (refKT G) := fun n hn hni =>
    hcons n ((hana n).2 ((hρmem n).1 hn)) hni
  have hseedA : ∀ x v, alGet (seedDict ins (ins.map (refKT G))) x = some v →
      v = refKT G x := by
    unfold seedDict
    refine writeFold_inv (refKT G) _ _ ?_ ?_
    · intro p hp
      exact zip_map_right_mem (refKT G) ins p hp
    · intro x v hx
      exact absurd hx (by simp [alGet])
  have hseedB : ∀ x ∈ ins, (alGet (seedDict ins (ins.map (refKT G))) x).isSome = true :=
    seedDict_covers ins (ins.map (refKT G)) (by simp)
  have hres := refRunFold G opSpec ins
    (orderedNodesOf (bucketize (nodesDepthsOf G ins st).nodes_depths)) []
    (seedDict ins (ins.map (refKT G)))
    (by
      intro pre n post hdec _
      rw [List.nil_append] at hdec
      exact havail pre n post hdec)
    hop hconsρ hseedA hseedB
    (by
      intro m hm
      exact absurd hm (List.not_mem_nil m))
  obtain ⟨hA, hB, hC⟩ := hres
  have hcov : ∀ t ∈ f.outputs,
      alGet ((orderedNodesOf (bucketize (nodesDepthsOf G ins st).nodes_depths)).foldl
        (runStep G opSpec) (seedDict ins (ins.map (refKT G)))) t =
        some (refKT G t) := by
    intro t ht
    rw [hfout] at ht
    have hsrc := houtsrc t ht
    cases hoi : (G.tensor t).history with
    | none =>
      rw [hoi] at hsrc
      exact absurd hsrc (by simp)
    | some oi =>
      obtain ⟨o, i⟩ := oi
      obtain ⟨hilt, hnidk, hnidop, htout⟩ := hwfp.resolve t o i hoi
      have hresolve : resolveNode G t = some ((G.op o).inbound_nodes.getD i 0) := by
        unfold resolveNode
        rw [hoi]
      have hfin_t := (buildMap_ok G outs st hst).2.2 t ht _ hresolve
      have hnidorder : (G.op o).inbound_nodes.getD i 0 ∈ st.order :=
        (hinv.fin_iff _).1 hfin_t
      obtain ⟨hI, _, _⟩ := computeDepths_inv G st hinv
      obtain ⟨dn, hdn, _⟩ := hI _ (List.mem_reverse.2 hnidorder)
      have hnidnd0 : (G.op o).inbound_nodes.getD i 0 ∈
          alKeys (computeDepths G st.order).1 := by
        rw [mem_alKeys_iff, hdn]
        rfl
      have hnidnd : (G.op o).inbound_nodes.getD i 0 ∈
          alKeys (nodesDepthsOf G ins st).nodes_depths := by
        unfold nodesDepthsOf registerUnreached
        exact registerLoop_nd_keys_mono G ins _ _ hnidnd0
      have hnidρ : (G.op o).inbound_nodes.getD i 0 ∈
          orderedNodesOf (bucketize (nodesDepthsOf G ins st).nodes_depths) :=
        (hρmem _).2 hnidnd
      by_cases hni : (G.node ((G.op o).inbound_nodes.getD i 0)).is_input = true
      · -- the producing node is a root input node: t is a declared input
        have hiteq := hwfp.input_tensors_eq (_, G.node ((G.op o).inbound_nodes.getD i 0))
          (node_pair_mem hnidk) hni
        obtain ⟨P1, P2, hP⟩ := List.append_of_mem hnidρ
        have htins : t ∈ ins := by
          rcases havail P1 _ P2 hP t (by rw [hiteq]; exact htout) with htins | ⟨m, hm, hmni, hmt⟩
          · exact htins
          · exfalso
            have hmρ : m ∈ orderedNodesOf (bucketize (nodesDepthsOf G ins st).nodes_depths) := by
              rw [hP]
              exact List.mem_append.2 (Or.inl hm)
            have hmeq : m = (G.op o).inbound_nodes.getD i 0 :=
              hwfp.producer_unique (m, G.node m)
                (node_pair_mem (hρnodes m hmρ))
                (_, G.node ((G.op o).inbound_nodes.getD i 0))
                (node_pair_mem hnidk) t hmt htout
            rw [hmeq, hni] at hmni
            exact absurd hmni (by simp)
        obtain ⟨v, hv⟩ := Option.isSome_iff_exists.1 (hB t htins)
        rw [hv, hA t v hv]
      · have hnif : (G.node ((G.op o).inbound_nodes.getD i 0)).is_input = false :=
          Bool.eq_false_iff.2 hni
        have hsome := hC _ hnidρ hnif t htout
        obtain ⟨v, hv⟩ := Option.isSome_iff_exists.1 hsome
        rw [hv, hA t v hv]
  have hrunref : runThroughGraph G f opSpec (f.inputs.map (refKT G)) =
      f.outputs.map (fun t => some (refKT G t)) := by
    unfold runThroughGraph
    dsimp only
    rw [hfin, hfnb]
    exact map_mem_congr hcov
  have hcompat : assertInputCompatibility G f.inputs
      ((f.inputs.map (refKT G)).map (·.shape)) = .ok () := by
    refine assert_ok_of_shape_eq G f.inputs (f.inputs.map (refKT G)) (by simp) ?_
    intro p hp
    rw [zip_map_left_mem (refKT G) f.inputs p hp]
    rfl
  have hshort : ((f.inputs.map (refKT G)).zip f.inputs).all
      (fun p => p.1.shape == (G.tensor p.2).shape) = true := by
    rw [List.all_eq_true]
    intro p hp
    rw [zip_map_left_mem (refKT G) f.inputs p hp]
    simp [refKT]
  constructor
  · unfold computeOutputSpec
    rw [hcompat]
    dsimp only
    rw [if_pos hshort]
  · unfold computeOutputSpecFull
    rw [hcompat]
    dsimp only
    rw [hrunref]

/-- C3, counterexample to the claim as stated: a dtype-propagating dense
spec consistent with the stored graph metadata, applied to an input whose
shape equals the reference shape but whose dtype differs (`int32` vs the
stored `float32`).  The shortcut returns the stored `float32` output
metadata while the full graph traversal propagates `int32`: the results
are not identical in dtype. -/
theorem computeOutputSpec_dtype_counterexample :
    buildFunction Gchain [0] [1] = .ok fChain ∧
    (∀ p ∈ ([(⟨[none, some 4], "int32"⟩ : KT)].zip fChain.inputs),
      p.1.shape = (Gchain.tensor p.2).shape) ∧
    computeOutputSpec Gchain fChain
      (fun _ args => args.map (fun kt => KT.mk [none, some 8] kt.dtype))
      [⟨[none, some 4], "int32"⟩] =
      .ok [some ⟨[none, some 8], "float32"⟩] ∧
    computeOutputSpecFull Gchain fChain
      (fun _ args => args.map (fun kt => KT.mk [none, some 8] kt.dtype))
      [⟨[none, some 4], "int32"⟩] =
      .ok [some ⟨[none, some 8], "int32"⟩] ∧
    (some (⟨[none, some 8], "float32"⟩ : KT) ≠
      some (⟨[none, some 8], "int32"⟩ : KT)) :=
  ⟨by rfl, by decide, by rfl, by rfl, by decide⟩

/-- Witness for the amended C3 on the chain graph with the dtype-propagating
dense spec. -/
theorem computeOutputSpec_ref_agree_witness :
    Gchain.WF ∧ InputsWF Gchain [0] ∧
      buildFunction Gchain [0] [1] = .ok fChain ∧
      (∀ n ∈ analysisNodes fChain, (Gchain.node n).is_input = false →
        (fun _ args => args.map (fun kt => KT.mk [none, some 8] kt.dtype))
            ((Gchain.node n).operation.getD 0)
            ((Gchain.node n).input_tensors.map (refKT Gchain)) =
          (Gchain.node n).outputs.map (refKT Gchain)) ∧
      (∀ t ∈ ([1] : List Nat), ((Gchain.tensor t).history).isSome = true) ∧
      (computeOutputSpec Gchain fChain
          (fun _ args => args.map (fun kt => KT.mk [none, some 8] kt.dtype))
          (fChain.inputs.map (refKT Gchain)) =
        .ok (fChain.outputs.map (fun t => some (refKT Gchain t))) ∧
       computeOutputSpecFull Gchain fChain
          (fun _ args => args.map (fun kt => KT.mk [none, some 8] kt.dtype))
          (fChain.inputs.map (refKT Gchain)) =
        .ok (fChain.outputs.map (fun t => some (refKT Gchain t)))) := by
  have hcons : ∀ n ∈ analysisNodes fChain, (Gchain.node n).is_input = false →
      (fun _ args => args.map (fun kt => KT.mk [none, some 8] kt.dtype))
          ((Gchain.node n).operation.getD 0)
          ((Gchain.node n).input_tensors.map (refKT Gchain)) =
        (Gchain.node n).outputs.map (refKT Gchain) := by
    intro n hn hni
    have he : analysisNodes fChain = [1, 0] := by rfl
    rw [he] at hn
    rcases List.mem_cons.1 hn with h1 | h1
    · subst h1
      rfl
    · rw [List.mem_singleton] at h1
      subst h1
      exact absurd hni (by decide)
  have houts : ∀ t ∈ ([1] : List Nat), ((Gchain.tensor t).history).isSome = true := by
    decide
  exact ⟨by rfl, by rfl, by rfl, hcons, houts,
    computeOutputSpec_ref_agree Gchain [0] [1] (by rfl) (by rfl) fChain (by rfl)
      (fun _ args => args.map (fun kt => KT.mk [none, some 8] kt.dtype)) hcons houts⟩

end KerasGraph
